import Mathlib

/-!
StringSet (Source/WTF/wtf/StringSet.cpp): a string-interning set.

Shallow embedding of `StringSet` and a verification of its interning,
lookup, growth and persistence behaviour.

Modelling conventions (x86-64 Linux, LP64, little-endian, `char` signed):

* `std::vector<char> m_data` is a `List Byte`, `std::vector<int> m_hashes` a
  `List Int`, the counter `m_hashTableLoad` a `Nat` (it is only reset to 0 and
  incremented).
* A `const char*` is the list of bytes readable from the pointer on; reading
  past the end of that list is an out-of-bounds read.
* Undefined or non-returning behaviour is an explicit `Fault`: `hash % 0`,
  a read outside a buffer, a loop that never exits, a `std::length_error`.
* `while` loops are recursions on a fuel counter.  A probe loop gets one full cycle
  over the slot array, which the loop does not modify: when the model reports
  `Fault.diverges` there, no slot is empty and the loop has no exit
  (`probeEmpty_diverges`, `findLoop_diverges`).  The arena scan gets one round per
  arena byte and one for the final test: its next position depends on the current
  position alone, so a scan that exits has stood at a different position below the
  arena size in every round.  The growth loop gets two rounds more than the arena has
  bytes; on the states reached within the 2^31 bounds it exits after at most one
  (`growLoop_spec`).  A result of either loop other than `Fault.diverges` is the same
  for every larger amount of fuel (`rehashLoop_fuel`, `growLoop_fuel`).
* The invocations of `addHashNoRehash` made during a call are listed by the
  functions `rehashLoopCalls`, `growLoopCalls`, `addHashCalls`, `addStringCalls` and
  `loadFromFileCalls`, which follow the control flow of the function they belong to
  and record the state and the arguments of each invocation.
* An `int` that receives a `size_t` (`int pos = m_data.size()`, `int len = strlen(s)`,
  the `int index` of `getString(pos)`, the `int value` of `addHashNoRehash(hash, pos)`,
  `int n = m_data.size()`) keeps the low 32 bits, read as a two's complement number
  (`sizeToInt`).  A pointer before the buffer reads nothing, `len + 1` on `int` faults
  when `len` is `INT_MAX`, and `size_t` arithmetic is modulo 2^64.  The counter
  `m_hashTableLoad` and the slot index `p` are exact numbers.
* After `m_data.resize(n, 0)` has cut the arena, the vector keeps its buffer: the bytes
  of the old arena from position `n` on stay behind the new end, and the `strlen` of
  `rehashAll`, which is not bounded by `m_data.size()`, reads them when the new arena
  does not end in a 0 byte.  `rehashLoop` takes these bytes as its parameter `slack`.
-/

set_option maxRecDepth 20000

namespace StringSet

/-- One `char` of storage, as its unsigned byte value. -/
abbrev Byte := Fin 256

/-- Ways in which a call can fail to return normally. -/
inductive Fault where
  /-- The call evaluates `hash % m_hashes.size()` with an empty slot array. -/
  | divideByZero
  /-- The call reads outside the buffer it was given. -/
  | outOfBounds
  /-- The call enters a loop that has no exit. -/
  | diverges
  /-- The call asks a `std::vector` for more than `max_size()` elements. -/
  | lengthError
  /-- The call evaluates an `int` expression whose value does not fit an `int`. -/
  | signedOverflow
  deriving DecidableEq, Repr

end StringSet

/-- The data members of `StringSet`. -/
structure StringSet where
  /-- The byte arena: `std::vector<char> m_data`. -/
  m_data : List StringSet.Byte
  /-- The slot array: `std::vector<int> m_hashes`; `-1` marks an empty slot. -/
  m_hashes : List Int
  /-- The counter: `int m_hashTableLoad`. -/
  m_hashTableLoad : Nat
  deriving DecidableEq, Repr

namespace StringSet

/-- `StringSet::StringSet()`: both vectors empty, `m_hashTableLoad(0)`. -/
def empty : StringSet := ⟨[], [], 0⟩

/-- The memory image of a NUL-terminated string with payload `s`. -/
def cstr (s : List Byte) : List Byte := s ++ [0]

/-- `strlen`: index of the first 0 byte; `none` when the buffer holds none. -/
def strlen : List Byte → Option Nat
  | [] => none
  | b :: bs => if b = 0 then some 0 else (strlen bs).map (· + 1)

/-- `strcmp(a, b) == 0`; `none` when a buffer ends before the comparison is decided. -/
def strcmpEq : List Byte → List Byte → Option Bool
  | [], _ => none
  | _ :: _, [] => none
  | a :: as, b :: bs =>
    if a ≠ b then some false
    else if a = 0 then some true
    else strcmpEq as bs

/-- `static_cast<unsigned int>(c)` for a (signed) `char` holding byte `b`. -/
def charToUnsignedInt (b : Byte) : Nat :=
  if b.val < 128 then b.val else 2 ^ 32 - 256 + b.val

/-- One round of the loop of `stringHash` on `unsigned long` (64 bit). -/
def hashStep (hash : Nat) (b : Byte) : Nat :=
  ((hash * 2 ^ 5 % 2 ^ 64 + hash) % 2 ^ 64 + charToUnsignedInt b) % 2 ^ 64

/-- Narrowing of an `unsigned long` to `int` on return. -/
def toInt32 (x : Nat) : Int :=
  if x % 2 ^ 32 < 2 ^ 31 then ((x % 2 ^ 32 : Nat) : Int) else ((x % 2 ^ 32 : Nat) : Int) - 4294967296

/-- Conversion of a `size_t` to `int` (`int n = m_data.size()`, `int len = strlen(s)`,
the `int index` of `getString(pos)`): the low 32 bits are kept and read as a two's
complement number. -/
def sizeToInt (n : Nat) : Int := toInt32 n

/-- `StringSet::stringHash(s, slen)`: the loop `for (int i = 0; i < slen; ++i)` reads
`s[0] .. s[slen-1]`, and nothing when `slen ≤ 0`; a caller holding the `int slen`
passes `slen.toNat`. -/
def stringHash (s : List Byte) (slen : Nat) : Int :=
  toInt32 ((s.take slen).foldl hashStep 5381)

/-- Conversion of an `int` to `size_t` (64 bit), as in `hash % m_hashes.size()`. -/
def toSizeT (x : Int) : Nat := (x % 18446744073709551616).toNat

/-- `StringSet::getString(index)`: the bytes readable from `m_data.data() + index`. -/
def getString (S : StringSet) (index : Int) : List Byte :=
  if 0 ≤ index then S.m_data.drop index.toNat else []

/-- The step `++p; if (p == m_hashes.size()) p = 0;` of both probe loops. -/
def nextSlot (hashes : List Int) (p : Nat) : Nat :=
  if p + 1 = hashes.length then 0 else p + 1

/-- The `while` loop of `findStringL`, started at slot `p`. -/
def findLoop (S : StringSet) (s : List Byte) : Nat → Nat → Except Fault Int
  | 0, _ => .error .diverges
  | fuel + 1, p =>
    match S.m_hashes[p]? with
    | none => .error .outOfBounds
    | some v =>
      if v = -1 then .ok (-1)
      else
        match strcmpEq s (S.getString v) with
        | none => .error .outOfBounds
        | some true => .ok v
        | some false => findLoop S s fuel (nextSlot S.m_hashes p)

/-- `StringSet::findStringL(s, slen, hash)`. -/
def findStringL (S : StringSet) (s : List Byte) (_slen : Nat) (hash : Int) :
    Except Fault Int :=
  if S.m_hashes.length = 0 then .ok (-1)
  else findLoop S s S.m_hashes.length (toSizeT hash % S.m_hashes.length)

/-- `StringSet::findString(s)`, with `int len = strlen(s)`. -/
def findString (S : StringSet) (s : List Byte) : Except Fault Int :=
  match strlen s with
  | none => .error .outOfBounds
  | some n =>
    let len : Int := sizeToInt n
    S.findStringL s len.toNat (stringHash s len.toNat)

/-- `StringSet::containsString(s)`, with `int len = strlen(s)`. -/
def containsString (S : StringSet) (s : List Byte) : Except Fault Bool :=
  match strlen s with
  | none => .error .outOfBounds
  | some n =>
    let len : Int := sizeToInt n
    match S.findStringL s len.toNat (stringHash s len.toNat) with
    | .error e => .error e
    | .ok r => .ok (decide (r ≠ -1))

/-- The `while` loop of `addHashNoRehash`, started at slot `p`: the slot it stops at. -/
def probeEmpty (hashes : List Int) : Nat → Nat → Except Fault Nat
  | 0, _ => .error .diverges
  | fuel + 1, p =>
    match hashes[p]? with
    | none => .error .outOfBounds
    | some v => if v = -1 then .ok p else probeEmpty hashes fuel (nextSlot hashes p)

/-- `StringSet::addHashNoRehash(hash, value)`. -/
def addHashNoRehash (S : StringSet) (hash : Int) (value : Int) : Except Fault StringSet :=
  if S.m_hashes.length = 0 then .error .divideByZero
  else
    match probeEmpty S.m_hashes S.m_hashes.length (toSizeT hash % S.m_hashes.length) with
    | .error e => .error e
    | .ok p =>
      .ok { S with m_hashTableLoad := S.m_hashTableLoad + 1
                   m_hashes := S.m_hashes.set p value }

/-- The bytes readable from the pointer `getString(index)` when the bytes `slack` stay
readable in the buffer behind the end of the arena; nothing is readable from a pointer
before the buffer. -/
def readString (S : StringSet) (slack : List Byte) (index : Int) : List Byte :=
  if 0 ≤ index then (S.m_data ++ slack).drop index.toNat else []

/-- The `while (pos < m_data.size())` loop of `rehashAll`, with `size_t pos`,
`getString(int index)`, `int len = strlen(str)`, `addHashNoRehash(int hash, int value)`
and `pos += len + 1`; `slack` holds the bytes that stay readable behind the arena. -/
def rehashLoop (slack : List Byte) : Nat → StringSet → Nat → Except Fault StringSet
  | 0, _, _ => .error .diverges
  | fuel + 1, S, pos =>
    if pos < S.m_data.length then
      match strlen (S.readString slack (sizeToInt pos)) with
      | none => .error .outOfBounds
      | some n =>
        match S.addHashNoRehash
            (stringHash (S.readString slack (sizeToInt pos)) (sizeToInt n).toNat)
            (sizeToInt pos) with
        | .error e => .error e
        | .ok S1 =>
          if sizeToInt n = 2147483647 then .error .signedOverflow
          else rehashLoop slack fuel S1
            ((pos + toSizeT (sizeToInt n + 1)) % 18446744073709551616)
    else .ok S

/-- `StringSet::rehashAll()` when the bytes `slack` stay readable behind the arena. -/
def rehashAllBehind (slack : List Byte) (S : StringSet) : Except Fault StringSet :=
  rehashLoop slack (S.m_data.length + 1) { S with m_hashTableLoad := 0 } 0

/-- `StringSet::rehashAll()` when nothing is readable behind the arena. -/
def rehashAll (S : StringSet) : Except Fault StringSet :=
  rehashAllBehind [] S

/-- The `while (load * 2 >= size)` loop of `addHash`. -/
def growLoop : Nat → StringSet → Except Fault StringSet
  | 0, _ => .error .diverges
  | fuel + 1, S =>
    if S.m_hashTableLoad * 2 ≥ S.m_hashes.length then
      match rehashAll { S with m_hashes := List.replicate (S.m_hashes.length * 2 + 3) (-1) } with
      | .error e => .error e
      | .ok S1 => growLoop fuel S1
    else .ok S

/-- `StringSet::addHash(hash, value)`. -/
def addHash (S : StringSet) (hash : Int) (value : Int) : Except Fault StringSet :=
  match growLoop (S.m_data.length + 2) S with
  | .error e => .error e
  | .ok S1 => S1.addHashNoRehash hash value

/-- `StringSet::addStringL(s, slen)`: the handle and the state afterwards.  With
`int pos = m_data.size()`; the range `[s, s + slen + 1)` of the insertion is formed by
pointer arithmetic and is not a range when it ends before `s`. -/
def addStringL (S : StringSet) (s : List Byte) (slen : Int) : Except Fault (Int × StringSet) :=
  let hash := stringHash s slen.toNat
  match S.findStringL s slen.toNat hash with
  | .error e => .error e
  | .ok pos =>
    if pos = -1 then
      let pos : Int := sizeToInt S.m_data.length
      match S.addHash hash pos with
      | .error e => .error e
      | .ok S1 =>
        if slen + 1 < 0 then .error .outOfBounds
        else .ok (pos, { S1 with m_data := S1.m_data ++ s.take (slen + 1).toNat })
    else .ok (pos, S)

/-- `StringSet::addString(s)`: `strlen(s)` is narrowed to the `int slen` of
`addStringL`. -/
def addString (S : StringSet) (s : List Byte) : Except Fault (Int × StringSet) :=
  match strlen s with
  | none => .error .outOfBounds
  | some n => S.addStringL s (sizeToInt n)

/-- The four bytes of an `int` object in memory (two's complement, low byte first). -/
def intToBytes (n : Int) : List Byte :=
  let u := (n % 4294967296).toNat
  [⟨u % 256, Nat.mod_lt _ (by decide)⟩, ⟨u / 256 % 256, Nat.mod_lt _ (by decide)⟩,
   ⟨u / 65536 % 256, Nat.mod_lt _ (by decide)⟩, ⟨u / 16777216 % 256, Nat.mod_lt _ (by decide)⟩]

/-- The `int` whose object representation is the given four bytes. -/
def bytesToInt : List Byte → Int
  | [b0, b1, b2, b3] => toInt32 (b0.val + 256 * b1.val + 65536 * b2.val + 16777216 * b3.val)
  | _ => 0

/-- `StringSet::saveToFile(f)`: the bytes written to `f`, in order. -/
def saveToFile (S : StringSet) : List Byte :=
  intToBytes (sizeToInt S.m_data.length) ++ S.m_data ++ intToBytes (sizeToInt S.m_hashes.length)

/-- `m_data.resize(n, 0)` for `n ≥ 0`. -/
def resize (data : List Byte) (n : Nat) : List Byte :=
  (data ++ List.replicate (n - data.length) 0).take n

/-- `StringSet::loadFromFile(f)`, where `f` is the list of bytes still unread in the
stream: the returned `bool` and the state afterwards.  A negative element count is
converted to a `size_t` above `max_size()`, and the vector throws.  When `resize` cuts
the arena, the bytes cut off stay in the buffer behind the new end, where the `strlen`
of `rehashAll` can read them. -/
def loadFromFile (S : StringSet) (f : List Byte) : Except Fault (Bool × StringSet) :=
  if f.length < 4 then .ok (false, S)
  else
    let n := bytesToInt (f.take 4)
    let f1 := f.drop 4
    if n < 0 then .error .lengthError
    else
      let resized := resize S.m_data n.toNat
      let slack := S.m_data.drop n.toNat
      let got := f1.take n.toNat
      let S1 : StringSet := { S with m_data := got ++ resized.drop got.length }
      if got.length ≠ S1.m_data.length then .ok (false, S1)
      else
        let f2 := f1.drop n.toNat
        if f2.length < 4 then .ok (false, S1)
        else
          let n := bytesToInt (f2.take 4)
          if n < 0 then .error .lengthError
          else
            match rehashAllBehind slack { S1 with m_hashes := List.replicate n.toNat (-1) } with
            | .error e => .error e
            | .ok S2 => .ok (true, S2)

/-- Interning a sequence of NUL-terminated strings in order: the handles returned and
the final state. -/
def internAll : StringSet → List (List Byte) → Except Fault (List Int × StringSet)
  | S, [] => .ok ([], S)
  | S, s :: ss =>
    match S.addString (cstr s) with
    | .error e => .error e
    | .ok (h, S1) =>
      match internAll S1 ss with
      | .error e => .error e
      | .ok (hs, S2) => .ok (h :: hs, S2)

/-- A payload without a 0 byte. -/
def NulFree (s : List Byte) : Prop := ∀ b ∈ s, b ≠ 0

instance (s : List Byte) : Decidable (NulFree s) := by
  unfold NulFree; infer_instance

/-- States reached from the constructor by `addString` calls on NUL-free strings. -/
inductive Reachable : StringSet → Prop where
  | init : Reachable empty
  | step {S S1 : StringSet} {h : Int} (s : List Byte) :
      Reachable S → NulFree s → S.addString (cstr s) = .ok (h, S1) → Reachable S1

/-- The arena holding the given records: each payload followed by one 0 byte. -/
def arenaOf : List (List Byte) → List Byte
  | [] => []
  | r :: rs => r ++ 0 :: arenaOf rs

/-- Start offset of the first record equal to `s` in the arena of `recs`. -/
def offsetOf : List (List Byte) → List Byte → Option Nat
  | [], _ => none
  | r :: rs, s => if r = s then some 0 else (offsetOf rs s).map (· + (r.length + 1))

/-- Hash of a payload, as `stringHash` computes it from a NUL-terminated copy. -/
def hashOf (r : List Byte) : Int := stringHash r r.length

/-- The slot-array effect of `addHashNoRehash`. -/
def insertSlot (T : List Int) (hash : Int) (value : Int) : Except Fault (List Int) :=
  if T.length = 0 then .error .divideByZero
  else
    match probeEmpty T T.length (toSizeT hash % T.length) with
    | .error e => .error e
    | .ok p => .ok (T.set p value)

/-- The slot array obtained by inserting the records `rs`, stored from offset `base`
on, one after the other into `T`. -/
def buildFrom (T : List Int) (base : Nat) : List (List Byte) → Except Fault (List Int)
  | [] => .ok T
  | r :: rs =>
    match insertSlot T (hashOf r) base with
    | .error e => .error e
    | .ok T1 => buildFrom T1 (base + (r.length + 1)) rs

/-- Record `r`, stored at offset `o`, sits in the probe sequence of its hash with no
empty slot before it. -/
def Placed (T : List Int) (r : List Byte) (o : Nat) : Prop :=
  ∃ k, k < T.length ∧ T[(toSizeT (hashOf r) % T.length + k) % T.length]? = some (o : Int) ∧
    ∀ j, j < k → ∃ v, T[(toSizeT (hashOf r) % T.length + j) % T.length]? = some v ∧ v ≠ -1

/-- The slot array `T` indexes exactly the records `recs`. -/
structure TableOK (T : List Int) (recs : List (List Byte)) : Prop where
  placed : ∀ r o, offsetOf recs r = some o → Placed T r o
  valid : ∀ (p : Nat) (v : Int), T[p]? = some v → v ≠ -1 → ∃ r o, offsetOf recs r = some o ∧ v = (o : Int)

/-- The handle of `s` among the records `recs`: its offset, or -1 when it is absent. -/
def handleOf (recs : List (List Byte)) (s : List Byte) : Int :=
  match offsetOf recs s with
  | some o => (o : Int)
  | none => -1

/-- State `S` stores exactly the records `recs`, in this order. -/
structure Inv (S : StringSet) (recs : List (List Byte)) : Prop where
  data : S.m_data = arenaOf recs
  nul : ∀ r ∈ recs, NulFree r
  nodup : recs.Nodup
  load : S.m_hashTableLoad = recs.length
  built : buildFrom (List.replicate S.m_hashes.length (-1)) 0 recs = .ok S.m_hashes
  cap : ∃ k, S.m_hashes.length = 3 * (2 ^ k - 1)
  bound : (recs = [] ∧ S.m_hashes.length = 0) ∨
    (3 ≤ S.m_hashes.length ∧ 2 * recs.length ≤ S.m_hashes.length + 1)

/-- The records `recs`, laid out from offset `base` on, all start below 2^31 and take,
with their terminators, fewer than 2^31 bytes each: the `int` index and the `int` length
that `rehashAll` computes for each of them are the exact numbers. -/
def OffsetsFit : Nat → List (List Byte) → Prop
  | _, [] => True
  | base, r :: rs =>
    base < 2 ^ 31 ∧ r.length + 1 < 2 ^ 31 ∧ OffsetsFit (base + (r.length + 1)) rs

/-- States reached from the constructor by `addString` calls on NUL-free strings
shorter than 2^31 bytes, each call leaving an arena shorter than 2^31 bytes: every size,
length and offset on the way fits the `int` that receives it. -/
inductive SmallReachable : StringSet → Prop where
  | init : SmallReachable empty
  | step {S S1 : StringSet} {h : Int} (s : List Byte) :
      SmallReachable S → NulFree s → s.length < 2 ^ 31 →
      S.addString (cstr s) = .ok (h, S1) → S1.m_data.length < 2 ^ 31 → SmallReachable S1

/-- The records stored after interning `ss` on top of the records `recs`: each string
that is not stored yet is appended. -/
def internRecs : List (List Byte) → List (List Byte) → List (List Byte)
  | recs, [] => recs
  | recs, s :: ss => if s ∈ recs then internRecs recs ss else internRecs (recs ++ [s]) ss

/-- The 0-terminated records of an arena, found the way `rehashAll` finds them: the
bytes up to the next 0 byte form a record, and the scan goes on behind that 0 byte.
Bytes behind the last 0 byte form no record. -/
def scanRecords : Nat → List Byte → List (List Byte)
  | 0, _ => []
  | fuel + 1, arena =>
    match strlen arena with
    | none => []
    | some len => arena.take len :: scanRecords fuel (arena.drop (len + 1))

/-- The 0-terminated records of an arena; an arena has at most one record per byte. -/
def records (arena : List Byte) : List (List Byte) := scanRecords arena.length arena

/-- The start offsets of the 0-terminated records of an arena, from position `pos` on. -/
def scanOffsets : Nat → Nat → List Byte → List Nat
  | 0, _, _ => []
  | fuel + 1, pos, arena =>
    match strlen arena with
    | none => []
    | some len => pos :: scanOffsets fuel (pos + (len + 1)) (arena.drop (len + 1))

/-- The start offsets of the 0-terminated records of an arena. -/
def recordOffsets (arena : List Byte) : List Nat := scanOffsets arena.length 0 arena

/-- The distinct strings of a sequence in order of first occurrence: the first string,
then the distinct strings of the rest, in order of first occurrence, without it. -/
def firstOccurrences : List (List Byte) → List (List Byte)
  | [] => []
  | s :: ss => s :: (firstOccurrences ss).filter (fun t => decide (t ≠ s))

/-- The hash as the specification words it: `h := 5381`, then `h := h*33 + b` for each
of the first `n` bytes `b`, in unsigned 32-bit arithmetic with wraparound, read as a
signed 32-bit integer. -/
def specHash (s : List Byte) (n : Nat) : Int :=
  toInt32 ((s.take n).foldl (fun h b => (h * 33 + b.val) % 2 ^ 32) 5381)

/-- One invocation of `addHashNoRehash`: the state it is invoked on and its arguments. -/
structure HashCall where
  state : StringSet
  hash : Int
  value : Int

/-- The invocations of `addHashNoRehash` made by the loop of `rehashAll`, in order, up
to and including one that does not return. -/
def rehashLoopCalls (slack : List Byte) : Nat → StringSet → Nat → List HashCall
  | 0, _, _ => []
  | fuel + 1, S, pos =>
    if pos < S.m_data.length then
      match strlen (S.readString slack (sizeToInt pos)) with
      | none => []
      | some n =>
        match S.addHashNoRehash
            (stringHash (S.readString slack (sizeToInt pos)) (sizeToInt n).toNat)
            (sizeToInt pos) with
        | .error _ =>
          [⟨S, stringHash (S.readString slack (sizeToInt pos)) (sizeToInt n).toNat,
            sizeToInt pos⟩]
        | .ok S1 =>
          ⟨S, stringHash (S.readString slack (sizeToInt pos)) (sizeToInt n).toNat,
            sizeToInt pos⟩ ::
            (if sizeToInt n = 2147483647 then []
             else rehashLoopCalls slack fuel S1
               ((pos + toSizeT (sizeToInt n + 1)) % 18446744073709551616))
    else []

/-- The invocations of `addHashNoRehash` made by `rehashAll` when the bytes `slack`
stay readable behind the arena. -/
def rehashAllBehindCalls (slack : List Byte) (S : StringSet) : List HashCall :=
  rehashLoopCalls slack (S.m_data.length + 1) { S with m_hashTableLoad := 0 } 0

/-- The invocations of `addHashNoRehash` made by `loadFromFile(f)`. -/
def loadFromFileCalls (S : StringSet) (f : List Byte) : List HashCall :=
  if f.length < 4 then []
  else
    let n := bytesToInt (f.take 4)
    let f1 := f.drop 4
    if n < 0 then []
    else
      let resized := resize S.m_data n.toNat
      let slack := S.m_data.drop n.toNat
      let got := f1.take n.toNat
      let S1 : StringSet := { S with m_data := got ++ resized.drop got.length }
      if got.length ≠ S1.m_data.length then []
      else
        let f2 := f1.drop n.toNat
        if f2.length < 4 then []
        else
          let n := bytesToInt (f2.take 4)
          if n < 0 then []
          else rehashAllBehindCalls slack { S1 with m_hashes := List.replicate n.toNat (-1) }

theorem nulFree_cons {b : Byte} {s : List Byte} :
    NulFree (b :: s) ↔ b ≠ 0 ∧ NulFree s := by
  simp [NulFree]

theorem strlen_payload (s rest : List Byte) (hs : NulFree s) :
    strlen (s ++ 0 :: rest) = some s.length := by
  induction s with
  | nil => simp [strlen]
  | cons b s ih =>
    obtain ⟨hb, hs⟩ := nulFree_cons.mp hs
    simp [strlen, hb, ih hs]

theorem strlen_cstr (s : List Byte) (hs : NulFree s) : strlen (cstr s) = some s.length :=
  strlen_payload s [] hs

theorem strcmpEq_payload (s r rest : List Byte) (hs : NulFree s) (hr : NulFree r) :
    strcmpEq (cstr s) (r ++ 0 :: rest) = some (decide (s = r)) := by
  induction s generalizing r with
  | nil =>
    cases r with
    | nil => simp [cstr, strcmpEq]
    | cons b r =>
      obtain ⟨hb, -⟩ := nulFree_cons.mp hr
      simp [cstr, strcmpEq, Ne.symm hb]
  | cons a s ih =>
    obtain ⟨ha, hs⟩ := nulFree_cons.mp hs
    cases r with
    | nil => simp [cstr, strcmpEq, ha]
    | cons b r =>
      have hr1 : NulFree r := (nulFree_cons.mp hr).2
      by_cases hab : a = b
      · subst hab
        have := ih r hs hr1
        simp only [cstr] at this
        simp [cstr, strcmpEq, ha, this]
      · simp [cstr, strcmpEq, hab]

theorem stringHash_payload (s rest : List Byte) :
    stringHash (s ++ rest) s.length = hashOf s := by
  simp [stringHash, hashOf]

theorem arenaOf_append (xs ys : List (List Byte)) :
    arenaOf (xs ++ ys) = arenaOf xs ++ arenaOf ys := by
  induction xs with
  | nil => simp [arenaOf]
  | cons r xs ih => simp [arenaOf, ih]

theorem arenaOf_length_cons (r : List Byte) (rs : List (List Byte)) :
    (arenaOf (r :: rs)).length = r.length + 1 + (arenaOf rs).length := by
  simp [arenaOf]; omega

theorem offsetOf_isSome (recs : List (List Byte)) (s : List Byte) :
    (∃ o, offsetOf recs s = some o) ↔ s ∈ recs := by
  induction recs with
  | nil => simp [offsetOf]
  | cons r rs ih =>
    by_cases h : r = s
    · simp [offsetOf, h]
    · simp only [offsetOf, h, if_false, Option.map_eq_some', List.mem_cons]
      constructor
      · rintro ⟨o, a, ha, -⟩
        exact Or.inr (ih.mp ⟨a, ha⟩)
      · rintro (h1 | h1)
        · exact absurd h1.symm h
        · obtain ⟨a, ha⟩ := ih.mpr h1
          exact ⟨_, a, ha, rfl⟩

theorem offsetOf_eq_none (recs : List (List Byte)) (s : List Byte) :
    offsetOf recs s = none ↔ s ∉ recs := by
  rw [← offsetOf_isSome]
  cases offsetOf recs s <;> simp

/-- The bytes readable from a record's offset are its payload and terminator. -/
theorem drop_offsetOf (recs : List (List Byte)) (s : List Byte) (o : Nat)
    (h : offsetOf recs s = some o) :
    ∃ rest, (arenaOf recs).drop o = s ++ 0 :: rest := by
  induction recs generalizing o with
  | nil => simp [offsetOf] at h
  | cons r rs ih =>
    by_cases hr : r = s
    · subst hr
      simp only [offsetOf, if_true, Option.some.injEq] at h
      subst h
      exact ⟨arenaOf rs, by simp [arenaOf]⟩
    · simp only [offsetOf, hr, if_false, Option.map_eq_some'] at h
      obtain ⟨a, ha, rfl⟩ := h
      obtain ⟨rest, hrest⟩ := ih a ha
      refine ⟨rest, ?_⟩
      have : arenaOf (r :: rs) = (r ++ [0]) ++ arenaOf rs := by simp [arenaOf]
      rw [this, show a + (r.length + 1) = (r ++ [0]).length + a by simp; omega,
        List.drop_append, hrest]

theorem offsetOf_lt (recs : List (List Byte)) (s : List Byte) (o : Nat)
    (h : offsetOf recs s = some o) : o + s.length < (arenaOf recs).length := by
  obtain ⟨rest, hrest⟩ := drop_offsetOf recs s o h
  have := congrArg List.length hrest
  simp at this
  omega

theorem offsetOf_append_left (xs ys : List (List Byte)) (s : List Byte) (h : s ∈ xs) :
    offsetOf (xs ++ ys) s = offsetOf xs s := by
  induction xs with
  | nil => simp at h
  | cons r xs ih =>
    by_cases hr : r = s
    · simp [offsetOf, hr]
    · have : s ∈ xs := by
        rcases List.mem_cons.mp h with h1 | h1
        · exact absurd h1.symm hr
        · exact h1
      simp [offsetOf, hr, ih this]

theorem offsetOf_append_right (xs ys : List (List Byte)) (s : List Byte) (h : s ∉ xs) :
    offsetOf (xs ++ ys) s = (offsetOf ys s).map (· + (arenaOf xs).length) := by
  induction xs with
  | nil => simp [arenaOf]
  | cons r xs ih =>
    have hr : r ≠ s := fun e => h (by simp [e])
    have hx : s ∉ xs := fun e => h (by simp [e])
    have e : offsetOf (r :: xs ++ ys) s
        = (offsetOf (xs ++ ys) s).map (· + (r.length + 1)) := by
      show offsetOf (r :: (xs ++ ys)) s = _
      simp [offsetOf, hr]
    rw [e, ih hx]
    cases offsetOf ys s with
    | none => rfl
    | some a =>
      simp only [Option.map_some', arenaOf, List.length_append, List.length_cons,
        Option.some.injEq]
      omega

theorem offsetOf_snoc_self (xs : List (List Byte)) (s : List Byte) (h : s ∉ xs) :
    offsetOf (xs ++ [s]) s = some (arenaOf xs).length := by
  rw [offsetOf_append_right xs [s] s h]
  simp [offsetOf]

/-! ## Probe loops -/

theorem nextSlot_eq (T : List Int) (p : Nat) (hp : p < T.length) :
    nextSlot T p = (p + 1) % T.length := by
  unfold nextSlot
  split
  · next h => rw [h, Nat.mod_self]
  · next h => rw [Nat.mod_eq_of_lt (by omega)]

theorem step_mod (c p j : Nat) : ((p + 1) % c + j) % c = (p + (j + 1)) % c := by
  rw [Nat.mod_add_mod]
  congr 1
  omega

theorem exists_probe_offset (c p e : Nat) (hp : p < c) (he : e < c) :
    ∃ k, k < c ∧ (p + k) % c = e := by
  refine ⟨(e + c - p) % c, Nat.mod_lt _ (by omega), ?_⟩
  rw [Nat.add_mod_mod, show p + (e + c - p) = e + c by omega, Nat.add_mod_right,
    Nat.mod_eq_of_lt he]

theorem exists_empty_slot (T : List Int) (h : 0 < T.count (-1)) :
    ∃ e, e < T.length ∧ T[e]? = some (-1) := by
  obtain ⟨e, he⟩ := List.mem_iff_getElem?.mp (List.count_pos_iff.mp h)
  obtain ⟨hlt, -⟩ := List.getElem?_eq_some.mp he
  exact ⟨e, hlt, he⟩

/-- The probe loop of `addHashNoRehash` stops at the first empty slot of the probe
sequence. -/
theorem probeEmpty_spec (T : List Int) :
    ∀ (k fuel p : Nat), k < fuel → p < T.length → T[(p + k) % T.length]? = some (-1) →
      ∃ k1, k1 ≤ k ∧ probeEmpty T fuel p = .ok ((p + k1) % T.length) ∧
        T[(p + k1) % T.length]? = some (-1) ∧
        ∀ j, j < k1 → ∃ v, T[(p + j) % T.length]? = some v ∧ v ≠ -1 := by
  intro k
  induction k with
  | zero =>
    intro fuel p hf hp he
    obtain ⟨fuel, rfl⟩ : ∃ f, fuel = f + 1 := ⟨fuel - 1, by omega⟩
    rw [Nat.add_zero, Nat.mod_eq_of_lt hp] at he
    refine ⟨0, le_refl _, ?_, ?_, ?_⟩
    · simp [probeEmpty, he, Nat.mod_eq_of_lt hp]
    · simpa [Nat.mod_eq_of_lt hp] using he
    · intro j hj; omega
  | succ k ih =>
    intro fuel p hf hp he
    obtain ⟨fuel, rfl⟩ : ∃ f, fuel = f + 1 := ⟨fuel - 1, by omega⟩
    obtain ⟨v, hv⟩ : ∃ v, T[p]? = some v := ⟨T[p], List.getElem?_eq_getElem hp⟩
    by_cases hv1 : v = -1
    · subst hv1
      refine ⟨0, Nat.zero_le _, ?_, ?_, ?_⟩
      · simp [probeEmpty, hv, Nat.mod_eq_of_lt hp]
      · simpa [Nat.mod_eq_of_lt hp] using hv
      · intro j hj; omega
    · have hc : 0 < T.length := by omega
      have hp1 : (p + 1) % T.length < T.length := Nat.mod_lt _ hc
      obtain ⟨k1, hk1, hres, hemp, hocc⟩ :=
        ih fuel ((p + 1) % T.length) (by omega) hp1 (by rw [step_mod]; exact he)
      refine ⟨k1 + 1, by omega, ?_, ?_, ?_⟩
      · rw [step_mod] at hres
        simp [probeEmpty, hv, hv1, nextSlot_eq T p hp, hres]
      · rw [step_mod] at hemp; exact hemp
      · intro j hj
        cases j with
        | zero => exact ⟨v, by simpa [Nat.mod_eq_of_lt hp] using hv, hv1⟩
        | succ j =>
          have := hocc j (by omega)
          rw [step_mod] at this
          exact this

theorem getString_natCast (S : StringSet) (o : Nat) :
    S.getString (o : Int) = S.m_data.drop o := by
  simp [getString]

/-- Comparing a query with the record stored at a valid offset decides equality of the
payloads. -/
theorem strcmpEq_record (S : StringSet) (recs : List (List Byte)) (s r : List Byte) (o : Nat)
    (hdata : S.m_data = arenaOf recs) (hnul : ∀ r ∈ recs, NulFree r) (hs : NulFree s)
    (ho : offsetOf recs r = some o) :
    strcmpEq (cstr s) (S.getString (o : Int)) = some (decide (s = r)) := by
  obtain ⟨rest, hrest⟩ := drop_offsetOf recs r o ho
  have hr : NulFree r := hnul r ((offsetOf_isSome recs r).mp ⟨o, ho⟩)
  rw [getString_natCast, hdata, hrest]
  exact strcmpEq_payload s r rest hs hr

theorem offsetOf_inj (recs : List (List Byte)) (s r : List Byte) (o : Nat)
    (hnul : ∀ r ∈ recs, NulFree r)
    (hs : offsetOf recs s = some o) (hr : offsetOf recs r = some o) : s = r := by
  have hs1 : NulFree s := hnul s ((offsetOf_isSome recs s).mp ⟨o, hs⟩)
  have h := strcmpEq_record ⟨arenaOf recs, [], 0⟩ recs s r o rfl hnul hs1 hr
  have h1 := strcmpEq_record ⟨arenaOf recs, [], 0⟩ recs s s o rfl hnul hs1 hs
  rw [h1] at h
  simpa using h

/-- A lookup of a stored record returns its offset. -/
theorem findLoop_hit (S : StringSet) (recs : List (List Byte)) (s : List Byte) (o : Nat)
    (hdata : S.m_data = arenaOf recs) (hnul : ∀ r ∈ recs, NulFree r)
    (hvalid : ∀ (p : Nat) (v : Int), S.m_hashes[p]? = some v → v ≠ -1 →
      ∃ r o, offsetOf recs r = some o ∧ v = (o : Int))
    (hs : NulFree s) (ho : offsetOf recs s = some o) :
    ∀ (k fuel p : Nat), k < fuel → p < S.m_hashes.length →
      S.m_hashes[(p + k) % S.m_hashes.length]? = some (o : Int) →
      (∀ j, j < k → ∃ v, S.m_hashes[(p + j) % S.m_hashes.length]? = some v ∧ v ≠ -1) →
      findLoop S (cstr s) fuel p = .ok (o : Int) := by
  intro k
  induction k with
  | zero =>
    intro fuel p hf hp he _
    obtain ⟨fuel, rfl⟩ : ∃ f, fuel = f + 1 := ⟨fuel - 1, by omega⟩
    rw [Nat.add_zero, Nat.mod_eq_of_lt hp] at he
    have hne : (o : Int) ≠ -1 := by omega
    have hcmp := strcmpEq_record S recs s s o hdata hnul hs ho
    simp [findLoop, he, hne, hcmp]
  | succ k ih =>
    intro fuel p hf hp he hocc
    obtain ⟨fuel, rfl⟩ : ∃ f, fuel = f + 1 := ⟨fuel - 1, by omega⟩
    obtain ⟨v, hv, hv1⟩ := hocc 0 (by omega)
    rw [Nat.add_zero, Nat.mod_eq_of_lt hp] at hv
    obtain ⟨r, o1, hr, rfl⟩ := hvalid p v hv hv1
    have hcmp := strcmpEq_record S recs s r o1 hdata hnul hs hr
    by_cases hsr : s = r
    · subst hsr
      have : o1 = o := by rw [ho] at hr; exact (Option.some.inj hr).symm
      subst this
      simp [findLoop, hv, hv1, hcmp]
    · have hc : 0 < S.m_hashes.length := by omega
      have hp1 : (p + 1) % S.m_hashes.length < S.m_hashes.length := Nat.mod_lt _ hc
      have := ih fuel ((p + 1) % S.m_hashes.length) (by omega) hp1
        (by rw [step_mod]; exact he)
        (by
          intro j hj
          have := hocc (j + 1) (by omega)
          rw [step_mod]; exact this)
      simp [findLoop, hv, hv1, hcmp, hsr, nextSlot_eq _ p hp, this]

/-- A lookup of a string that is not stored ends at an empty slot. -/
theorem findLoop_miss (S : StringSet) (recs : List (List Byte)) (s : List Byte)
    (hdata : S.m_data = arenaOf recs) (hnul : ∀ r ∈ recs, NulFree r)
    (hvalid : ∀ (p : Nat) (v : Int), S.m_hashes[p]? = some v → v ≠ -1 →
      ∃ r o, offsetOf recs r = some o ∧ v = (o : Int))
    (hs : NulFree s) (hnot : s ∉ recs) :
    ∀ (k fuel p : Nat), k < fuel → p < S.m_hashes.length →
      S.m_hashes[(p + k) % S.m_hashes.length]? = some (-1) →
      findLoop S (cstr s) fuel p = .ok (-1) := by
  intro k
  induction k with
  | zero =>
    intro fuel p hf hp he
    obtain ⟨fuel, rfl⟩ : ∃ f, fuel = f + 1 := ⟨fuel - 1, by omega⟩
    rw [Nat.add_zero, Nat.mod_eq_of_lt hp] at he
    simp [findLoop, he]
  | succ k ih =>
    intro fuel p hf hp he
    obtain ⟨fuel, rfl⟩ : ∃ f, fuel = f + 1 := ⟨fuel - 1, by omega⟩
    obtain ⟨v, hv⟩ : ∃ v, S.m_hashes[p]? = some v :=
      ⟨S.m_hashes[p], List.getElem?_eq_getElem hp⟩
    by_cases hv1 : v = -1
    · subst hv1
      simp [findLoop, hv]
    · obtain ⟨r, o1, hr, rfl⟩ := hvalid p v hv hv1
      have hcmp := strcmpEq_record S recs s r o1 hdata hnul hs hr
      have hsr : s ≠ r := fun e => hnot (e ▸ (offsetOf_isSome recs r).mp ⟨o1, hr⟩)
      have hc : 0 < S.m_hashes.length := by omega
      have hp1 : (p + 1) % S.m_hashes.length < S.m_hashes.length := Nat.mod_lt _ hc
      have := ih fuel ((p + 1) % S.m_hashes.length) (by omega) hp1
        (by rw [step_mod]; exact he)
      simp [findLoop, hv, hv1, hcmp, hsr, nextSlot_eq _ p hp, this]

/-- When the model of the insert probe runs out of fuel after a full cycle, the slot
array has no empty slot, so the loop of `addHashNoRehash` never exits. -/
theorem probeEmpty_diverges (T : List Int) (p : Nat) (hp : p < T.length)
    (h : probeEmpty T T.length p = .error .diverges) : ∀ e : Nat, T[e]? ≠ some (-1) := by
  intro e he
  obtain ⟨he1, -⟩ := List.getElem?_eq_some.mp he
  obtain ⟨k, hk, hke⟩ := exists_probe_offset T.length p e hp he1
  obtain ⟨k1, -, hres, -, -⟩ := probeEmpty_spec T k T.length p hk hp (by rw [hke]; exact he)
  rw [hres] at h
  cases h

theorem findLoop_exits (S : StringSet) (s : List Byte) :
    ∀ (k fuel p : Nat), k < fuel → p < S.m_hashes.length →
      S.m_hashes[(p + k) % S.m_hashes.length]? = some (-1) →
      findLoop S s fuel p ≠ .error .diverges := by
  intro k
  induction k with
  | zero =>
    intro fuel p hf hp he
    obtain ⟨fuel, rfl⟩ : ∃ f, fuel = f + 1 := ⟨fuel - 1, by omega⟩
    rw [Nat.add_zero, Nat.mod_eq_of_lt hp] at he
    simp [findLoop, he]
  | succ k ih =>
    intro fuel p hf hp he
    obtain ⟨fuel, rfl⟩ : ∃ f, fuel = f + 1 := ⟨fuel - 1, by omega⟩
    obtain ⟨v, hv⟩ : ∃ v, S.m_hashes[p]? = some v :=
      ⟨S.m_hashes[p], List.getElem?_eq_getElem hp⟩
    have hc : 0 < S.m_hashes.length := by omega
    have hrec := ih fuel ((p + 1) % S.m_hashes.length) (by omega) (Nat.mod_lt _ hc)
      (by rw [step_mod]; exact he)
    simp only [findLoop, hv]
    split
    · simp
    · split
      · simp
      · simp
      · rw [nextSlot_eq _ p hp]; exact hrec

/-- When the model of the lookup probe runs out of fuel after a full cycle, the slot
array has no empty slot and no slot of the cycle matched, so the loop of `findStringL`
never exits. -/
theorem findLoop_diverges (S : StringSet) (s : List Byte) (p : Nat)
    (hp : p < S.m_hashes.length)
    (h : findLoop S s S.m_hashes.length p = .error .diverges) :
    ∀ e : Nat, S.m_hashes[e]? ≠ some (-1) := by
  intro e he
  obtain ⟨he1, -⟩ := List.getElem?_eq_some.mp he
  obtain ⟨k, hk, hke⟩ := exists_probe_offset S.m_hashes.length p e hp he1
  exact findLoop_exits S s k _ p hk hp (by rw [hke]; exact he) h

/-! ## Inserting into the slot array -/

theorem addHashNoRehash_eq (S : StringSet) (hash value : Int) :
    S.addHashNoRehash hash value =
      match insertSlot S.m_hashes hash value with
      | .error e => .error e
      | .ok T => .ok { S with m_hashTableLoad := S.m_hashTableLoad + 1, m_hashes := T } := by
  unfold addHashNoRehash insertSlot
  split
  · rfl
  · cases probeEmpty S.m_hashes S.m_hashes.length (toSizeT hash % S.m_hashes.length) <;> rfl

theorem count_set_empty (T : List Int) (p : Nat) (v : Int) (hp : T[p]? = some (-1))
    (hv : v ≠ -1) : (T.set p v).count (-1) + 1 = T.count (-1) := by
  obtain ⟨hlt, hget⟩ := List.getElem?_eq_some.mp hp
  have hpos : 0 < T.count (-1) :=
    List.count_pos_iff.mpr (List.mem_iff_getElem?.mpr ⟨p, hp⟩)
  rw [List.count_set _ _ _ _ hlt, hget]
  simp [hv]
  omega

/-- With an empty slot available, `addHashNoRehash` writes the value into the first
empty slot of the probe sequence of the hash. -/
theorem insertSlot_spec (T : List Int) (hash value : Int) (hfree : 0 < T.count (-1)) :
    ∃ k1, k1 < T.length ∧
      insertSlot T hash value = .ok (T.set ((toSizeT hash % T.length + k1) % T.length) value) ∧
      T[(toSizeT hash % T.length + k1) % T.length]? = some (-1) ∧
      ∀ j, j < k1 → ∃ v, T[(toSizeT hash % T.length + j) % T.length]? = some v ∧ v ≠ -1 := by
  obtain ⟨e, he, hemp⟩ := exists_empty_slot T hfree
  have hc : 0 < T.length := by omega
  have hhome : toSizeT hash % T.length < T.length := Nat.mod_lt _ hc
  obtain ⟨k, hk, hke⟩ := exists_probe_offset T.length _ e hhome he
  obtain ⟨k1, hk1, hres, hemp1, hocc⟩ :=
    probeEmpty_spec T k T.length _ hk hhome (by rw [hke]; exact hemp)
  refine ⟨k1, by omega, ?_, hemp1, hocc⟩
  have hne : T.length ≠ 0 := by omega
  simp [insertSlot, hne, hres]

theorem tableOK_replicate (c : Nat) : TableOK (List.replicate c (-1)) [] := by
  constructor
  · intro r o h
    simp [offsetOf] at h
  · intro p v hv hne
    rw [List.getElem?_replicate] at hv
    split at hv
    · exact absurd (Option.some.inj hv).symm hne
    · simp at hv

/-- Inserting the record that follows the indexed ones keeps the index exact. -/
theorem tableOK_insert (T : List Int) (pre : List (List Byte)) (r : List Byte)
    (hT : TableOK T pre) (hr : r ∉ pre) (hfree : 0 < T.count (-1)) :
    ∃ T1, insertSlot T (hashOf r) ((arenaOf pre).length : Int) = .ok T1 ∧
      TableOK T1 (pre ++ [r]) ∧ T1.length = T.length ∧ T1.count (-1) + 1 = T.count (-1) := by
  obtain ⟨k1, hk1, hres, hemp, hocc⟩ :=
    insertSlot_spec T (hashOf r) ((arenaOf pre).length : Int) hfree
  have hneg : ((arenaOf pre).length : Int) ≠ -1 := by omega
  refine ⟨_, hres, ⟨?_, ?_⟩, by simp, count_set_empty T _ _ hemp hneg⟩
  · intro r1 o ho
    by_cases hmem : r1 ∈ pre
    · rw [offsetOf_append_left pre [r] r1 hmem] at ho
      obtain ⟨k, hk, hat, hbefore⟩ := hT.placed r1 o ho
      refine ⟨k, by simpa using hk, ?_, ?_⟩
      · rw [List.length_set, List.getElem?_set_ne, hat]
        intro e
        rw [e, hat] at hemp
        have := Option.some.inj hemp
        omega
      · intro j hj
        obtain ⟨v, hv, hv1⟩ := hbefore j hj
        refine ⟨v, ?_, hv1⟩
        rw [List.length_set, List.getElem?_set_ne, hv]
        intro e
        rw [e, hv] at hemp
        exact hv1 (Option.some.inj hemp)
    · rw [offsetOf_append_right pre [r] r1 hmem] at ho
      have hr1 : r = r1 := by
        by_contra hne
        simp [offsetOf, hne] at ho
      subst hr1
      have ho1 : o = (arenaOf pre).length := by
        simp [offsetOf] at ho
        exact ho.symm
      subst ho1
      refine ⟨k1, by simpa using hk1, ?_, ?_⟩
      · rw [List.length_set, List.getElem?_set_self]
        exact Nat.mod_lt _ (by omega)
      · intro j hj
        obtain ⟨v, hv, hv1⟩ := hocc j hj
        refine ⟨v, ?_, hv1⟩
        rw [List.length_set, List.getElem?_set_ne, hv]
        intro e
        rw [e, hv] at hemp
        exact hv1 (Option.some.inj hemp)
  · intro p v hv hv1
    by_cases hp : (toSizeT (hashOf r) % T.length + k1) % T.length = p
    · subst hp
      rw [List.getElem?_set_self (Nat.mod_lt _ (by omega))] at hv
      exact ⟨r, (arenaOf pre).length, offsetOf_snoc_self pre r hr, (Option.some.inj hv).symm⟩
    · rw [List.getElem?_set_ne hp] at hv
      obtain ⟨r1, o, ho, hvo⟩ := hT.valid p v hv hv1
      refine ⟨r1, o, ?_, hvo⟩
      rw [offsetOf_append_left pre [r] r1 ((offsetOf_isSome pre r1).mp ⟨o, ho⟩)]
      exact ho

theorem arenaOf_snoc_length (pre : List (List Byte)) (r : List Byte) :
    (arenaOf (pre ++ [r])).length = (arenaOf pre).length + (r.length + 1) := by
  simp [arenaOf_append, arenaOf]

/-- Replaying records into a slot array with enough empty slots succeeds and indexes
exactly the records replayed. -/
theorem buildFrom_spec (post : List (List Byte)) :
    ∀ (pre : List (List Byte)) (T : List Int), TableOK T pre → (pre ++ post).Nodup →
      post.length ≤ T.count (-1) →
      ∃ T1, buildFrom T (arenaOf pre).length post = .ok T1 ∧ TableOK T1 (pre ++ post) ∧
        T1.length = T.length ∧ T1.count (-1) + post.length = T.count (-1) := by
  induction post with
  | nil =>
    intro pre T hT _ _
    exact ⟨T, rfl, by simpa using hT, rfl, by simp⟩
  | cons r post ih =>
    intro pre T hT hnd hfree
    have hr : r ∉ pre := by
      intro hmem
      have := List.nodup_append.mp hnd
      exact this.2.2 hmem (List.mem_cons_self r post)
    obtain ⟨T1, hins, hT1, hlen1, hcount1⟩ :=
      tableOK_insert T pre r hT hr (by simp at hfree; omega)
    have hnd1 : (pre ++ [r] ++ post).Nodup := by simpa using hnd
    obtain ⟨T2, hb, hT2, hlen2, hcount2⟩ :=
      ih (pre ++ [r]) T1 hT1 hnd1 (by simp at hfree; omega)
    refine ⟨T2, ?_, by simpa using hT2, by omega, by simp; omega⟩
    rw [arenaOf_snoc_length] at hb
    simp only [buildFrom, hins]
    exact hb

theorem buildFrom_length (post : List (List Byte)) :
    ∀ (T T1 : List Int) (base : Nat), buildFrom T base post = .ok T1 → T1.length = T.length := by
  induction post with
  | nil =>
    intro T T1 base h
    simp only [buildFrom, Except.ok.injEq] at h
    rw [h]
  | cons r post ih =>
    intro T T1 base h
    simp only [buildFrom] at h
    split at h
    · simp at h
    · next T2 hT2 =>
      have := ih _ _ _ h
      rw [this]
      unfold insertSlot at hT2
      split at hT2
      · simp at hT2
      · split at hT2
        · simp at hT2
        · simp only [Except.ok.injEq] at hT2
          rw [← hT2]; simp

theorem buildFrom_snoc (recs : List (List Byte)) (r : List Byte) :
    ∀ (T : List Int) (base : Nat),
      buildFrom T base (recs ++ [r]) =
        match buildFrom T base recs with
        | .error e => .error e
        | .ok T1 => insertSlot T1 (hashOf r) ((base + (arenaOf recs).length : Nat) : Int) := by
  induction recs with
  | nil =>
    intro T base
    simp only [List.nil_append, buildFrom, arenaOf, List.length_nil, Nat.add_zero]
    cases insertSlot T (hashOf r) (base : Int) <;> rfl
  | cons r1 recs ih =>
    intro T base
    have e : buildFrom T base (r1 :: recs ++ [r]) =
        match insertSlot T (hashOf r1) (base : Int) with
        | .error e => .error e
        | .ok T1 => buildFrom T1 (base + (r1.length + 1)) (recs ++ [r]) := rfl
    rw [e]
    simp only [buildFrom]
    cases insertSlot T (hashOf r1) (base : Int) with
    | error e => rfl
    | ok T1 =>
      simp only []
      rw [ih, arenaOf_length_cons, Nat.add_assoc]

/-! ## Rebuilding the slot array from the arena -/

theorem addHashNoRehash_data (S S1 : StringSet) (hash value : Int)
    (h : S.addHashNoRehash hash value = .ok S1) : S1.m_data = S.m_data := by
  unfold addHashNoRehash at h
  split at h
  · simp at h
  · split at h
    · simp at h
    · simp only [Except.ok.injEq] at h
      subst h
      rfl

theorem sizeToInt_of_lt (n : Nat) (h : n < 2 ^ 31) : sizeToInt n = (n : Int) := by
  unfold sizeToInt toInt32
  have h1 : n % 2 ^ 32 = n := Nat.mod_eq_of_lt (by omega)
  rw [h1, if_pos h]

theorem sizeToInt_neg (n : Nat) (h1 : 2 ^ 31 ≤ n) (h2 : n < 2 ^ 32) :
    sizeToInt n = (n : Int) - 4294967296 := by
  unfold sizeToInt toInt32
  have h3 : n % 2 ^ 32 = n := Nat.mod_eq_of_lt h2
  rw [h3, if_neg (by omega)]

theorem toSizeT_natCast (n : Nat) (h : n < 2 ^ 64) : toSizeT (n : Int) = n := by
  unfold toSizeT
  omega

theorem readString_natCast (S : StringSet) (slack : List Byte) (o : Nat) :
    S.readString slack (o : Int) = (S.m_data ++ slack).drop o := by
  simp [readString]

theorem readString_neg (S : StringSet) (slack : List Byte) (i : Int) (h : i < 0) :
    S.readString slack i = [] := by
  simp [readString, h]

theorem length_le_arenaOf (recs : List (List Byte)) : recs.length ≤ (arenaOf recs).length := by
  induction recs with
  | nil => simp
  | cons r rs ih => rw [arenaOf_length_cons, List.length_cons]; omega

theorem offsetsFit_of_lt (recs : List (List Byte)) :
    ∀ base, base + (arenaOf recs).length < 2 ^ 31 → OffsetsFit base recs := by
  induction recs with
  | nil => intro base _; trivial
  | cons r rs ih =>
    intro base h
    rw [arenaOf_length_cons] at h
    exact ⟨by omega, by omega, ih _ (by omega)⟩

theorem offsetsFit_append (pre : List (List Byte)) :
    ∀ (base : Nat) (post : List (List Byte)),
      OffsetsFit base (pre ++ post) ↔
        OffsetsFit base pre ∧ OffsetsFit (base + (arenaOf pre).length) post := by
  induction pre with
  | nil => intro base post; simp [OffsetsFit, arenaOf]
  | cons r rs ih =>
    intro base post
    have e : base + (r.length + 1) + (arenaOf rs).length =
        base + (arenaOf (r :: rs)).length := by rw [arenaOf_length_cons]; omega
    constructor
    · rintro ⟨h1, h2, h3⟩
      obtain ⟨h4, h5⟩ := (ih _ _).mp h3
      rw [e] at h5
      exact ⟨⟨h1, h2, h4⟩, h5⟩
    · rintro ⟨⟨h1, h2, h4⟩, h5⟩
      rw [← e] at h5
      exact ⟨h1, h2, (ih _ _).mpr ⟨h4, h5⟩⟩

/-- The scan of `rehashAll`, standing at a record boundary, replays the records that
follow, as long as their offsets and lengths fit an `int`, and goes on behind them. -/
theorem rehashLoop_run (slack tail : List Byte) (post : List (List Byte)) :
    ∀ (pre : List (List Byte)) (S : StringSet) (fuel : Nat),
      S.m_data = arenaOf (pre ++ post) ++ tail → (∀ r ∈ post, NulFree r) →
      OffsetsFit (arenaOf pre).length post → post.length ≤ fuel →
      rehashLoop slack fuel S (arenaOf pre).length =
        match buildFrom S.m_hashes (arenaOf pre).length post with
        | .error e => .error e
        | .ok T =>
          rehashLoop slack (fuel - post.length)
            { S with m_hashes := T, m_hashTableLoad := S.m_hashTableLoad + post.length }
            (arenaOf (pre ++ post)).length := by
  induction post with
  | nil =>
    intro pre S fuel _ _ _ _
    simp [buildFrom]
  | cons r post ih =>
    intro pre S fuel hdata hnul hfit hf
    obtain ⟨fuel, rfl⟩ : ∃ f, fuel = f + 1 := ⟨fuel - 1, by simp at hf; omega⟩
    obtain ⟨ho, hrl, hfit1⟩ := hfit
    have hr : NulFree r := hnul r (List.mem_cons_self r post)
    have hlt : (arenaOf pre).length < S.m_data.length := by
      rw [hdata, List.length_append, arenaOf_append, List.length_append, arenaOf_length_cons]
      omega
    have hidx : sizeToInt (arenaOf pre).length = ((arenaOf pre).length : Int) :=
      sizeToInt_of_lt _ ho
    have hn : sizeToInt r.length = (r.length : Int) := sizeToInt_of_lt _ (by omega)
    have hget : S.readString slack ((arenaOf pre).length : Int) =
        r ++ 0 :: (arenaOf post ++ (tail ++ slack)) := by
      rw [readString_natCast, hdata, arenaOf_append, List.append_assoc, List.append_assoc,
        List.drop_left]
      simp [arenaOf]
    have hlen : strlen (S.readString slack ((arenaOf pre).length : Int)) = some r.length := by
      rw [hget]; exact strlen_payload r _ hr
    have hhash : stringHash (S.readString slack ((arenaOf pre).length : Int)) r.length =
        hashOf r := by
      rw [hget]; exact stringHash_payload r _
    have hne : ¬ ((r.length : Int) = 2147483647) := by omega
    have hpos : ((arenaOf pre).length + toSizeT ((r.length : Int) + 1)) % 18446744073709551616 =
        (arenaOf pre).length + (r.length + 1) := by
      unfold toSizeT
      omega
    rw [rehashLoop]
    simp only [hlt, if_true, hidx, hlen, hn, Int.toNat_ofNat, hhash, addHashNoRehash_eq,
      buildFrom, hne, if_false, hpos]
    cases hins : insertSlot S.m_hashes (hashOf r) ((arenaOf pre).length : Int) with
    | error e => rfl
    | ok T1 =>
      simp only []
      have hdata1 : ({ S with m_hashTableLoad := S.m_hashTableLoad + 1, m_hashes := T1 } :
          StringSet).m_data = arenaOf (pre ++ [r] ++ post) ++ tail := by simpa using hdata
      have := ih (pre ++ [r]) { S with m_hashTableLoad := S.m_hashTableLoad + 1, m_hashes := T1 }
        fuel hdata1 (fun x hx => hnul x (List.mem_cons_of_mem r hx))
        (by rw [arenaOf_snoc_length]; exact hfit1) (by simp at hf; omega)
      rw [arenaOf_snoc_length] at this
      rw [this]
      cases buildFrom T1 ((arenaOf pre).length + (r.length + 1)) post with
      | error e => rfl
      | ok T2 =>
        simp only [List.length_cons, List.append_assoc, List.singleton_append,
          Nat.add_sub_add_right]
        have e : S.m_hashTableLoad + 1 + post.length = S.m_hashTableLoad + (post.length + 1) := by
          omega
        rw [e]

/-- The scan of `rehashAll`, standing at a record boundary of an arena that ends with
its last record, replays the remaining records in order. -/
theorem rehashLoop_eq (slack : List Byte) (post : List (List Byte))
    (pre : List (List Byte)) (S : StringSet) (fuel : Nat)
    (hdata : S.m_data = arenaOf (pre ++ post)) (hnul : ∀ r ∈ post, NulFree r)
    (hfit : OffsetsFit (arenaOf pre).length post) (hf : post.length < fuel) :
    rehashLoop slack fuel S (arenaOf pre).length =
      match buildFrom S.m_hashes (arenaOf pre).length post with
      | .error e => .error e
      | .ok T =>
        .ok { S with m_hashes := T, m_hashTableLoad := S.m_hashTableLoad + post.length } := by
  rw [rehashLoop_run slack [] post pre S fuel (by simpa using hdata) hnul hfit (by omega)]
  cases buildFrom S.m_hashes (arenaOf pre).length post with
  | error e => rfl
  | ok T =>
    simp only []
    obtain ⟨f, hf1⟩ : ∃ f, fuel - post.length = f + 1 := ⟨fuel - post.length - 1, by omega⟩
    rw [hf1, rehashLoop]
    simp [hdata]

/-- `rehashAll` replays the records of the arena into the current slot array and sets
the counter to their number, whatever stays readable behind the arena. -/
theorem rehashAllBehind_eq (slack : List Byte) (S : StringSet) (recs : List (List Byte))
    (hdata : S.m_data = arenaOf recs) (hnul : ∀ r ∈ recs, NulFree r)
    (hfit : OffsetsFit 0 recs) :
    rehashAllBehind slack S =
      match buildFrom S.m_hashes 0 recs with
      | .error e => .error e
      | .ok T => .ok ⟨S.m_data, T, recs.length⟩ := by
  have h := rehashLoop_eq slack recs [] { S with m_hashTableLoad := 0 } (S.m_data.length + 1)
    (by simpa using hdata) hnul (by simpa [arenaOf] using hfit)
    (by rw [hdata]; have := length_le_arenaOf recs; omega)
  simp only [arenaOf, List.length_nil] at h
  unfold rehashAllBehind
  rw [h]
  cases buildFrom S.m_hashes 0 recs <;> simp

theorem rehashAll_eq (S : StringSet) (recs : List (List Byte))
    (hdata : S.m_data = arenaOf recs) (hnul : ∀ r ∈ recs, NulFree r)
    (hfit : OffsetsFit 0 recs) :
    rehashAll S =
      match buildFrom S.m_hashes 0 recs with
      | .error e => .error e
      | .ok T => .ok ⟨S.m_data, T, recs.length⟩ :=
  rehashAllBehind_eq [] S recs hdata hnul hfit


theorem rehashLoop_succ (slack : List Byte) (fuel : Nat) (S : StringSet) (pos : Nat) :
    rehashLoop slack (fuel + 1) S pos =
      if pos < S.m_data.length then
        match strlen (S.readString slack (sizeToInt pos)) with
        | none => .error .outOfBounds
        | some n =>
          match S.addHashNoRehash
              (stringHash (S.readString slack (sizeToInt pos)) (sizeToInt n).toNat)
              (sizeToInt pos) with
          | .error e => .error e
          | .ok S1 =>
            if sizeToInt n = 2147483647 then .error .signedOverflow
            else rehashLoop slack fuel S1
              ((pos + toSizeT (sizeToInt n + 1)) % 18446744073709551616)
      else .ok S := by
  rw [rehashLoop]

/-- A result of the scan of `rehashAll` other than running out of fuel does not depend
on the amount of fuel. -/
theorem rehashLoop_fuel (slack : List Byte) :
    ∀ (fuel : Nat) (S : StringSet) (pos : Nat),
      rehashLoop slack fuel S pos ≠ .error .diverges →
      rehashLoop slack (fuel + 1) S pos = rehashLoop slack fuel S pos := by
  intro fuel
  induction fuel with
  | zero => intro S pos h; exact absurd rfl h
  | succ fuel ih =>
    intro S pos h
    rw [rehashLoop_succ slack fuel] at h
    rw [rehashLoop_succ slack (fuel + 1), rehashLoop_succ slack fuel]
    by_cases hlt : pos < S.m_data.length
    · simp only [if_pos hlt] at h ⊢
      cases hn : strlen (S.readString slack (sizeToInt pos)) with
      | none => rfl
      | some n =>
        simp only [hn] at h ⊢
        cases hS1 : S.addHashNoRehash
            (stringHash (S.readString slack (sizeToInt pos)) (sizeToInt n).toNat)
            (sizeToInt pos) with
        | error e => rfl
        | ok S1 =>
          simp only [hS1] at h ⊢
          by_cases hne : sizeToInt n = 2147483647
          · simp only [if_pos hne]
          · simp only [if_neg hne] at h ⊢
            exact ih _ _ h
    · simp only [if_neg hlt]

theorem growLoop_succ (fuel : Nat) (S : StringSet) :
    growLoop (fuel + 1) S =
      if S.m_hashTableLoad * 2 ≥ S.m_hashes.length then
        match rehashAll { S with m_hashes := List.replicate (S.m_hashes.length * 2 + 3) (-1) } with
        | .error e => .error e
        | .ok S1 => growLoop fuel S1
      else .ok S := by
  rw [growLoop]

/-- A result of the growth loop of `addHash` other than running out of fuel does not
depend on the amount of fuel. -/
theorem growLoop_fuel :
    ∀ (fuel : Nat) (S : StringSet), growLoop fuel S ≠ .error .diverges →
      growLoop (fuel + 1) S = growLoop fuel S := by
  intro fuel
  induction fuel with
  | zero => intro S h; exact absurd rfl h
  | succ fuel ih =>
    intro S h
    rw [growLoop_succ fuel] at h
    rw [growLoop_succ (fuel + 1), growLoop_succ fuel]
    by_cases hg : S.m_hashTableLoad * 2 ≥ S.m_hashes.length
    · simp only [if_pos hg] at h ⊢
      cases hS1 : rehashAll
          { S with m_hashes := List.replicate (S.m_hashes.length * 2 + 3) (-1) } with
      | error e => rfl
      | ok S1 =>
        simp only [hS1] at h ⊢
        exact ih _ h
    · simp only [if_neg hg]

/-! ## The invariant of reachable states -/

theorem Inv.length_lt {S : StringSet} {recs : List (List Byte)} (h : Inv S recs) :
    recs.length ≤ S.m_hashes.length ∧ (0 < S.m_hashes.length → recs.length < S.m_hashes.length) := by
  rcases h.bound with ⟨h1, h2⟩ | ⟨h1, h2⟩
  · subst h1; simp [h2]
  · omega

theorem Inv.table {S : StringSet} {recs : List (List Byte)} (h : Inv S recs) :
    TableOK S.m_hashes recs ∧ S.m_hashes.count (-1) + recs.length = S.m_hashes.length := by
  have hcount : (List.replicate S.m_hashes.length (-1 : Int)).count (-1) = S.m_hashes.length :=
    List.count_replicate_self _ _
  obtain ⟨T1, hb, hT1, -, hc1⟩ := buildFrom_spec recs [] (List.replicate S.m_hashes.length (-1))
    (tableOK_replicate _) (by simpa using h.nodup) (by rw [hcount]; exact h.length_lt.1)
  simp only [arenaOf, List.length_nil] at hb
  rw [h.built] at hb
  cases hb
  exact ⟨by simpa using hT1, by rw [hc1, hcount]⟩

theorem inv_empty : Inv empty [] := by
  refine ⟨rfl, by simp, List.nodup_nil, rfl, rfl, ⟨0, rfl⟩, Or.inl ⟨rfl, rfl⟩⟩

theorem handleOf_of_mem {recs : List (List Byte)} {s : List Byte} (h : s ∈ recs) :
    ∃ o : Nat, offsetOf recs s = some o ∧ handleOf recs s = (o : Int) := by
  obtain ⟨o, ho⟩ := (offsetOf_isSome recs s).mpr h
  exact ⟨o, ho, by simp [handleOf, ho]⟩

theorem handleOf_of_not_mem {recs : List (List Byte)} {s : List Byte} (h : s ∉ recs) :
    handleOf recs s = -1 := by
  simp [handleOf, (offsetOf_eq_none recs s).mpr h]

theorem handleOf_eq_neg_one {recs : List (List Byte)} {s : List Byte} :
    handleOf recs s = -1 ↔ s ∉ recs := by
  constructor
  · intro h hmem
    obtain ⟨o, -, ho⟩ := handleOf_of_mem hmem
    rw [ho] at h
    omega
  · exact handleOf_of_not_mem

/-- On a state that satisfies the invariant, the probe of `findStringL` returns the
offset of the record equal to the query, or -1 when there is none. -/
theorem findStringL_spec (S : StringSet) (recs : List (List Byte)) (s : List Byte)
    (hI : Inv S recs) (hs : NulFree s) :
    S.findStringL (cstr s) s.length (hashOf s) = .ok (handleOf recs s) := by
  obtain ⟨hT, hcount⟩ := hI.table
  unfold findStringL
  by_cases hc : S.m_hashes.length = 0
  · have : recs = [] := by
      rcases hI.bound with ⟨h1, -⟩ | ⟨h1, -⟩
      · exact h1
      · omega
    subst this
    simp [hc, handleOf, offsetOf]
  · rw [if_neg hc]
    have hc0 : 0 < S.m_hashes.length := Nat.pos_of_ne_zero hc
    have hhome : toSizeT (hashOf s) % S.m_hashes.length < S.m_hashes.length := Nat.mod_lt _ hc0
    by_cases hmem : s ∈ recs
    · obtain ⟨o, ho, hh⟩ := handleOf_of_mem hmem
      obtain ⟨k, hk, hat, hbefore⟩ := hT.placed s o ho
      rw [hh]
      exact findLoop_hit S recs s o hI.data hI.nul hT.valid hs ho k _ _ hk hhome hat hbefore
    · rw [handleOf_of_not_mem hmem]
      have hfree : 0 < S.m_hashes.count (-1) := by
        have := hI.length_lt.2 hc0
        omega
      obtain ⟨e, he, hemp⟩ := exists_empty_slot S.m_hashes hfree
      obtain ⟨k, hk, hke⟩ := exists_probe_offset S.m_hashes.length _ e hhome he
      exact findLoop_miss S recs s hI.data hI.nul hT.valid hs hmem k _ _ hk hhome
        (by rw [hke]; exact hemp)

/-- A lookup of a string that is not stored returns -1, whatever hash and length it is
given. -/
theorem findStringL_miss (S : StringSet) (recs : List (List Byte)) (s : List Byte)
    (hI : Inv S recs) (hs : NulFree s) (hmem : s ∉ recs) (slen : Nat) (hash : Int) :
    S.findStringL (cstr s) slen hash = .ok (-1) := by
  obtain ⟨hT, hcount⟩ := hI.table
  unfold findStringL
  by_cases hc : S.m_hashes.length = 0
  · rw [if_pos hc]
  · rw [if_neg hc]
    have hc0 : 0 < S.m_hashes.length := Nat.pos_of_ne_zero hc
    have hhome : toSizeT hash % S.m_hashes.length < S.m_hashes.length := Nat.mod_lt _ hc0
    have hfree : 0 < S.m_hashes.count (-1) := by
      have := hI.length_lt.2 hc0
      omega
    obtain ⟨e, he, hemp⟩ := exists_empty_slot S.m_hashes hfree
    obtain ⟨k, hk, hke⟩ := exists_probe_offset S.m_hashes.length _ e hhome he
    exact findLoop_miss S recs s hI.data hI.nul hT.valid hs hmem k _ _ hk hhome
      (by rw [hke]; exact hemp)

/-- The `int len = strlen(s)` of a lookup is the exact length of a string shorter than
2^31 bytes. -/
theorem findString_spec (S : StringSet) (recs : List (List Byte)) (s : List Byte)
    (hI : Inv S recs) (hs : NulFree s) (hlen : s ∈ recs → s.length < 2 ^ 31) :
    S.findString (cstr s) = .ok (handleOf recs s) := by
  unfold findString
  rw [strlen_cstr s hs]
  simp only []
  by_cases hmem : s ∈ recs
  · rw [sizeToInt_of_lt _ (hlen hmem), Int.toNat_ofNat,
      show stringHash (cstr s) s.length = hashOf s from stringHash_payload s [0]]
    exact findStringL_spec S recs s hI hs
  · rw [handleOf_of_not_mem hmem]
    exact findStringL_miss S recs s hI hs hmem _ _

theorem containsString_spec (S : StringSet) (recs : List (List Byte)) (s : List Byte)
    (hI : Inv S recs) (hs : NulFree s) (hlen : s ∈ recs → s.length < 2 ^ 31) :
    S.containsString (cstr s) = .ok (decide (s ∈ recs)) := by
  have h := findString_spec S recs s hI hs hlen
  unfold findString at h
  unfold containsString
  rw [strlen_cstr s hs] at h ⊢
  simp only [] at h ⊢
  rw [h]
  simp only [Except.ok.injEq, decide_eq_decide, ne_eq]
  rw [handleOf_eq_neg_one]
  simp

/-- A record of an arena shorter than 2^31 bytes is shorter than 2^31 bytes. -/
theorem length_lt_of_mem (recs : List (List Byte)) (s : List Byte) (hmem : s ∈ recs) :
    s.length < (arenaOf recs).length := by
  obtain ⟨o, ho⟩ := (offsetOf_isSome recs s).mpr hmem
  have := offsetOf_lt recs s o ho
  omega

theorem Inv.mem_length_lt {S : StringSet} {recs : List (List Byte)} (h : Inv S recs)
    (hS : S.m_data.length < 2 ^ 31) (s : List Byte) (hmem : s ∈ recs) : s.length < 2 ^ 31 := by
  have := length_lt_of_mem recs s hmem
  rw [← h.data] at this
  omega

/-! ## Growth and interning -/

theorem cap_grow (c : Nat) (h : ∃ k, c = 3 * (2 ^ k - 1)) :
    ∃ k, c * 2 + 3 = 3 * (2 ^ k - 1) := by
  obtain ⟨k, rfl⟩ := h
  refine ⟨k + 1, ?_⟩
  have h1 : 1 ≤ 2 ^ k := Nat.one_le_two_pow
  rw [pow_succ]
  generalize 2 ^ k = x at h1
  omega

/-- The growth loop of `addHash` on a state that satisfies the invariant: at most one
round, after which fewer than half of the slots are occupied. -/
theorem growLoop_spec (S : StringSet) (recs : List (List Byte)) (hI : Inv S recs)
    (hfit : OffsetsFit 0 recs) :
    ∃ S1, growLoop (S.m_data.length + 2) S = .ok S1 ∧ Inv S1 recs ∧
      2 * recs.length < S1.m_hashes.length ∧ S1.m_data = S.m_data ∧
      S1.m_hashes.length =
        (if S.m_hashTableLoad * 2 ≥ S.m_hashes.length then S.m_hashes.length * 2 + 3
         else S.m_hashes.length) ∧
      (¬ S.m_hashTableLoad * 2 ≥ S.m_hashes.length → S1 = S) := by
  have hload := hI.load
  by_cases hg : S.m_hashTableLoad * 2 ≥ S.m_hashes.length
  · have hn : recs.length ≤ S.m_hashes.length * 2 + 3 := by
      have := hI.length_lt.1
      omega
    have hcount : (List.replicate (S.m_hashes.length * 2 + 3) (-1 : Int)).count (-1)
        = S.m_hashes.length * 2 + 3 := List.count_replicate_self _ _
    obtain ⟨T1, hb, -, hlen1, -⟩ := buildFrom_spec recs []
      (List.replicate (S.m_hashes.length * 2 + 3) (-1))
      (tableOK_replicate _) (by simpa using hI.nodup) (by rw [hcount]; exact hn)
    simp only [arenaOf, List.length_nil, List.length_replicate] at hb hlen1
    have hre := rehashAll_eq
      { S with m_hashes := List.replicate (S.m_hashes.length * 2 + 3) (-1) } recs hI.data hI.nul
      hfit
    simp only [hb] at hre
    have hsmall : ¬ recs.length * 2 ≥ T1.length := by
      rcases hI.bound with ⟨h1, h2⟩ | ⟨h1, h2⟩
      · subst h1; simp [hlen1]
      · omega
    refine ⟨⟨S.m_data, T1, recs.length⟩, ?_, ?_, ?_, rfl, ?_, ?_⟩
    · show growLoop ((S.m_data.length + 1) + 1) S = _
      simp only [growLoop, hg, if_true, hre, hsmall, if_false]
    · refine ⟨hI.data, hI.nul, hI.nodup, rfl, ?_, ?_, Or.inr ⟨?_, ?_⟩⟩
      · simp only [hlen1]; exact hb
      · simp only [hlen1]; exact cap_grow _ hI.cap
      · simp only [hlen1]; omega
      · simp only [hlen1]
        have := hI.length_lt.1
        omega
    · simp only [hlen1]
      rcases hI.bound with ⟨h1, h2⟩ | ⟨h1, h2⟩
      · subst h1; simp
      · omega
    · simp only [hlen1, hg, if_true]
    · intro h; exact absurd hg h
  · refine ⟨S, ?_, hI, by omega, rfl, by simp only [hg, if_false], fun _ => rfl⟩
    show growLoop ((S.m_data.length + 1) + 1) S = _
    simp only [growLoop, hg, if_false]

/-- Interning a new string shorter than 2^31 bytes, on a state whose records fit:
the growth loop runs, the `int pos = m_data.size()` goes into the first empty slot of
the probe sequence and is returned, and the record is appended. -/
theorem addString_new (S : StringSet) (recs : List (List Byte)) (s : List Byte)
    (hI : Inv S recs) (hs : NulFree s) (hmem : s ∉ recs) (hfit : OffsetsFit 0 recs)
    (hlen : s.length < 2 ^ 31) :
    ∃ G k1 T2, growLoop (S.m_data.length + 2) S = .ok G ∧ Inv G recs ∧
      2 * recs.length < G.m_hashes.length ∧ G.m_data = S.m_data ∧
      G.m_hashes.length =
        (if S.m_hashTableLoad * 2 ≥ S.m_hashes.length then S.m_hashes.length * 2 + 3
         else S.m_hashes.length) ∧
      k1 < G.m_hashes.length ∧
      G.m_hashes[(toSizeT (hashOf s) % G.m_hashes.length + k1) % G.m_hashes.length]? =
        some (-1) ∧
      (∀ j, j < k1 → ∃ v,
        G.m_hashes[(toSizeT (hashOf s) % G.m_hashes.length + j) % G.m_hashes.length]? = some v ∧
          v ≠ -1) ∧
      insertSlot G.m_hashes (hashOf s) (sizeToInt S.m_data.length) = .ok T2 ∧
      T2 = G.m_hashes.set ((toSizeT (hashOf s) % G.m_hashes.length + k1) % G.m_hashes.length)
        (sizeToInt S.m_data.length) ∧
      S.addString (cstr s) =
        .ok (sizeToInt S.m_data.length, ⟨S.m_data ++ cstr s, T2, recs.length + 1⟩) := by
  have hfind := findStringL_miss S recs s hI hs hmem s.length (hashOf s)
  have hhash : stringHash (cstr s) s.length = hashOf s := stringHash_payload s [0]
  obtain ⟨G, hgrow, hIG, hsmall, hdataG, hlenG, -⟩ := growLoop_spec S recs hI hfit
  obtain ⟨-, hcount⟩ := hIG.table
  obtain ⟨k1, hk1, hins, hemp, hocc⟩ :=
    insertSlot_spec G.m_hashes (hashOf s) (sizeToInt S.m_data.length) (by omega)
  have htake : (cstr s).take (s.length + 1) = cstr s := by
    apply List.take_of_length_le
    simp [cstr]
  have hneg : ¬ ((s.length : Int) + 1 < 0) := by omega
  have hnat : ((s.length : Int) + 1).toNat = s.length + 1 := by omega
  refine ⟨G, k1, _, hgrow, hIG, hsmall, hdataG, hlenG, hk1, hemp, hocc, hins, rfl, ?_⟩
  unfold addString
  rw [strlen_cstr s hs]
  simp only [addStringL, sizeToInt_of_lt _ hlen, Int.toNat_ofNat, hhash, hfind, if_true, addHash,
    hgrow, addHashNoRehash_eq, hins, hneg, if_false, hnat, htake, hdataG, hIG.load]

/-- Interning a string that is already stored, and is shorter than 2^31 bytes, returns
its handle and changes nothing. -/
theorem addString_old (S : StringSet) (recs : List (List Byte)) (s : List Byte)
    (hI : Inv S recs) (hs : NulFree s) (hlen : s.length < 2 ^ 31) (hmem : s ∈ recs) :
    S.addString (cstr s) = .ok (handleOf recs s, S) := by
  have hhash : stringHash (cstr s) s.length = hashOf s := stringHash_payload s [0]
  have hfind := findStringL_spec S recs s hI hs
  have hne : handleOf recs s ≠ -1 := fun e => handleOf_eq_neg_one.mp e hmem
  unfold addString
  rw [strlen_cstr s hs]
  simp only [addStringL, sizeToInt_of_lt _ hlen, Int.toNat_ofNat, hhash, hfind, hne, if_false]

/-- Interning a string that is already stored returns its handle and changes nothing;
interning a new one appends its record and returns the previous arena size.  The arena
and the string are shorter than 2^31 bytes. -/
theorem addString_spec (S : StringSet) (recs : List (List Byte)) (s : List Byte)
    (hI : Inv S recs) (hs : NulFree s) (hS : S.m_data.length < 2 ^ 31)
    (hlen : s.length < 2 ^ 31) :
    (s ∈ recs → S.addString (cstr s) = .ok (handleOf recs s, S)) ∧
    (s ∉ recs → ∃ S1, S.addString (cstr s) = .ok ((S.m_data.length : Int), S1) ∧
      Inv S1 (recs ++ [s]) ∧ S1.m_data = S.m_data ++ cstr s ∧
      S1.m_hashTableLoad = S.m_hashTableLoad + 1 ∧
      S1.m_hashes.length =
        (if S.m_hashTableLoad * 2 ≥ S.m_hashes.length then S.m_hashes.length * 2 + 3
         else S.m_hashes.length)) := by
  constructor
  · exact addString_old S recs s hI hs hlen
  · intro hmem
    have hfit : OffsetsFit 0 recs := offsetsFit_of_lt recs 0 (by rw [← hI.data]; omega)
    obtain ⟨G, k1, T2, -, hIG, hsmall, hdataG, hlenG, -, -, -, hins, -, hadd⟩ :=
      addString_new S recs s hI hs hmem hfit hlen
    rw [sizeToInt_of_lt _ hS] at hins hadd
    obtain ⟨hTG, hcountG⟩ := hIG.table
    obtain ⟨T3, hins3, -, hlen3, -⟩ := tableOK_insert G.m_hashes recs s hTG hmem (by omega)
    have hoff : ((arenaOf recs).length : Int) = (S.m_data.length : Int) := by rw [hI.data]
    rw [hoff, hins] at hins3
    cases hins3
    refine ⟨_, hadd, ?_, rfl, ?_, ?_⟩
    · refine ⟨?_, ?_, ?_, ?_, ?_, ?_, Or.inr ⟨?_, ?_⟩⟩
      · simp [hI.data, arenaOf_append, arenaOf, cstr]
      · intro r hr
        rcases List.mem_append.mp hr with h | h
        · exact hI.nul r h
        · rw [List.mem_singleton.mp h]; exact hs
      · exact List.nodup_append.mpr ⟨hI.nodup, List.nodup_singleton s, by
          intro a ha hb
          rw [List.mem_singleton.mp hb] at ha
          exact hmem ha⟩
      · simp only [List.length_append, List.length_singleton]
      · simp only [hlen3]
        rw [buildFrom_snoc, hIG.built]
        simp only [Nat.zero_add]
        rw [hoff]
        exact hins
      · simp only [hlen3]; exact hIG.cap
      · simp only [hlen3]
        rcases hIG.bound with ⟨h1, h2⟩ | ⟨h1, h2⟩
        · omega
        · exact h1
      · simp only [hlen3, List.length_append, List.length_singleton]; omega
    · simp only [hI.load]
    · simp only [hlen3, hlenG]

/-! ## Sequences of interning calls -/

theorem internRecs_extends (ss : List (List Byte)) :
    ∀ recs, recs <+: internRecs recs ss := by
  induction ss with
  | nil => intro recs; exact List.prefix_refl _
  | cons s ss ih =>
    intro recs
    simp only [internRecs]
    split
    · exact ih recs
    · exact List.IsPrefix.trans (List.prefix_append recs [s]) (ih _)

theorem mem_internRecs (ss : List (List Byte)) :
    ∀ recs t, t ∈ internRecs recs ss ↔ t ∈ recs ∨ t ∈ ss := by
  induction ss with
  | nil => intro recs t; simp [internRecs]
  | cons s ss ih =>
    intro recs t
    simp only [internRecs]
    split
    · next h =>
      rw [ih, List.mem_cons]
      constructor
      · rintro (h1 | h1)
        · exact Or.inl h1
        · exact Or.inr (Or.inr h1)
      · rintro (h1 | h1 | h1)
        · exact Or.inl h1
        · exact Or.inl (h1 ▸ h)
        · exact Or.inr h1
    · rw [ih, List.mem_append, List.mem_singleton, List.mem_cons]
      tauto

theorem internRecs_nodup (ss : List (List Byte)) :
    ∀ recs, ss.Nodup → (∀ t ∈ ss, t ∉ recs) → internRecs recs ss = recs ++ ss := by
  induction ss with
  | nil => intro recs _ _; simp [internRecs]
  | cons s ss ih =>
    intro recs hnd hdis
    have hs : s ∉ recs := hdis s (List.mem_cons_self s ss)
    obtain ⟨hs1, hnd1⟩ := List.nodup_cons.mp hnd
    simp only [internRecs, hs, if_false]
    rw [ih (recs ++ [s]) hnd1]
    · simp
    · intro t ht hmem
      rcases List.mem_append.mp hmem with h | h
      · exact hdis t (List.mem_cons_of_mem s ht) h
      · rw [List.mem_singleton.mp h] at ht
        exact hs1 ht

theorem handleOf_stable {recs recs1 : List (List Byte)} (hp : recs <+: recs1)
    {t : List Byte} (ht : t ∈ recs) : handleOf recs1 t = handleOf recs t := by
  obtain ⟨ys, rfl⟩ := hp
  simp [handleOf, offsetOf_append_left recs ys t ht]

theorem arenaOf_mono {recs recs1 : List (List Byte)} (hp : recs <+: recs1) :
    arenaOf recs <+: arenaOf recs1 := by
  obtain ⟨ys, rfl⟩ := hp
  rw [arenaOf_append]
  exact List.prefix_append _ _

theorem internRecs_eq (ss : List (List Byte)) :
    ∀ recs, internRecs recs ss =
      recs ++ (firstOccurrences ss).filter (fun t => decide (t ∉ recs)) := by
  induction ss with
  | nil => intro recs; simp [internRecs, firstOccurrences]
  | cons s ss ih =>
    intro recs
    by_cases hs : s ∈ recs
    · simp only [internRecs, hs, if_true, firstOccurrences, ih recs]
      rw [List.filter_cons_of_neg (by simpa using hs), List.filter_filter]
      congr 1
      apply List.filter_congr
      intro x _
      by_cases hx : x ∈ recs
      · simp [hx]
      · have : x ≠ s := fun e => hx (e ▸ hs)
        simp [hx, this]
    · simp only [internRecs, hs, if_false, firstOccurrences, ih (recs ++ [s])]
      rw [List.filter_cons_of_pos (by simpa using hs), List.filter_filter]
      simp only [List.append_assoc, List.singleton_append]
      congr 2
      apply List.filter_congr
      intro x _
      by_cases hx : x ∈ recs <;> by_cases hxs : x = s <;> simp [hx, hxs]

theorem internRecs_nil (ss : List (List Byte)) : internRecs [] ss = firstOccurrences ss := by
  rw [internRecs_eq]
  simp

/-- Interning a sequence of NUL-free strings succeeds when the arena stays shorter than
2^31 bytes; each call returns the offset of its string among the records stored at the
end. -/
theorem internAll_spec (ss : List (List Byte)) :
    ∀ (S : StringSet) (recs : List (List Byte)), Inv S recs → (∀ s ∈ ss, NulFree s) →
      (arenaOf (internRecs recs ss)).length < 2 ^ 31 →
      ∃ S1, internAll S ss = .ok (ss.map (handleOf (internRecs recs ss)), S1) ∧
        Inv S1 (internRecs recs ss) := by
  induction ss with
  | nil =>
    intro S recs hI _ _
    exact ⟨S, rfl, hI⟩
  | cons s ss ih =>
    intro S recs hI hss hfit
    have hs : NulFree s := hss s (List.mem_cons_self s ss)
    have hss1 : ∀ t ∈ ss, NulFree t := fun t ht => hss t (List.mem_cons_of_mem s ht)
    have hS : S.m_data.length < 2 ^ 31 := by
      have := (arenaOf_mono (internRecs_extends (s :: ss) recs)).length_le
      rw [hI.data]; omega
    have hlen : s.length < 2 ^ 31 := by
      have := length_lt_of_mem (internRecs recs (s :: ss)) s
        ((mem_internRecs (s :: ss) recs s).mpr (Or.inr (List.mem_cons_self s ss)))
      omega
    obtain ⟨hold, hnew⟩ := addString_spec S recs s hI hs hS hlen
    by_cases hmem : s ∈ recs
    · obtain ⟨S1, hrun, hI1⟩ := ih S recs hI hss1 (by simpa [internRecs, hmem] using hfit)
      refine ⟨S1, ?_, by simpa [internRecs, hmem] using hI1⟩
      have hh : handleOf (internRecs recs ss) s = handleOf recs s :=
        handleOf_stable (internRecs_extends ss recs) hmem
      simp only [internAll, hold hmem, hrun, internRecs, hmem, if_true, List.map_cons, hh]
    · obtain ⟨S0, hadd, hI0, -, -, -⟩ := hnew hmem
      obtain ⟨S1, hrun, hI1⟩ := ih S0 (recs ++ [s]) hI0 hss1
        (by simpa [internRecs, hmem] using hfit)
      refine ⟨S1, ?_, by simpa [internRecs, hmem] using hI1⟩
      have hh : handleOf (internRecs (recs ++ [s]) ss) s = (S.m_data.length : Int) := by
        rw [handleOf_stable (internRecs_extends ss (recs ++ [s])) (by simp)]
        simp [handleOf, offsetOf_snoc_self recs s hmem, hI.data]
      simp only [internAll, hadd, hrun, internRecs, hmem, if_false, List.map_cons, hh]

/-- Interning on top of stored records adds at most the strings interned, each with its
terminator, to the arena. -/
theorem arenaOf_internRecs_le (ss : List (List Byte)) :
    ∀ recs, (arenaOf (internRecs recs ss)).length ≤ (arenaOf recs).length + (arenaOf ss).length := by
  induction ss with
  | nil => intro recs; simp [internRecs, arenaOf]
  | cons s ss ih =>
    intro recs
    simp only [internRecs]
    split
    · have := ih recs
      rw [arenaOf_length_cons]; omega
    · have := ih (recs ++ [s])
      rw [arenaOf_snoc_length] at this
      rw [arenaOf_length_cons]; omega

/-- Every state reached within the 2^31 bounds stores some list of records under the
invariant; it is the constructor's state when that list is empty, and its arena is
shorter than 2^31 bytes. -/
theorem smallReachable_inv {S : StringSet} (h : SmallReachable S) :
    ∃ recs, Inv S recs ∧ (recs = [] → S = empty) ∧ S.m_data.length < 2 ^ 31 := by
  induction h with
  | init => exact ⟨[], inv_empty, fun _ => rfl, by decide⟩
  | step s _ hs hlen hadd hS1 ih =>
    obtain ⟨recs, hI, hemp, hS⟩ := ih
    obtain ⟨hold, hnew⟩ := addString_spec _ recs s hI hs hS hlen
    by_cases hmem : s ∈ recs
    · rw [hold hmem] at hadd
      cases hadd
      exact ⟨recs, hI, hemp, hS⟩
    · obtain ⟨S0, hadd0, hI0, -⟩ := hnew hmem
      rw [hadd0] at hadd
      cases hadd
      exact ⟨recs ++ [s], hI0, fun e => by simp at e, hS1⟩

theorem smallReachable_reachable {S : StringSet} (h : SmallReachable S) : Reachable S := by
  induction h with
  | init => exact Reachable.init
  | step s _ hs _ hadd _ ih => exact Reachable.step s ih hs hadd

theorem internAll_reachable (ss : List (List Byte)) :
    ∀ (S S1 : StringSet) (hs : List Int), Reachable S → (∀ s ∈ ss, NulFree s) →
      internAll S ss = .ok (hs, S1) → Reachable S1 := by
  induction ss with
  | nil =>
    intro S S1 hs hR _ h
    simp only [internAll, Except.ok.injEq, Prod.mk.injEq] at h
    rw [← h.2]; exact hR
  | cons s ss ih =>
    intro S S1 hs hR hss h
    simp only [internAll] at h
    split at h
    · simp at h
    · next h0 S0 hadd =>
      split at h
      · simp at h
      · next hs1 S2 hrun =>
        simp only [Except.ok.injEq, Prod.mk.injEq] at h
        rw [← h.2]
        exact ih S0 S2 hs1 (Reachable.step s hR (hss s (List.mem_cons_self s ss)) hadd)
          (fun t ht => hss t (List.mem_cons_of_mem s ht)) hrun

theorem arenaOf_length (l : List (List Byte)) :
    (arenaOf l).length = (l.map (fun t => t.length + 1)).sum := by
  induction l with
  | nil => rfl
  | cons r rs ih => rw [arenaOf_length_cons, List.map_cons, List.sum_cons, ih]

theorem offsetOf_getElem_nodup (ss : List (List Byte)) (hnd : ss.Nodup) (i : Nat)
    (hi : i < ss.length) : offsetOf ss ss[i] = some (arenaOf (ss.take i)).length := by
  have hsplit : ss = ss.take i ++ ss[i] :: ss.drop (i + 1) := by
    rw [← List.drop_eq_getElem_cons hi, List.take_append_drop]
  have hnot : ss[i] ∉ ss.take i := by
    rw [hsplit] at hnd
    have := (List.nodup_append.mp hnd).2.2
    intro hmem
    exact this hmem (List.mem_cons_self _ _)
  have h := offsetOf_append_right (ss.take i) (ss[i] :: ss.drop (i + 1)) ss[i] hnot
  rw [← hsplit] at h
  rw [h]
  simp [offsetOf]

/-- One `addString` call on a state that satisfies the invariant: the records
afterwards extend the records before, contain the string, and the handle returned is
the offset of the string. -/
theorem addString_inv (S : StringSet) (recs : List (List Byte)) (s : List Byte)
    (hI : Inv S recs) (hs : NulFree s) (hS : S.m_data.length < 2 ^ 31)
    (hlen : s.length < 2 ^ 31) :
    ∃ S1, S.addString (cstr s) = .ok (handleOf (internRecs recs [s]) s, S1) ∧
      Inv S1 (internRecs recs [s]) ∧
      (s ∈ recs → S1 = S) ∧
      (s ∉ recs → handleOf (internRecs recs [s]) s = (S.m_data.length : Int) ∧
        S1.m_data = S.m_data ++ cstr s ∧
        S1.m_hashTableLoad = S.m_hashTableLoad + 1 ∧
        S1.m_hashes.length =
          (if S.m_hashTableLoad * 2 ≥ S.m_hashes.length then S.m_hashes.length * 2 + 3
           else S.m_hashes.length)) := by
  obtain ⟨hold, hnew⟩ := addString_spec S recs s hI hs hS hlen
  by_cases hmem : s ∈ recs
  · have hh : handleOf (internRecs recs [s]) s = handleOf recs s := by
      simp [internRecs, hmem]
    refine ⟨S, by rw [hh]; exact hold hmem, by simpa [internRecs, hmem] using hI,
      fun _ => rfl, fun h => absurd hmem h⟩
  · obtain ⟨S0, hadd, hI0, hdata, hload, hcap⟩ := hnew hmem
    have hh : handleOf (internRecs recs [s]) s = (S.m_data.length : Int) := by
      simp [internRecs, hmem, handleOf, offsetOf_snoc_self recs s hmem, hI.data]
    refine ⟨S0, by rw [hh]; exact hadd, by simpa [internRecs, hmem] using hI0,
      fun h => absurd h hmem, fun _ => ⟨hh, hdata, hload, hcap⟩⟩

theorem getString_handleOf (S : StringSet) (recs : List (List Byte)) (s : List Byte)
    (hI : Inv S recs) (hmem : s ∈ recs) :
    ∃ rest, S.getString (handleOf recs s) = s ++ 0 :: rest := by
  obtain ⟨o, ho, hh⟩ := handleOf_of_mem hmem
  obtain ⟨rest, hrest⟩ := drop_offsetOf recs s o ho
  exact ⟨rest, by rw [hh, getString_natCast, hI.data, hrest]⟩

/-! ## Loading -/

theorem addHashNoRehash_frame (S S1 : StringSet) (hash value : Int)
    (h : S.addHashNoRehash hash value = .ok S1) :
    S1.m_data = S.m_data ∧ S1.m_hashes.length = S.m_hashes.length := by
  unfold addHashNoRehash at h
  split at h
  · simp at h
  · split at h
    · simp at h
    · simp only [Except.ok.injEq] at h
      subst h
      simp

theorem rehashLoop_frame (slack : List Byte) :
    ∀ (fuel : Nat) (S S1 : StringSet) (pos : Nat), rehashLoop slack fuel S pos = .ok S1 →
      S1.m_data = S.m_data ∧ S1.m_hashes.length = S.m_hashes.length := by
  intro fuel
  induction fuel with
  | zero => intro S S1 pos h; simp [rehashLoop] at h
  | succ fuel ih =>
    intro S S1 pos h
    rw [rehashLoop] at h
    split at h
    · split at h
      · simp at h
      · split at h
        · simp at h
        · next S2 hS2 =>
          obtain ⟨h1, h2⟩ := addHashNoRehash_frame _ _ _ _ hS2
          split at h
          · simp at h
          · obtain ⟨h3, h4⟩ := ih _ _ _ h
            exact ⟨h3.trans h1, h4.trans h2⟩
    · simp only [Except.ok.injEq] at h
      subst h
      exact ⟨rfl, rfl⟩

theorem rehashAllBehind_frame (slack : List Byte) (S S1 : StringSet)
    (h : rehashAllBehind slack S = .ok S1) :
    S1.m_data = S.m_data ∧ S1.m_hashes.length = S.m_hashes.length := by
  unfold rehashAllBehind at h
  have h1 := rehashLoop_frame _ _ _ _ _ h
  exact h1

theorem rehashAll_frame (S S1 : StringSet) (h : rehashAll S = .ok S1) :
    S1.m_data = S.m_data ∧ S1.m_hashes.length = S.m_hashes.length :=
  rehashAllBehind_frame [] S S1 h

theorem resize_length (data : List Byte) (n : Nat) : (resize data n).length = n := by
  simp [resize]
  omega

/-- The outcomes of `loadFromFile` in terms of the stream alone: `n` is the declared
arena length, `c` the stored capacity. -/
theorem loadFromFile_eq (S : StringSet) (f : List Byte) :
    loadFromFile S f =
      if f.length < 4 then .ok (false, S)
      else if bytesToInt (f.take 4) < 0 then .error .lengthError
      else if (f.drop 4).length < (bytesToInt (f.take 4)).toNat then
        .ok (false, { S with m_data := f.drop 4 ++
          (resize S.m_data (bytesToInt (f.take 4)).toNat).drop (f.drop 4).length })
      else if ((f.drop 4).drop (bytesToInt (f.take 4)).toNat).length < 4 then
        .ok (false, { S with m_data := (f.drop 4).take (bytesToInt (f.take 4)).toNat })
      else if bytesToInt (((f.drop 4).drop (bytesToInt (f.take 4)).toNat).take 4) < 0 then
        .error .lengthError
      else
        match rehashAllBehind (S.m_data.drop (bytesToInt (f.take 4)).toNat)
          ⟨(f.drop 4).take (bytesToInt (f.take 4)).toNat,
            List.replicate
              (bytesToInt (((f.drop 4).drop (bytesToInt (f.take 4)).toNat).take 4)).toNat (-1),
            0⟩ with
        | .error e => .error e
        | .ok S2 => .ok (true, S2) := by
  unfold loadFromFile
  by_cases h1 : f.length < 4
  · simp only [h1, if_true]
  · simp only [h1, if_false]
    by_cases h2 : bytesToInt (f.take 4) < 0
    · simp only [h2, if_true]
    · simp only [h2, if_false]
      generalize (bytesToInt (f.take 4)).toNat = n
      by_cases h3 : (f.drop 4).length < n
      · have htake : (f.drop 4).take n = f.drop 4 := List.take_of_length_le (by omega)
        rw [if_pos h3, htake]
        split
        · rfl
        · next hc =>
          exfalso
          apply hc
          intro e
          simp only [List.length_append, List.length_drop, resize_length] at e h3
          omega
      · have hlen : ((f.drop 4).take n).length = n := by
          rw [List.length_take]; omega
        have hdrop : (resize S.m_data n).drop ((f.drop 4).take n).length = [] := by
          apply List.drop_eq_nil_of_le
          rw [resize_length, hlen]
        rw [if_neg h3, hdrop, List.append_nil]
        split
        · next hc => exact absurd rfl hc
        · rfl

theorem intToBytes_length (n : Int) : (intToBytes n).length = 4 := rfl

theorem bytesToInt_intToBytes (n : Nat) (hn : n < 2 ^ 31) :
    bytesToInt (intToBytes (sizeToInt n)) = (n : Int) := by
  have h1 : sizeToInt n = (n : Int) := by
    unfold sizeToInt toInt32
    have : n % 2 ^ 32 = n := Nat.mod_eq_of_lt (by omega)
    rw [this, if_pos hn]
  have h2 : ((n : Int) % 4294967296).toNat = n := by omega
  rw [h1]
  unfold intToBytes
  simp only [h2, bytesToInt]
  unfold toInt32
  have h3 : (n % 256 + 256 * (n / 256 % 256) + 65536 * (n / 65536 % 256)
      + 16777216 * (n / 16777216 % 256)) % 2 ^ 32 = n := by omega
  rw [h3, if_pos hn]

/-- Loading what `saveToFile` wrote for a state that satisfies the invariant, and whose
two sizes fit the `int` fields of the format, restores that state, whatever the state
loaded into was. -/
theorem load_save (S A : StringSet) (recs : List (List Byte)) (hI : Inv A recs)
    (hsize : A.m_data.length < 2 ^ 31) (hcap : A.m_hashes.length < 2 ^ 31) :
    loadFromFile S (saveToFile A) = .ok (true, A) := by
  have hn := bytesToInt_intToBytes _ hsize
  have hc := bytesToInt_intToBytes _ hcap
  have htake : (saveToFile A).take 4 = intToBytes (sizeToInt A.m_data.length) := by
    unfold saveToFile
    rw [List.append_assoc]
    exact List.take_left' (intToBytes_length _)
  have hdrop : (saveToFile A).drop 4 = A.m_data ++ intToBytes (sizeToInt A.m_hashes.length) := by
    unfold saveToFile
    rw [List.append_assoc]
    exact List.drop_left' (intToBytes_length _)
  have hlen : ¬ (saveToFile A).length < 4 := by
    simp [saveToFile, intToBytes_length]
  rw [loadFromFile_eq, if_neg hlen, htake, hdrop, hn]
  simp only [Int.toNat_ofNat, List.drop_left, List.take_left]
  rw [if_neg (by omega), if_neg (by simp),
    if_neg (by simp [intToBytes_length]),
    List.take_of_length_le (by simp [intToBytes_length]), hc, if_neg (by omega)]
  simp only [Int.toNat_ofNat]
  have hre := rehashAllBehind_eq (S.m_data.drop A.m_data.length)
    ⟨A.m_data, List.replicate A.m_hashes.length (-1), 0⟩ recs
    hI.data hI.nul (offsetsFit_of_lt recs 0 (by rw [← hI.data]; omega))
  simp only [hI.built, ← hI.load] at hre
  rw [hre]

/-! ## Capacity and load counter on every reachable state -/

/-- The growth loop of `addHash` on any state: when it returns, the arena is untouched,
fewer than half of the slots are counted as occupied, and the capacity has moved along
the sequence 0, 3, 9, 21, ... -/
theorem growLoop_shape :
    ∀ (fuel : Nat) (S G : StringSet), growLoop fuel S = .ok G →
      G.m_data = S.m_data ∧ G.m_hashTableLoad * 2 < G.m_hashes.length ∧
      S.m_hashes.length ≤ G.m_hashes.length ∧
      ((∃ k, S.m_hashes.length = 3 * (2 ^ k - 1)) → ∃ k, G.m_hashes.length = 3 * (2 ^ k - 1)) := by
  intro fuel
  induction fuel with
  | zero => intro S G h; simp [growLoop] at h
  | succ fuel ih =>
    intro S G h
    rw [growLoop] at h
    split at h
    · split at h
      · simp at h
      · next S1 hS1 =>
        obtain ⟨hd, hl⟩ := rehashAll_frame _ _ hS1
        simp only [List.length_replicate] at hd hl
        obtain ⟨h1, h2, h3, h4⟩ := ih S1 G h
        refine ⟨h1.trans hd, h2, by omega, fun hk => h4 ?_⟩
        rw [hl]
        exact cap_grow _ hk
    · next hg =>
      simp only [Except.ok.injEq] at h
      subst h
      exact ⟨rfl, by omega, le_refl _, fun hk => hk⟩

/-- The two ways in which `addString` returns: the lookup found a handle and nothing
changed, or the growth loop returned, one slot was written, the counter incremented and
bytes appended to the arena. -/
theorem addString_shape (S S1 : StringSet) (a : List Byte) (h : Int)
    (hadd : S.addString a = .ok (h, S1)) :
    (∃ n, strlen a = some n ∧
      S.findStringL a (sizeToInt n).toNat (stringHash a (sizeToInt n).toNat) = .ok h ∧
      h ≠ -1 ∧ S1 = S) ∨
    (∃ G T add, growLoop (S.m_data.length + 2) S = .ok G ∧ T.length = G.m_hashes.length ∧
      S1 = ⟨S.m_data ++ add, T, G.m_hashTableLoad + 1⟩ ∧ h = sizeToInt S.m_data.length) := by
  unfold addString at hadd
  split at hadd
  · simp at hadd
  · next n hn =>
    unfold addStringL at hadd
    simp only [] at hadd
    split at hadd
    · simp at hadd
    · next pos hpos =>
      split at hadd
      · next hneg =>
        right
        unfold addHash at hadd
        split at hadd
        · simp at hadd
        · next S2 hS2 =>
          split at hS2
          · simp at hS2
          · next G hG =>
            split at hadd
            · simp at hadd
            · simp only [Except.ok.injEq, Prod.mk.injEq] at hadd
              obtain ⟨hh, hS1⟩ := hadd
              rw [addHashNoRehash_eq] at hS2
              split at hS2
              · simp at hS2
              · next T hT =>
                simp only [Except.ok.injEq] at hS2
                subst hS2
                have hd := (growLoop_shape _ _ _ hG).1
                have hTl : T.length = G.m_hashes.length := by
                  unfold insertSlot at hT
                  split at hT
                  · simp at hT
                  · split at hT
                    · simp at hT
                    · simp only [Except.ok.injEq] at hT
                      rw [← hT]; simp
                refine ⟨G, T, a.take (sizeToInt n + 1).toNat, hG, hTl, ?_, hh.symm⟩
                rw [← hS1]
                simp only [hd]
      · next hne =>
        left
        simp only [Except.ok.injEq, Prod.mk.injEq] at hadd
        obtain ⟨hh, hS1⟩ := hadd
        subst hh
        exact ⟨n, hn, hpos, hne, hS1.symm⟩

/-- Capacity and load counter on every reachable state, from the control flow of
`addHash` alone: the capacity is a member of 0, 3, 9, 21, ..., and unless the state is
the constructed one, the counter is positive and was below half the capacity before
the last insertion. -/
theorem reachable_counters {S : StringSet} (hR : Reachable S) :
    (∃ k, S.m_hashes.length = 3 * (2 ^ k - 1)) ∧
    (S = empty ∨ (0 < S.m_hashTableLoad ∧ 2 * (S.m_hashTableLoad - 1) < S.m_hashes.length)) := by
  induction hR with
  | init => exact ⟨⟨0, rfl⟩, Or.inl rfl⟩
  | step s _ _ hadd ih =>
    rcases addString_shape _ _ _ _ hadd with ⟨n, -, -, -, h1⟩ | ⟨G, T, add, hG, hT, h1, -⟩
    · rw [h1]; exact ih
    · obtain ⟨-, h2, -, h4⟩ := growLoop_shape _ _ _ hG
      subst h1
      refine ⟨?_, Or.inr ⟨?_, ?_⟩⟩
      · simp only [hT]; exact h4 ih.1
      · simp
      · simp only [hT, Nat.add_sub_cancel]; omega

/-- An `addString` call that returns never shrinks the arena or the slot array. -/
theorem addString_mono (S S1 : StringSet) (a : List Byte) (h : Int)
    (hadd : S.addString a = .ok (h, S1)) :
    S.m_data <+: S1.m_data ∧ S.m_hashes.length ≤ S1.m_hashes.length := by
  rcases addString_shape _ _ _ _ hadd with ⟨n, -, -, -, h1⟩ | ⟨G, T, add, hG, hT, h1, -⟩
  · rw [h1]; exact ⟨List.prefix_refl _, le_refl _⟩
  · obtain ⟨-, -, h3, -⟩ := growLoop_shape _ _ _ hG
    subst h1
    exact ⟨List.prefix_append _ _, by simp only [hT]; exact h3⟩

theorem internAll_mono (ss : List (List Byte)) :
    ∀ (S A : StringSet) (hs : List Int), internAll S ss = .ok (hs, A) →
      S.m_data <+: A.m_data ∧ S.m_hashes.length ≤ A.m_hashes.length := by
  induction ss with
  | nil =>
    intro S A hs h
    simp only [internAll, Except.ok.injEq, Prod.mk.injEq] at h
    rw [← h.2]; exact ⟨List.prefix_refl _, le_refl _⟩
  | cons s ss ih =>
    intro S A hs h
    simp only [internAll] at h
    split at h
    · simp at h
    · next h0 S0 hadd =>
      split at h
      · simp at h
      · next hs1 S2 hrun =>
        simp only [Except.ok.injEq, Prod.mk.injEq] at h
        rw [← h.2]
        obtain ⟨h1, h2⟩ := addString_mono _ _ _ _ hadd
        obtain ⟨h3, h4⟩ := ih _ _ _ hrun
        exact ⟨h1.trans h3, by omega⟩

/-- The first `addString` call on the constructed state allocates slots. -/
theorem internAll_cap_pos (t : List Byte) (ts : List (List Byte)) (hs : List Int)
    (A : StringSet) (h : internAll empty (t :: ts) = .ok (hs, A)) : 0 < A.m_hashes.length := by
  simp only [internAll] at h
  split at h
  · simp at h
  · next h0 S0 hadd =>
    split at h
    · simp at h
    · next hs1 S2 hrun =>
      simp only [Except.ok.injEq, Prod.mk.injEq] at h
      rw [← h.2]
      have hmono := (internAll_mono _ _ _ _ hrun).2
      rcases addString_shape _ _ _ _ hadd with ⟨n, -, hf, hne, -⟩ | ⟨G, T, add, hG, hT, h1, -⟩
      · have : empty.findStringL (cstr t) (sizeToInt n).toNat
            (stringHash (cstr t) (sizeToInt n).toNat) = .ok (-1) := rfl
        rw [this] at hf
        exact absurd (Except.ok.inj hf).symm hne
      · obtain ⟨-, h2, -, -⟩ := growLoop_shape _ _ _ hG
        subst h1
        simp only [hT] at hmono
        omega

/-- Interning within the 2^31 bounds: when the calls return and the final arena is
shorter than 2^31 bytes, the final state stores the records that interning builds. -/
theorem internAll_inv (ss : List (List Byte)) :
    ∀ (S A : StringSet) (recs : List (List Byte)) (hs : List Int), Inv S recs →
      (∀ s ∈ ss, NulFree s) → (∀ s ∈ ss, s.length < 2 ^ 31) →
      internAll S ss = .ok (hs, A) → A.m_data.length < 2 ^ 31 →
      Inv A (internRecs recs ss) := by
  induction ss with
  | nil =>
    intro S A recs hs hI _ _ h _
    simp only [internAll, Except.ok.injEq, Prod.mk.injEq] at h
    rw [← h.2]; exact hI
  | cons s ss ih =>
    intro S A recs hs hI hss hlen h hA
    simp only [internAll] at h
    split at h
    · simp at h
    · next h0 S0 hadd =>
      split at h
      · simp at h
      · next hs1 S2 hrun =>
        simp only [Except.ok.injEq, Prod.mk.injEq] at h
        obtain ⟨-, rfl⟩ := h
        have hm1 := (addString_mono _ _ _ _ hadd).1.length_le
        have hm2 := (internAll_mono _ _ _ _ hrun).1.length_le
        obtain ⟨hold, hnew⟩ := addString_spec S recs s hI (hss s (List.mem_cons_self s ss))
          (by omega) (hlen s (List.mem_cons_self s ss))
        have hss1 : ∀ t ∈ ss, NulFree t := fun t ht => hss t (List.mem_cons_of_mem s ht)
        have hlen1 : ∀ t ∈ ss, t.length < 2 ^ 31 := fun t ht => hlen t (List.mem_cons_of_mem s ht)
        by_cases hmem : s ∈ recs
        · rw [hold hmem] at hadd
          cases hadd
          simpa [internRecs, hmem] using ih _ _ recs _ hI hss1 hlen1 hrun hA
        · obtain ⟨S3, hadd3, hI3, -⟩ := hnew hmem
          rw [hadd3] at hadd
          cases hadd
          simpa [internRecs, hmem] using ih _ _ (recs ++ [s]) _ hI3 hss1 hlen1 hrun hA

/-! ## Arenas of 2^31 bytes and more -/

theorem strcmpEq_cstr_nil (s : List Byte) : strcmpEq (cstr s) [] = none := by
  cases s <;> rfl

/-- A lookup whose probe sequence reaches a slot holding a negative value other than -1
after slots of other records: `getString` of that value points before the buffer, and
the comparison reads outside it. -/
theorem findLoop_fault (S : StringSet) (recs : List (List Byte)) (s : List Byte) (v : Int)
    (hdata : S.m_data = arenaOf recs) (hnul : ∀ r ∈ recs, NulFree r) (hs : NulFree s)
    (hv : v < -1) :
    ∀ (k fuel p : Nat), k < fuel → p < S.m_hashes.length →
      S.m_hashes[(p + k) % S.m_hashes.length]? = some v →
      (∀ j, j < k → ∃ r o, S.m_hashes[(p + j) % S.m_hashes.length]? = some ((o : Nat) : Int) ∧
        offsetOf recs r = some o ∧ r ≠ s) →
      findLoop S (cstr s) fuel p = .error .outOfBounds := by
  intro k
  induction k with
  | zero =>
    intro fuel p hf hp he _
    obtain ⟨fuel, rfl⟩ : ∃ f, fuel = f + 1 := ⟨fuel - 1, by omega⟩
    rw [Nat.add_zero, Nat.mod_eq_of_lt hp] at he
    have hne : v ≠ -1 := by omega
    have hget : S.getString v = [] := by
      unfold getString
      rw [if_neg (by omega)]
    simp [findLoop, he, hne, hget, strcmpEq_cstr_nil]
  | succ k ih =>
    intro fuel p hf hp he hocc
    obtain ⟨fuel, rfl⟩ : ∃ f, fuel = f + 1 := ⟨fuel - 1, by omega⟩
    obtain ⟨r, o1, hv0, hr, hsr⟩ := hocc 0 (by omega)
    rw [Nat.add_zero, Nat.mod_eq_of_lt hp] at hv0
    have hv1 : ((o1 : Nat) : Int) ≠ -1 := by omega
    have hcmp := strcmpEq_record S recs s r o1 hdata hnul hs hr
    have hsr1 : s ≠ r := fun e => hsr e.symm
    have hc : 0 < S.m_hashes.length := by omega
    have hp1 : (p + 1) % S.m_hashes.length < S.m_hashes.length := Nat.mod_lt _ hc
    have := ih fuel ((p + 1) % S.m_hashes.length) (by omega) hp1
      (by rw [step_mod]; exact he)
      (by
        intro j hj
        have := hocc (j + 1) (by omega)
        rw [step_mod]; exact this)
    simp [findLoop, hv0, hv1, hcmp, hsr1, nextSlot_eq _ p hp, this]

/-- Interning a string of 2^31 - 2 bytes and then a string of one byte succeeds with the
handles 0 and 2^31 - 1 and leaves an arena of 2^31 + 1 bytes under the invariant. -/
theorem overflow_state (n : Nat) (hn : n + 3 = 2 ^ 31 + 1) :
    (∀ s ∈ [List.replicate n (1 : Byte), [1]], NulFree s) ∧
    ∃ S1 A, empty.addString (cstr (List.replicate n 1)) = .ok (0, S1) ∧
      Inv S1 [List.replicate n 1] ∧ S1.m_data.length = 2147483647 ∧
      S1.addString (cstr [1]) = .ok (2147483647, A) ∧
      internAll empty [List.replicate n 1, [1]] = .ok ([0, 2147483647], A) ∧
      Inv A [List.replicate n 1, [1]] ∧ A.m_data.length = 2 ^ 31 + 1 := by
  have hnul : ∀ s ∈ [List.replicate n (1 : Byte), [1]], NulFree s := by
    intro s hs b hb
    rcases List.mem_cons.mp hs with h | h
    · rw [h] at hb
      rw [(List.mem_replicate.mp hb).2]
      decide
    · rw [List.mem_singleton.mp h] at hb
      rw [List.mem_singleton.mp hb]
      decide
  have hne : ([1] : List Byte) ∉ [List.replicate n (1 : Byte)] := by
    intro h
    have := congrArg List.length (List.mem_singleton.mp h)
    simp only [List.length_replicate, List.length_singleton] at this
    omega
  obtain ⟨S1, hadd1, hI1, hdata1, -, -⟩ :=
    (addString_spec empty [] (List.replicate n 1) inv_empty (hnul _ (by simp)) (by decide)
      (by rw [List.length_replicate]; omega)).2 (by simp)
  have hlen1 : S1.m_data.length = 2147483647 := by
    rw [hdata1]
    simp only [empty, cstr, List.nil_append, List.length_append, List.length_replicate,
      List.length_singleton]
    omega
  obtain ⟨A, hadd2, hIA, hdata2, -, -⟩ :=
    (addString_spec S1 [List.replicate n 1] [1] hI1 (hnul _ (by simp)) (by omega)
      (by decide)).2 hne
  have hlen : A.m_data.length = 2147483649 := by
    rw [hdata2, List.length_append, hlen1]
    rfl
  rw [hlen1] at hadd2
  have hadd1' : empty.addString (cstr (List.replicate n 1)) = .ok (0, S1) := hadd1
  refine ⟨hnul, S1, A, hadd1', hI1, hlen1, hadd2, ?_, hIA, hlen⟩
  simp only [internAll, hadd1', hadd2]
  rfl

/-- The third string interned after a string of 2^31 - 2 bytes and a string of one byte:
the arena size 2^31 + 1 is narrowed to the `int` -2147483647, which is returned and
stored in the slot array; from then on a lookup of that string reads outside the
buffer, and so does `rehashAll`, whose scan reaches offset 2^31 + 1. -/
theorem wrap_state (n : Nat) (hn : n + 3 = 2 ^ 31 + 1) (A : StringSet)
    (hIA : Inv A [List.replicate n 1, [1]]) (hlen : A.m_data.length = 2 ^ 31 + 1) :
    ∃ A3 : StringSet,
      A.addString (cstr [2]) = .ok (-2147483647, A3) ∧
      A3.m_data = A.m_data ++ cstr [2] ∧
      (-2147483647 : Int) ∈ A3.m_hashes ∧
      A3.findStringL (cstr [2]) 1 (hashOf [2]) = .error .outOfBounds ∧
      (∀ l, rehashAll ⟨A3.m_data, List.replicate A3.m_hashes.length (-1), l⟩ =
        .error .outOfBounds) := by
  have hnul := hIA.nul
  have hlenA : A.m_data.length = 2147483649 := hlen
  have hs2 : NulFree ([2] : List Byte) := by decide
  have hmem : ([2] : List Byte) ∉ [List.replicate n (1 : Byte), [1]] := by
    intro h
    rcases List.mem_cons.mp h with h | h
    · have := congrArg List.length h
      simp only [List.length_replicate, List.length_singleton] at this
      omega
    · exact absurd (List.mem_singleton.mp h) (by decide)
  have hfit : OffsetsFit 0 [List.replicate n (1 : Byte), [1]] := by
    refine ⟨by decide, ?_, ?_, by decide, trivial⟩ <;> simp only [List.length_replicate] <;>
      omega
  obtain ⟨G, k1, T2, -, hIG, hsmall, hdataG, -, hk1, hemp, hocc, -, hT2, hadd⟩ :=
    addString_new A _ [2] hIA hs2 hmem hfit (by decide)
  have hv : sizeToInt A.m_data.length = -2147483647 := by
    rw [hlenA, sizeToInt_neg _ (by decide) (by decide)]
    rfl
  rw [hv] at hadd hT2
  have hc0 : 0 < G.m_hashes.length := by omega
  have hp : (toSizeT (hashOf [2]) % G.m_hashes.length + k1) % G.m_hashes.length <
      G.m_hashes.length := Nat.mod_lt _ hc0
  have hlenT : T2.length = G.m_hashes.length := by rw [hT2, List.length_set]
  have hat : T2[(toSizeT (hashOf [2]) % G.m_hashes.length + k1) % G.m_hashes.length]? =
      some (-2147483647) := by
    rw [hT2, List.getElem?_set_self hp]
  have hdata3 : A.m_data ++ cstr [2] = arenaOf ([List.replicate n 1, [1]] ++ [[2]]) := by
    rw [arenaOf_append, ← hIA.data]
    rfl
  have hnul3 : ∀ r ∈ [List.replicate n (1 : Byte), [1]] ++ [[2]], NulFree r := by
    intro r hr
    rcases List.mem_append.mp hr with h | h
    · exact hnul r h
    · rw [List.mem_singleton.mp h]; exact hs2
  refine ⟨⟨A.m_data ++ cstr [2], T2, 3⟩, hadd, rfl,
    List.mem_iff_getElem?.mpr ⟨_, hat⟩, ?_, ?_⟩
  · unfold findStringL
    simp only [hlenT]
    rw [if_neg (by omega)]
    refine findLoop_fault ⟨A.m_data ++ cstr [2], T2, 3⟩ _ [2] (-2147483647) hdata3 hnul3 hs2
      (by decide) k1 _ _ (by simpa [hlenT] using hk1) (by simpa [hlenT] using Nat.mod_lt _ hc0)
      (by simpa [hlenT] using hat) ?_
    intro j hj
    obtain ⟨v, hvj, hvne⟩ := hocc j hj
    obtain ⟨r, o, ho, hvo⟩ := hIG.table.1.valid _ v hvj hvne
    have hrmem : r ∈ [List.replicate n (1 : Byte), [1]] := (offsetOf_isSome _ r).mp ⟨o, ho⟩
    refine ⟨r, o, ?_, ?_, fun e => hmem (e ▸ hrmem)⟩
    · simp only [hlenT]
      rw [hT2, List.getElem?_set_ne, hvj, hvo]
      intro e
      rw [e, hvj] at hemp
      exact hvne (Option.some.inj hemp)
    · rw [offsetOf_append_left _ _ r hrmem]; exact ho
  · intro l
    simp only [hlenT]
    have hlt : 2147483649 < (A.m_data ++ cstr [2]).length := by
      rw [List.length_append, hlenA]; simp [cstr]
    have hidx : sizeToInt 2147483649 = -2147483647 := by
      rw [sizeToInt_neg _ (by decide) (by decide)]
      rfl
    have hrest : ∀ (f : Nat) (T : List Int) (k : Nat),
        rehashLoop [] (f + 1) ⟨A.m_data ++ cstr [2], T, k⟩ 2147483649 =
          .error .outOfBounds := by
      intro f T k
      rw [rehashLoop]
      simp only [hlt, if_true, hidx,
        readString_neg _ _ _ (show (-2147483647 : Int) < 0 by decide), strlen]
    have hrun2 := rehashLoop_run [] (cstr [2]) [List.replicate n (1 : Byte), [1]] []
      ⟨A.m_data ++ cstr [2], List.replicate G.m_hashes.length (-1), 0⟩
      ((A.m_data ++ cstr [2]).length + 1) (by simp [hIA.data]) hnul
      (by simpa [arenaOf] using hfit) (by rw [List.length_append, hlenA]; simp; omega)
    simp only [arenaOf, List.length_nil, List.nil_append] at hrun2
    have hb := hIG.built
    rw [hb] at hrun2
    simp only [List.length_cons, List.length_nil] at hrun2
    have hpos : (List.replicate n (1 : Byte) ++ 0 :: ([1] ++ 0 :: ([] : List Byte))).length =
        2147483649 := by
      simp only [List.length_append, List.length_replicate, List.length_cons, List.length_nil]
      omega
    rw [hpos] at hrun2
    obtain ⟨f, hf⟩ : ∃ f, (A.m_data ++ cstr [2]).length + 1 - (0 + 1 + 1) = f + 1 :=
      ⟨(A.m_data ++ cstr [2]).length - 2, by rw [List.length_append, hlenA]; simp [cstr]⟩
    rw [hf, hrest] at hrun2
    exact hrun2

/-- A failing lookup of "\x02" makes `findString`, `containsString` and `addString`
fail for that string. -/
theorem lookup_fault (S : StringSet)
    (h : S.findStringL (cstr [2]) 1 (hashOf [2]) = .error .outOfBounds) :
    S.findString (cstr [2]) = .error .outOfBounds ∧
    S.containsString (cstr [2]) = .error .outOfBounds ∧
    S.addString (cstr [2]) = .error .outOfBounds := by
  have h1 : strlen (cstr [2]) = some 1 := rfl
  have h2 : sizeToInt 1 = 1 := rfl
  have h3 : stringHash (cstr [2]) 1 = hashOf [2] := rfl
  refine ⟨?_, ?_, ?_⟩
  · simp only [findString, h1, h2, Int.toNat_one, h3, h]
  · simp only [containsString, h1, h2, Int.toNat_one, h3, h]
  · simp only [addString, h1, addStringL, h2, Int.toNat_one, h3, h]

/-- The three strings of 2^31 - 2 bytes, of one byte 1 and of one byte 2, interned in
this order: the calls return 0, 2^31 - 1 and -2147483647; the third handle sits in the
slot array, and from then on a lookup of the third string, a second `addString` of it
and `rehashAll` read outside the buffer. -/
theorem wrap_run (n : Nat) (hn : n + 3 = 2 ^ 31 + 1) :
    (∀ s ∈ [List.replicate n (1 : Byte), [1], [2]], NulFree s) ∧
    (∀ s ∈ [List.replicate n (1 : Byte), [1], [2], [2]], NulFree s) ∧
    ∃ S0 A A3 : StringSet,
      empty.addString (cstr (List.replicate n 1)) = .ok (0, S0) ∧
      S0.findString (cstr [1]) = .ok (-1) ∧
      S0.addString (cstr [1]) = .ok (2147483647, A) ∧
      internAll empty [List.replicate n 1, [1]] = .ok ([0, 2147483647], A) ∧
      A.m_data.length = 2 ^ 31 + 1 ∧
      A.findString (cstr [2]) = .ok (-1) ∧
      A.addString (cstr [2]) = .ok (-2147483647, A3) ∧
      internAll empty [List.replicate n 1, [1], [2]] =
        .ok ([0, 2147483647, -2147483647], A3) ∧
      Reachable A3 ∧
      A3.m_data.length = 2 ^ 31 + 3 ∧
      (-2147483647 : Int) ∈ A3.m_hashes ∧
      A3.findString (cstr [2]) = .error .outOfBounds ∧
      A3.containsString (cstr [2]) = .error .outOfBounds ∧
      A3.addString (cstr [2]) = .error .outOfBounds ∧
      (∀ l, rehashAll ⟨A3.m_data, List.replicate A3.m_hashes.length (-1), l⟩ =
        .error .outOfBounds) ∧
      internAll empty [List.replicate n 1, [1], [2], [2]] = .error .outOfBounds := by
  obtain ⟨hnul, S0, A, hadd0, hI0, hlen0, hadd1, hrun, hIA, hlen⟩ := overflow_state n hn
  obtain ⟨A3, hadd2, hdata3, hmem3, hfind3, hre3⟩ := wrap_state n hn A hIA hlen
  obtain ⟨hf, hc, ha⟩ := lookup_fault A3 hfind3
  have hnul3 : ∀ s ∈ [List.replicate n (1 : Byte), [1], [2]], NulFree s := by
    intro s hs
    rcases List.mem_cons.mp hs with h | h
    · exact hnul s (h ▸ List.mem_cons_self _ _)
    · rcases List.mem_cons.mp h with h | h
      · exact hnul s (h ▸ List.mem_cons_of_mem _ (List.mem_cons_self _ _))
      · rw [List.mem_singleton.mp h]; decide
  have hne1 : ([1] : List Byte) ∉ [List.replicate n (1 : Byte)] := by
    intro h
    have := congrArg List.length (List.mem_singleton.mp h)
    simp only [List.length_replicate, List.length_singleton] at this
    omega
  have hne2 : ([2] : List Byte) ∉ [List.replicate n (1 : Byte), [1]] := by
    intro h
    rcases List.mem_cons.mp h with h | h
    · have := congrArg List.length h
      simp only [List.length_replicate, List.length_singleton] at this
      omega
    · exact absurd (List.mem_singleton.mp h) (by decide)
  have hfind0 : S0.findString (cstr [1]) = .ok (-1) := by
    rw [findString_spec S0 _ [1] hI0 (by decide) (fun h => absurd h hne1),
      handleOf_of_not_mem hne1]
  have hfindA : A.findString (cstr [2]) = .ok (-1) := by
    rw [findString_spec A _ [2] hIA (by decide) (fun h => absurd h hne2),
      handleOf_of_not_mem hne2]
  have hrun3 : internAll empty [List.replicate n 1, [1], [2]] =
      .ok ([0, 2147483647, -2147483647], A3) := by
    simp only [internAll, hadd0, hadd1, hadd2]
  have hrun4 : internAll empty [List.replicate n 1, [1], [2], [2]] = .error .outOfBounds := by
    simp only [internAll, hadd0, hadd1, hadd2, ha]
  have hnul4 : ∀ s ∈ [List.replicate n (1 : Byte), [1], [2], [2]], NulFree s := by
    intro s hs
    rcases List.mem_cons.mp hs with h | h
    · exact hnul s (h ▸ List.mem_cons_self _ _)
    · rcases List.mem_cons.mp h with h | h
      · exact hnul s (h ▸ List.mem_cons_of_mem _ (List.mem_cons_self _ _))
      · rcases List.mem_cons.mp h with h | h
        · rw [h]; decide
        · rw [List.mem_singleton.mp h]; decide
  refine ⟨hnul3, hnul4, S0, A, A3, hadd0, hfind0, hadd1, hrun, hlen, hfindA, hadd2, hrun3,
    internAll_reachable _ _ _ _ Reachable.init hnul3 hrun3, ?_, hmem3, hf, hc, ha, hre3, hrun4⟩
  rw [hdata3, List.length_append, hlen]
  rfl

/-- Two strings of 2^31 - 2 bytes and of 1 byte fill an arena of 2^31 + 1 bytes, whose
length does not fit the `int` written by `saveToFile`; the length read back is
negative. -/
theorem save_overflow (n : Nat) (hn : n + 3 = 2 ^ 31 + 1) :
    (∀ s ∈ [List.replicate n (1 : Byte), [1]], NulFree s) ∧
    ∃ hs A, internAll empty [List.replicate n 1, [1]] = .ok (hs, A) ∧
      A.m_data.length = 2 ^ 31 + 1 ∧
      loadFromFile empty (saveToFile A) = .error .lengthError := by
  obtain ⟨hnul, -, A, -, -, -, -, hrun, -, hlen⟩ := overflow_state n hn
  refine ⟨hnul, _, A, hrun, hlen, ?_⟩
  have hlen1 : A.m_data.length = 2147483649 := hlen
  have htake : (saveToFile A).take 4 = [1, 0, 0, 128] := by
    unfold saveToFile
    rw [List.append_assoc, hlen1]
    exact List.take_left' (intToBytes_length _)
  have hlen4 : ¬ (saveToFile A).length < 4 := by
    simp [saveToFile, intToBytes_length]
  rw [loadFromFile_eq, if_neg hlen4, htake, if_pos (by decide)]

/-! ## Properties of interning and lookup -/

/-- C1, as stated, fails: interning a string of 2^31 - 2 bytes, then "\x01", then
"\x02" returns the handles 0, 2^31 - 1 and -2147483647, the arena size 2^31 + 1
narrowed to `int`; `findString("\x02")` afterwards does not return that handle: its
probe reaches the slot holding -2147483647 and reads outside the buffer. -/
theorem lookup_counterexample :
    (∀ s ∈ [List.replicate (2 ^ 31 - 2) (1 : Byte), [1], [2]], NulFree s) ∧
    ∃ hs S, internAll empty [List.replicate (2 ^ 31 - 2) 1, [1], [2]] = .ok (hs, S) ∧
      hs = [0, 2147483647, -2147483647] ∧
      S.findString (cstr [2]) = .error .outOfBounds := by
  obtain ⟨hnul, -, S0, A, A3, -, -, -, -, -, -, -, hrun, -, -, -, hf, -, -, -, -⟩ :=
    wrap_run (2 ^ 31 - 2) (by decide)
  exact ⟨hnul, _, A3, hrun, rfl, hf⟩

/-- C1, amended. Lookup correctness across growth and collisions: interning a finite
sequence of NUL-free strings whose distinct strings, each with its terminator, take
fewer than 2^31 bytes together into an empty set succeeds, and afterwards
`findString(s)` returns, for a string `s` of the sequence, the handle returned by the
first `addString(s)` of the sequence (indeed by every `addString(s)` of the sequence; it
is not -1), and returns -1 for every NUL-free string outside the sequence;
`containsString(s)` is true exactly in the first case. -/
theorem lookup_after_interning (ss : List (List Byte)) (hss : ∀ s ∈ ss, NulFree s)
    (hfit : (arenaOf (firstOccurrences ss)).length < 2 ^ 31) :
    ∃ hs S, internAll empty ss = .ok (hs, S) ∧ hs.length = ss.length ∧
      ∀ s, NulFree s →
        (s ∈ ss → ∃ h, h ≠ -1 ∧ (∀ i : Nat, ss[i]? = some s → hs[i]? = some h) ∧
          S.findString (cstr s) = .ok h ∧ S.containsString (cstr s) = .ok true) ∧
        (s ∉ ss → S.findString (cstr s) = .ok (-1) ∧
          S.containsString (cstr s) = .ok false) := by
  have hfit1 : (arenaOf (internRecs [] ss)).length < 2 ^ 31 := by rw [internRecs_nil]; exact hfit
  obtain ⟨S, hrun, hI⟩ := internAll_spec ss empty [] inv_empty hss hfit1
  have hS : S.m_data.length < 2 ^ 31 := by rw [hI.data]; exact hfit1
  refine ⟨_, S, hrun, by simp, ?_⟩
  intro s hs
  have hmem : s ∈ internRecs [] ss ↔ s ∈ ss := by rw [mem_internRecs]; simp
  have hfind := findString_spec S _ s hI hs (hI.mem_length_lt hS s)
  have hcont := containsString_spec S _ s hI hs (hI.mem_length_lt hS s)
  constructor
  · intro h
    refine ⟨handleOf (internRecs [] ss) s, ?_, ?_, hfind, ?_⟩
    · intro e; exact handleOf_eq_neg_one.mp e (hmem.mpr h)
    · intro i hi
      rw [List.getElem?_map, hi]; rfl
    · rw [hcont]; simp [hmem.mpr h]
  · intro h
    have hnot : s ∉ internRecs [] ss := fun e => h (hmem.mp e)
    constructor
    · rw [hfind, handleOf_of_not_mem hnot]
    · rw [hcont]; simp [hnot]

theorem lookup_after_interning_witness :
    (∀ s ∈ [[97], [98, 98], [97], [99, 99, 99]], NulFree s) ∧
    (arenaOf (firstOccurrences [[97], [98, 98], [97], [99, 99, 99]])).length < 2 ^ 31 ∧
    ∃ hs S, internAll empty [[97], [98, 98], [97], [99, 99, 99]] = .ok (hs, S) ∧
      hs.length = [[97], [98, 98], [97], ([99, 99, 99] : List Byte)].length ∧
      ∀ s, NulFree s →
        (s ∈ [[97], [98, 98], [97], [99, 99, 99]] →
          ∃ h, h ≠ -1 ∧
            (∀ i : Nat, [[97], [98, 98], [97], [99, 99, 99]][i]? = some s → hs[i]? = some h) ∧
          S.findString (cstr s) = .ok h ∧ S.containsString (cstr s) = .ok true) ∧
        (s ∉ [[97], [98, 98], [97], [99, 99, 99]] → S.findString (cstr s) = .ok (-1) ∧
          S.containsString (cstr s) = .ok false) :=
  ⟨by decide, by decide,
    lookup_after_interning [[97], [98, 98], [97], [99, 99, 99]] (by decide) (by decide)⟩

/-- C3, as stated, fails: on the reachable state that holds a string of 2^31 - 2 bytes
and "\x01", the first `addString("\x02")` returns -2147483647 and the second one does
not return: its lookup reads outside the buffer. -/
theorem intern_counterexample :
    ∃ hs S, internAll empty [List.replicate (2 ^ 31 - 2) 1, [1]] = .ok (hs, S) ∧
      NulFree [2] ∧
      ∃ h S1, S.addString (cstr [2]) = .ok (h, S1) ∧ h = -2147483647 ∧
        S1.addString (cstr [2]) = .error .outOfBounds := by
  obtain ⟨-, -, S0, A, A3, -, -, -, hrun, -, -, hadd, -, -, -, -, -, -, ha, -, -⟩ :=
    wrap_run (2 ^ 31 - 2) (by decide)
  exact ⟨_, A, hrun, by decide, _, A3, hadd, rfl, ha⟩

/-- C3, amended. Idempotence of intern: on every state reached by `addString` calls on
NUL-free strings shorter than 2^31 bytes that keep the arena shorter than 2^31 bytes,
`addString(s)` for a NUL-free `s` shorter than 2^31 bytes called twice in a row returns
the same handle both times; the first call leaves the state as it is when `s` is
already present and extends the arena by exactly `len(s) + 1` bytes when `s` is new,
and the second call leaves the whole state (arena, slot array, load counter)
unchanged. -/
theorem intern_idempotent (S : StringSet) (s : List Byte) (hR : SmallReachable S)
    (hs : NulFree s) (hlen : s.length < 2 ^ 31) :
    ∃ h S1, S.addString (cstr s) = .ok (h, S1) ∧ S1.addString (cstr s) = .ok (h, S1) ∧
      ((S.containsString (cstr s) = .ok true ∧ S1.m_data.length = S.m_data.length) ∨
       (S.containsString (cstr s) = .ok false ∧
         S1.m_data.length = S.m_data.length + (s.length + 1))) := by
  obtain ⟨recs, hI, -, hS⟩ := smallReachable_inv hR
  obtain ⟨hold, hnew⟩ := addString_spec S recs s hI hs hS hlen
  have hcont := containsString_spec S recs s hI hs (fun _ => hlen)
  by_cases hmem : s ∈ recs
  · refine ⟨_, S, hold hmem, hold hmem, Or.inl ⟨?_, rfl⟩⟩
    rw [hcont]; simp [hmem]
  · obtain ⟨S1, hadd, hI1, hdata, -, -⟩ := hnew hmem
    have h2 := addString_old S1 (recs ++ [s]) s hI1 hs hlen (by simp)
    have hh : handleOf (recs ++ [s]) s = (S.m_data.length : Int) := by
      simp [handleOf, offsetOf_snoc_self recs s hmem, hI.data]
    rw [hh] at h2
    refine ⟨_, S1, hadd, h2, Or.inr ⟨?_, ?_⟩⟩
    · rw [hcont]; simp [hmem]
    · rw [hdata]; simp [cstr]

theorem intern_idempotent_witness :
    SmallReachable ⟨[97, 0], [-1, 0, -1], 1⟩ ∧ NulFree [98, 98] ∧
    ([98, 98] : List Byte).length < 2 ^ 31 ∧
    ∃ h S1, addString ⟨[97, 0], [-1, 0, -1], 1⟩ (cstr [98, 98]) = .ok (h, S1) ∧
      S1.addString (cstr [98, 98]) = .ok (h, S1) ∧
      ((containsString ⟨[97, 0], [-1, 0, -1], 1⟩ (cstr [98, 98]) = .ok true ∧
          S1.m_data.length = ([97, 0] : List Byte).length) ∨
       (containsString ⟨[97, 0], [-1, 0, -1], 1⟩ (cstr [98, 98]) = .ok false ∧
          S1.m_data.length = ([97, 0] : List Byte).length + (([98, 98] : List Byte).length + 1))) :=
  ⟨SmallReachable.step [97] SmallReachable.init (by decide) (by decide) rfl (by decide),
    by decide, by decide,
    intern_idempotent ⟨[97, 0], [-1, 0, -1], 1⟩ [98, 98]
      (SmallReachable.step [97] SmallReachable.init (by decide) (by decide) rfl (by decide))
      (by decide) (by decide)⟩

/-- C4, as stated, fails: on the reachable state that holds a string of 2^31 - 2 bytes
and "\x01", whose arena has 2^31 + 1 bytes, the string "\x02" is not present, and
`addString("\x02")` returns -2147483647, not the arena size 2147483649. -/
theorem offsets_counterexample :
    ∃ hs S, internAll empty [List.replicate (2 ^ 31 - 2) 1, [1]] = .ok (hs, S) ∧
      S.m_data.length = 2 ^ 31 + 1 ∧ S.findString (cstr [2]) = .ok (-1) ∧
      ∃ h S1, S.addString (cstr [2]) = .ok (h, S1) ∧ h = -2147483647 ∧
        h ≠ (S.m_data.length : Int) := by
  obtain ⟨-, -, S0, A, A3, -, -, -, hrun, hlen, hfind, hadd, -, -, -, -, -, -, -, -, -⟩ :=
    wrap_run (2 ^ 31 - 2) (by decide)
  refine ⟨_, A, hrun, hlen, hfind, _, A3, hadd, rfl, ?_⟩
  rw [hlen]
  decide

/-- C4, amended. Handles are arena offsets: `addString(s)` on a state reached by
`addString` calls on NUL-free strings shorter than 2^31 bytes that keep the arena
shorter than 2^31 bytes, in which the NUL-free `s`, itself shorter than 2^31 bytes, is
not present, returns the arena size before the call and leaves the old arena followed
by the bytes of `s` and one 0 byte.  Consequently, interning pairwise distinct strings
that take, with their terminators, fewer than 2^31 bytes together into an empty set
returns for the i-th string the sum of `len + 1` over the strings before it; "a", "bb",
"ccc" give 0, 2, 5, after which `findString("bb") = 2` and `findString("zz") = -1`. -/
theorem handles_are_offsets (S : StringSet) (s : List Byte) (ss : List (List Byte))
    (hR : SmallReachable S) (hs : NulFree s) (hlen : s.length < 2 ^ 31)
    (hnew : S.findString (cstr s) = .ok (-1))
    (hnd : ss.Nodup) (hss : ∀ t ∈ ss, NulFree t) (hfit : (arenaOf ss).length < 2 ^ 31) :
    (∃ S1, S.addString (cstr s) = .ok ((S.m_data.length : Int), S1) ∧
      S1.m_data = S.m_data ++ s ++ [0]) ∧
    (∃ hs A, internAll empty ss = .ok (hs, A) ∧
      ∀ i, i < ss.length →
        hs[i]? = some ((((ss.take i).map (fun t => t.length + 1)).sum : Nat) : Int)) ∧
    (∃ A, internAll empty [[97], [98, 98], [99, 99, 99]] = .ok ([0, 2, 5], A) ∧
      A.findString (cstr [98, 98]) = .ok 2 ∧ A.findString (cstr [122, 122]) = .ok (-1)) := by
  refine ⟨?_, ?_, ⟨_, rfl, rfl, rfl⟩⟩
  · obtain ⟨recs, hI, -, hS⟩ := smallReachable_inv hR
    have hmem : s ∉ recs := by
      rw [findString_spec S recs s hI hs (fun _ => hlen)] at hnew
      exact handleOf_eq_neg_one.mp (Except.ok.inj hnew)
    obtain ⟨S1, hadd, -, hdata, -, -⟩ := (addString_spec S recs s hI hs hS hlen).2 hmem
    exact ⟨S1, hadd, by rw [hdata]; simp [cstr]⟩
  · have hrec : internRecs [] ss = ss := by
      rw [internRecs_nodup ss [] hnd (by simp), List.nil_append]
    obtain ⟨A, hrun, -⟩ := internAll_spec ss empty [] inv_empty hss (by rw [hrec]; exact hfit)
    rw [hrec] at hrun
    refine ⟨_, A, hrun, ?_⟩
    intro i hi
    rw [List.getElem?_map, List.getElem?_eq_getElem hi, Option.map_some', ← arenaOf_length]
    simp [handleOf, offsetOf_getElem_nodup ss hnd i hi]

theorem handles_are_offsets_witness :
    SmallReachable ⟨[97, 0], [-1, 0, -1], 1⟩ ∧ NulFree [98, 98] ∧
    ([98, 98] : List Byte).length < 2 ^ 31 ∧
    findString ⟨[97, 0], [-1, 0, -1], 1⟩ (cstr [98, 98]) = .ok (-1) ∧
    [[97], [98, 98], ([99, 99, 99] : List Byte)].Nodup ∧
    (∀ t ∈ [[97], [98, 98], [99, 99, 99]], NulFree t) ∧
    (arenaOf [[97], [98, 98], [99, 99, 99]]).length < 2 ^ 31 ∧
    (∃ S1, addString ⟨[97, 0], [-1, 0, -1], 1⟩ (cstr [98, 98]) =
        .ok ((([97, 0] : List Byte).length : Int), S1) ∧
      S1.m_data = [97, 0] ++ [98, 98] ++ [0]) ∧
    (∃ hs A, internAll empty [[97], [98, 98], [99, 99, 99]] = .ok (hs, A) ∧
      ∀ i, i < [[97], [98, 98], ([99, 99, 99] : List Byte)].length →
        hs[i]? = some (((([[97], [98, 98], ([99, 99, 99] : List Byte)].take i).map
          (fun t => t.length + 1)).sum : Nat) : Int)) ∧
    (∃ A, internAll empty [[97], [98, 98], [99, 99, 99]] = .ok ([0, 2, 5], A) ∧
      A.findString (cstr [98, 98]) = .ok 2 ∧ A.findString (cstr [122, 122]) = .ok (-1)) :=
  ⟨SmallReachable.step [97] SmallReachable.init (by decide) (by decide) rfl (by decide),
    by decide, by decide, rfl, by decide, by decide, by decide,
    handles_are_offsets ⟨[97, 0], [-1, 0, -1], 1⟩ [98, 98] [[97], [98, 98], [99, 99, 99]]
      (SmallReachable.step [97] SmallReachable.init (by decide) (by decide) rfl (by decide))
      (by decide) (by decide) rfl (by decide) (by decide) (by decide)⟩

/-- C5, as stated, fails: on the reachable state that holds a string of 2^31 - 2 bytes,
the newly added "\x01" gets the handle 2147483647 and the string "\x02", newly added
after it, gets the handle -2147483647, which is not larger; and `getString` of that
handle points before the buffer, where no byte of "\x02" can be read. -/
theorem stability_counterexample :
    ∃ S S1 S2, empty.addString (cstr (List.replicate (2 ^ 31 - 2) 1)) = .ok (0, S) ∧
      S.findString (cstr [1]) = .ok (-1) ∧ S.addString (cstr [1]) = .ok (2147483647, S1) ∧
      S1.findString (cstr [2]) = .ok (-1) ∧
      S1.addString (cstr [2]) = .ok (-2147483647, S2) ∧
      ¬ ((2147483647 : Int) < -2147483647) ∧
      S2.getString (-2147483647) = [] ∧ strlen (S2.getString (-2147483647)) = none := by
  obtain ⟨-, -, S0, A, A3, hadd0, hfind0, hadd1, -, -, hfind, hadd, -, -, -, -, -, -, -, -, -⟩ :=
    wrap_run (2 ^ 31 - 2) (by decide)
  exact ⟨S0, A, A3, hadd0, hfind0, hadd1, hfind, hadd, by decide, rfl, rfl⟩

/-- C5, amended. Handle stability: on a state reached by `addString` calls on NUL-free
strings shorter than 2^31 bytes that keep the arena shorter than 2^31 bytes, if `h` is
the handle returned by `addString(s)` for a NUL-free `s`, then after any further
sequence of `addString` calls, as long as the arena together with `s` and the further
strings, each with its terminator, stays shorter than 2^31 bytes, the bytes read by
`getString(h)` up to the next 0 byte are still exactly `s`; every call leaves the
previous arena as a prefix of the new arena, and a string shorter than 2^31 bytes that
is newly added later gets a strictly larger handle than a string that was newly added
before. -/
theorem handle_stability (S : StringSet) (s : List Byte) (ts : List (List Byte))
    (hR : SmallReachable S) (hs : NulFree s) (hts : ∀ t ∈ ts, NulFree t)
    (hfit : S.m_data.length + (arenaOf (s :: ts)).length < 2 ^ 31) :
    ∃ h S1 hs1 S2, S.addString (cstr s) = .ok (h, S1) ∧ internAll S1 ts = .ok (hs1, S2) ∧
      S.m_data <+: S1.m_data ∧ S1.m_data <+: S2.m_data ∧
      strlen (S1.getString h) = some s.length ∧ (S1.getString h).take s.length = s ∧
      strlen (S2.getString h) = some s.length ∧ (S2.getString h).take s.length = s ∧
      ∀ t, NulFree t → t.length < 2 ^ 31 → S.findString (cstr s) = .ok (-1) →
        S2.findString (cstr t) = .ok (-1) →
        ∃ h1 S3, S2.addString (cstr t) = .ok (h1, S3) ∧ h < h1 ∧ S2.m_data <+: S3.m_data := by
  obtain ⟨recs, hI, -, hS⟩ := smallReachable_inv hR
  rw [arenaOf_length_cons] at hfit
  have hlen : s.length < 2 ^ 31 := by omega
  obtain ⟨S1, hadd, hI1, hold, hnew⟩ := addString_inv S recs s hI hs hS hlen
  have hb1 : (arenaOf (internRecs recs [s])).length ≤ (arenaOf recs).length + (s.length + 1) := by
    have := arenaOf_internRecs_le [s] recs
    simpa [arenaOf] using this
  have hb2 := arenaOf_internRecs_le ts (internRecs recs [s])
  have hSr : S.m_data.length = (arenaOf recs).length := by rw [hI.data]
  obtain ⟨S2, hrun, hI2⟩ := internAll_spec ts S1 _ hI1 hts (by omega)
  have hS2 : S2.m_data.length < 2 ^ 31 := by rw [hI2.data]; omega
  have hp1 : recs <+: internRecs recs [s] := internRecs_extends [s] recs
  have hp2 : internRecs recs [s] <+: internRecs (internRecs recs [s]) ts :=
    internRecs_extends ts _
  have hmem1 : s ∈ internRecs recs [s] := by rw [mem_internRecs]; simp
  have hmem2 : s ∈ internRecs (internRecs recs [s]) ts := hp2.subset hmem1
  obtain ⟨rest1, hget1⟩ := getString_handleOf S1 _ s hI1 hmem1
  obtain ⟨rest2, hget2⟩ := getString_handleOf S2 _ s hI2 hmem2
  rw [handleOf_stable hp2 hmem1] at hget2
  refine ⟨_, S1, _, S2, hadd, hrun, ?_, ?_, ?_, ?_, ?_, ?_, ?_⟩
  · rw [hI.data, hI1.data]; exact arenaOf_mono hp1
  · rw [hI1.data, hI2.data]; exact arenaOf_mono hp2
  · rw [hget1]; exact strlen_payload s rest1 hs
  · rw [hget1]; exact List.take_left s _
  · rw [hget2]; exact strlen_payload s rest2 hs
  · rw [hget2]; exact List.take_left s _
  · intro t ht htlen hsnew htnew
    have hs_not : s ∉ recs := by
      rw [findString_spec S recs s hI hs (fun _ => hlen)] at hsnew
      exact handleOf_eq_neg_one.mp (Except.ok.inj hsnew)
    have ht_not : t ∉ internRecs (internRecs recs [s]) ts := by
      rw [findString_spec S2 _ t hI2 ht (fun _ => htlen)] at htnew
      exact handleOf_eq_neg_one.mp (Except.ok.inj htnew)
    obtain ⟨S3, hadd3, hI3, -, hnew3⟩ := addString_inv S2 _ t hI2 ht hS2 htlen
    obtain ⟨hh3, hdata3, -, -⟩ := hnew3 ht_not
    obtain ⟨hh1, hdata1, -, -⟩ := hnew hs_not
    refine ⟨_, S3, hadd3, ?_, by rw [hdata3]; exact List.prefix_append _ _⟩
    rw [hh3, hh1]
    have hle : S1.m_data.length ≤ S2.m_data.length := by
      rw [hI1.data, hI2.data]; exact (arenaOf_mono hp2).length_le
    have : S1.m_data.length = S.m_data.length + (s.length + 1) := by
      rw [hdata1]; simp [cstr]
    omega

theorem handle_stability_witness :
    SmallReachable ⟨[97, 0], [-1, 0, -1], 1⟩ ∧ NulFree [98, 98] ∧
    (∀ t ∈ [[99], [97], [100]], NulFree t) ∧
    ([97, 0] : List Byte).length + (arenaOf ([98, 98] :: [[99], [97], [100]])).length < 2 ^ 31 ∧
    ∃ h S1 hs1 S2, addString ⟨[97, 0], [-1, 0, -1], 1⟩ (cstr [98, 98]) = .ok (h, S1) ∧
      internAll S1 [[99], [97], [100]] = .ok (hs1, S2) ∧
      [97, 0] <+: S1.m_data ∧ S1.m_data <+: S2.m_data ∧
      strlen (S1.getString h) = some ([98, 98] : List Byte).length ∧
      (S1.getString h).take ([98, 98] : List Byte).length = [98, 98] ∧
      strlen (S2.getString h) = some ([98, 98] : List Byte).length ∧
      (S2.getString h).take ([98, 98] : List Byte).length = [98, 98] ∧
      ∀ t, NulFree t → t.length < 2 ^ 31 →
        findString ⟨[97, 0], [-1, 0, -1], 1⟩ (cstr [98, 98]) = .ok (-1) →
        S2.findString (cstr t) = .ok (-1) →
        ∃ h1 S3, S2.addString (cstr t) = .ok (h1, S3) ∧ h < h1 ∧ S2.m_data <+: S3.m_data :=
  ⟨SmallReachable.step [97] SmallReachable.init (by decide) (by decide) rfl (by decide),
    by decide, by decide, by decide,
    handle_stability ⟨[97, 0], [-1, 0, -1], 1⟩ [98, 98] [[99], [97], [100]]
      (SmallReachable.step [97] SmallReachable.init (by decide) (by decide) rfl (by decide))
      (by decide) (by decide) (by decide)⟩

/-- C6, as stated, fails: after interning "a" and "b" the load is 2 and the capacity 3,
so `load * 2 ≤ capacity` does not hold (and the capacity is not 0). -/
theorem load_factor_counterexample :
    ∃ hs S, internAll empty [[97], [98]] = .ok (hs, S) ∧
      S = ⟨[97, 0, 98, 0], [-1, 0, 2], 2⟩ ∧
      ¬ (S.m_hashTableLoad * 2 ≤ S.m_hashes.length ∨
          (S.m_hashes.length = 0 ∧ S.m_hashTableLoad = 0)) :=
  ⟨[0, 2], ⟨[97, 0, 98, 0], [-1, 0, 2], 2⟩, rfl, rfl, by decide⟩

/-- C6, amended. Load factor bound: in every state reached from the empty set by
`addString` calls on NUL-free strings, that is, initially and after each call that
returns, `load * 2 ≤ capacity + 1` holds, where load is `m_hashTableLoad` and capacity
is `m_hashes.size()`. -/
theorem load_factor_bound (S : StringSet) (hR : Reachable S) :
    S.m_hashTableLoad * 2 ≤ S.m_hashes.length + 1 := by
  obtain ⟨-, h | ⟨h1, h2⟩⟩ := reachable_counters hR
  · rw [h]; decide
  · omega

theorem load_factor_bound_witness :
    Reachable ⟨[97, 0, 98, 0], [-1, 0, 2], 2⟩ ∧
    (⟨[97, 0, 98, 0], [-1, 0, 2], 2⟩ : StringSet).m_hashTableLoad * 2 ≤
      (⟨[97, 0, 98, 0], [-1, 0, 2], 2⟩ : StringSet).m_hashes.length + 1 :=
  ⟨Reachable.step [98] (Reachable.step [97] Reachable.init (by decide) rfl) (by decide) rfl,
    load_factor_bound ⟨[97, 0, 98, 0], [-1, 0, 2], 2⟩
      (Reachable.step [98] (Reachable.step [97] Reachable.init (by decide) rfl) (by decide)
        rfl)⟩

/-- C7, as stated, fails: on the reachable state that holds a string of 2^31 - 2 bytes,
"\x01" and "\x02", an `addString` call for "\x02", which was interned by the call before,
does not return, so it neither keeps nor changes the capacity: its lookup reads outside
the buffer. -/
theorem capacity_counterexample :
    ∃ hs S, internAll empty [List.replicate (2 ^ 31 - 2) 1, [1], [2]] = .ok (hs, S) ∧
      Reachable S ∧ NulFree [2] ∧ S.addString (cstr [2]) = .error .outOfBounds ∧
      ¬ ∃ h S1, S.addString (cstr [2]) = .ok (h, S1) := by
  obtain ⟨-, -, S0, A, A3, -, -, -, -, -, -, -, hrun, hR, -, -, -, -, ha, -, -⟩ :=
    wrap_run (2 ^ 31 - 2) (by decide)
  refine ⟨_, A3, hrun, hR, by decide, ha, ?_⟩
  rintro ⟨h, S1, e⟩
  rw [ha] at e
  cases e

/-- C7, amended. Capacity sequence: the empty set has capacity 0; on a state reached by
`addString` calls on NUL-free strings shorter than 2^31 bytes that keep the arena
shorter than 2^31 bytes, the capacity `c` is a member `3 * (2^k - 1)` of the sequence
0, 3, 9, 21, 45, ..., and every `addString` call on a NUL-free string shorter than 2^31
bytes either leaves the capacity unchanged or changes it to exactly `2c + 3`, the next
member; it changes the capacity exactly when the string is new and
`load * 2 ≥ capacity` holds before the insertion, and never when the string is already
present. -/
theorem capacity_sequence (S : StringSet) (s : List Byte) (hR : SmallReachable S)
    (hs : NulFree s) (hlen : s.length < 2 ^ 31) :
    empty.m_hashes.length = 0 ∧
    ∃ k h S1, S.m_hashes.length = 3 * (2 ^ k - 1) ∧ S.addString (cstr s) = .ok (h, S1) ∧
      (S1.m_hashes.length = S.m_hashes.length ∨
        (S1.m_hashes.length = 2 * S.m_hashes.length + 3 ∧
          S1.m_hashes.length = 3 * (2 ^ (k + 1) - 1))) ∧
      (S1.m_hashes.length ≠ S.m_hashes.length ↔
        (S.findString (cstr s) = .ok (-1) ∧ S.m_hashTableLoad * 2 ≥ S.m_hashes.length)) ∧
      (S.containsString (cstr s) = .ok true → S1.m_hashes.length = S.m_hashes.length) := by
  obtain ⟨recs, hI, -, hS⟩ := smallReachable_inv hR
  obtain ⟨k, hk⟩ := hI.cap
  obtain ⟨S1, hadd, hI1, hold, hnew⟩ := addString_inv S recs s hI hs hS hlen
  have hfind := findString_spec S recs s hI hs (fun _ => hlen)
  have hcont := containsString_spec S recs s hI hs (fun _ => hlen)
  refine ⟨rfl, k, _, S1, hk, hadd, ?_⟩
  by_cases hmem : s ∈ recs
  · have := hold hmem
    subst this
    refine ⟨Or.inl rfl, ?_, fun _ => rfl⟩
    constructor
    · intro h; exact absurd rfl h
    · rintro ⟨h, -⟩
      rw [hfind] at h
      exact absurd hmem (handleOf_eq_neg_one.mp (Except.ok.inj h))
  · obtain ⟨-, -, -, hcap⟩ := hnew hmem
    have hfind1 : S.findString (cstr s) = .ok (-1) := by
      rw [hfind, handleOf_of_not_mem hmem]
    have hcont1 : S.containsString (cstr s) ≠ .ok true := by
      rw [hcont]; simp [hmem]
    by_cases hg : S.m_hashTableLoad * 2 ≥ S.m_hashes.length
    · rw [if_pos hg] at hcap
      refine ⟨Or.inr ⟨by omega, ?_⟩, ?_, fun h => absurd h hcont1⟩
      · rw [hcap, hk]
        have h1 : 1 ≤ 2 ^ k := Nat.one_le_two_pow
        rw [pow_succ]
        generalize 2 ^ k = x at h1
        omega
      · constructor
        · intro _; exact ⟨hfind1, hg⟩
        · intro _; omega
    · rw [if_neg hg] at hcap
      refine ⟨Or.inl hcap, ?_, fun h => absurd h hcont1⟩
      constructor
      · intro h; exact absurd hcap h
      · rintro ⟨-, h⟩; exact absurd h hg

theorem capacity_sequence_witness :
    SmallReachable ⟨[97, 0, 98, 0], [-1, 0, 2], 2⟩ ∧ NulFree [99] ∧
    ([99] : List Byte).length < 2 ^ 31 ∧
    empty.m_hashes.length = 0 ∧
    ∃ k h S1, ([-1, 0, 2] : List Int).length = 3 * (2 ^ k - 1) ∧
      addString ⟨[97, 0, 98, 0], [-1, 0, 2], 2⟩ (cstr [99]) = .ok (h, S1) ∧
      (S1.m_hashes.length = ([-1, 0, 2] : List Int).length ∨
        (S1.m_hashes.length = 2 * ([-1, 0, 2] : List Int).length + 3 ∧
          S1.m_hashes.length = 3 * (2 ^ (k + 1) - 1))) ∧
      (S1.m_hashes.length ≠ ([-1, 0, 2] : List Int).length ↔
        (findString ⟨[97, 0, 98, 0], [-1, 0, 2], 2⟩ (cstr [99]) = .ok (-1) ∧
          (2 : Nat) * 2 ≥ ([-1, 0, 2] : List Int).length)) ∧
      (containsString ⟨[97, 0, 98, 0], [-1, 0, 2], 2⟩ (cstr [99]) = .ok true →
        S1.m_hashes.length = ([-1, 0, 2] : List Int).length) :=
  ⟨SmallReachable.step [98]
      (SmallReachable.step [97] SmallReachable.init (by decide) (by decide) rfl (by decide))
      (by decide) (by decide) rfl (by decide),
    by decide, by decide,
    capacity_sequence ⟨[97, 0, 98, 0], [-1, 0, 2], 2⟩ [99]
      (SmallReachable.step [98]
        (SmallReachable.step [97] SmallReachable.init (by decide) (by decide) rfl (by decide))
        (by decide) (by decide) rfl (by decide))
      (by decide) (by decide)⟩

/-! ## Strings of 2^32 - 1 bytes -/

/-- A string of 2^32 - 1 bytes has the `int` length -1: `addString` on the constructed
state hashes no byte, writes offset 0 into a slot, appends the empty range
`[s, s + (-1) + 1)` and returns 0.  The state afterwards has one occupied slot and an
empty arena; a lookup of the string reads outside the arena, and after a round trip
through `saveToFile` and `loadFromFile` the string is not contained. -/
theorem long_string_state (m : Nat) (hm : m + 1 = 2 ^ 32) :
    NulFree (List.replicate m (1 : Byte)) ∧
    internAll empty [List.replicate m 1] = .ok ([0], ⟨[], [-1, -1, 0], 1⟩) ∧
    containsString ⟨[], [-1, -1, 0], 1⟩ (cstr (List.replicate m 1)) = .error .outOfBounds ∧
    loadFromFile empty (saveToFile ⟨[], [-1, -1, 0], 1⟩) = .ok (true, ⟨[], [-1, -1, -1], 0⟩) ∧
    containsString ⟨[], [-1, -1, -1], 0⟩ (cstr (List.replicate m 1)) = .ok false := by
  have hnul : NulFree (List.replicate m (1 : Byte)) := by
    intro b hb
    rw [(List.mem_replicate.mp hb).2]
    decide
  have hstr : strlen (cstr (List.replicate m (1 : Byte))) = some m := by
    rw [strlen_cstr _ hnul, List.length_replicate]
  have hsz : sizeToInt m = -1 := by
    rw [sizeToInt_neg m (by omega) (by omega)]
    omega
  have h0 : (-1 : Int).toNat = 0 := rfl
  have hh : ∀ a : List Byte, stringHash a 0 = 5381 := fun a => rfl
  refine ⟨hnul, ?_, ?_, rfl, ?_⟩
  · have hf : ∀ (a : List Byte) (k : Nat) (h : Int), empty.findStringL a k h = .ok (-1) :=
      fun _ _ _ => rfl
    have ha : empty.addHash 5381 (sizeToInt empty.m_data.length) =
        .ok ⟨[], [-1, -1, 0], 1⟩ := rfl
    have hadd : empty.addString (cstr (List.replicate m 1)) = .ok (0, ⟨[], [-1, -1, 0], 1⟩) := by
      unfold addString
      rw [hstr]
      simp only [hsz, addStringL, h0, hh, hf, ha]
      rfl
    simp only [internAll, hadd]
  · have hfind : ∀ a : List Byte, findStringL ⟨[], [-1, -1, 0], 1⟩ (cstr a) 0 5381 =
        .error .outOfBounds := by
      intro a
      have e : findStringL ⟨[], [-1, -1, 0], 1⟩ (cstr a) 0 5381 =
          findLoop ⟨[], [-1, -1, 0], 1⟩ (cstr a) 3 2 := rfl
      have hget : getString ⟨[], [-1, -1, 0], 1⟩ 0 = [] := rfl
      rw [e, findLoop]
      simp [hget, strcmpEq_cstr_nil]
    unfold containsString
    rw [hstr]
    simp only [hsz, h0, hh, hfind]
  · have hfind : ∀ a : List Byte, findStringL ⟨[], [-1, -1, -1], 0⟩ a 0 5381 = .ok (-1) :=
      fun _ => rfl
    unfold containsString
    rw [hstr]
    simp only [hsz, h0, hh, hfind]
    rfl

/-- A byte list that ends in a 0 byte is the arena of some NUL-free records. -/
theorem exists_records (l : List Byte) :
    ∃ recs : List (List Byte), (∀ r ∈ recs, NulFree r) ∧ l ++ [0] = arenaOf recs := by
  induction l with
  | nil => exact ⟨[[]], by simp [NulFree], rfl⟩
  | cons b l ih =>
    obtain ⟨recs, hnul, hrec⟩ := ih
    by_cases hb : b = 0
    · subst hb
      refine ⟨[] :: recs, ?_, ?_⟩
      · intro r hr
        rcases List.mem_cons.mp hr with h | h
        · rw [h]; simp [NulFree]
        · exact hnul r h
      · rw [List.cons_append, hrec]; rfl
    · cases recs with
      | nil => simp [arenaOf] at hrec
      | cons r rs =>
        refine ⟨(b :: r) :: rs, ?_, ?_⟩
        · intro x hx
          rcases List.mem_cons.mp hx with h | h
          · rw [h]
            exact nulFree_cons.mpr ⟨hb, hnul r (List.mem_cons_self r rs)⟩
          · exact hnul x (List.mem_cons_of_mem r h)
        · rw [List.cons_append, hrec]; rfl

theorem toInt32_lt (x : Nat) : toInt32 x < 2147483648 := by
  unfold toInt32
  split <;> omega

theorem bytesToInt_lt (bs : List Byte) : bytesToInt bs < 2147483648 := by
  unfold bytesToInt
  split
  · exact toInt32_lt _
  · decide

/-- On an arena that is empty or ends in a 0 byte, and is shorter than 2^31 bytes,
`rehashAll` reads nothing behind the arena. -/
theorem rehashAllBehind_terminated (slack1 slack2 : List Byte) (S : StringSet)
    (hterm : S.m_data = [] ∨ ∃ a, S.m_data = a ++ [0]) (hS : S.m_data.length < 2 ^ 31) :
    rehashAllBehind slack1 S = rehashAllBehind slack2 S := by
  have hrecs : ∃ recs : List (List Byte), (∀ r ∈ recs, NulFree r) ∧ S.m_data = arenaOf recs := by
    rcases hterm with h | ⟨a, h⟩
    · exact ⟨[], by simp, h⟩
    · obtain ⟨recs, hnul, hrec⟩ := exists_records a
      exact ⟨recs, hnul, h.trans hrec⟩
  obtain ⟨recs, hnul, hdata⟩ := hrecs
  have hfit : OffsetsFit 0 recs := offsetsFit_of_lt recs 0 (by rw [← hdata]; omega)
  rw [rehashAllBehind_eq slack1 S recs hdata hnul hfit,
    rehashAllBehind_eq slack2 S recs hdata hnul hfit]

/-! ## Properties of saving and loading -/

/-- C2, as stated, fails: interning a string of 2^31 - 2 bytes and then a string of one
byte gives a reachable state whose arena holds 2^31 + 1 bytes; `saveToFile` writes that
length as a 32-bit `int`, `loadFromFile` reads it back as a negative number and does
not return true.  It also fails on a small arena: `addString` of a string of 2^32 - 1
bytes, whose `int` length is -1, returns 0 and leaves an empty arena with one occupied
slot; a lookup of that string in this state reads outside the arena, and in the state
loaded from what `saveToFile` wrote the string is not contained. -/
theorem round_trip_counterexample :
    ((∀ s ∈ [List.replicate (2 ^ 31 - 2) (1 : Byte), [1]], NulFree s) ∧
      ∃ hs A, internAll empty [List.replicate (2 ^ 31 - 2) 1, [1]] = .ok (hs, A) ∧
        A.m_data.length = 2 ^ 31 + 1 ∧
        loadFromFile empty (saveToFile A) = .error .lengthError) ∧
    (NulFree (List.replicate (2 ^ 32 - 1) (1 : Byte)) ∧
      ∃ hs A B, internAll empty [List.replicate (2 ^ 32 - 1) 1] = .ok (hs, A) ∧
        A.m_data.length < 2 ^ 31 ∧ A.m_hashes.length < 2 ^ 31 ∧
        loadFromFile empty (saveToFile A) = .ok (true, B) ∧
        A.containsString (cstr (List.replicate (2 ^ 32 - 1) 1)) = .error .outOfBounds ∧
        B.containsString (cstr (List.replicate (2 ^ 32 - 1) 1)) = .ok false) := by
  obtain ⟨h1, h2, h3, h4, h5⟩ := long_string_state (2 ^ 32 - 1) (by decide)
  exact ⟨save_overflow (2 ^ 31 - 2) (by decide),
    h1, _, _, _, h2, by decide, by decide, h4, h3, h5⟩

/-- C2, amended. Round trip: for every state `A` reached from the empty set by
`addString` calls on NUL-free strings shorter than 2^31 bytes whose arena length and
capacity are below 2^31, loading the bytes written by `A.saveToFile` into a fresh set
`B` returns true, and then `containsString`, `findString` and the string read by
`getString` at the handle agree between `B` and `A` for every interned string, and
`B.findString` is -1 for every NUL-free string that was never interned. -/
theorem save_load_round_trip (ss : List (List Byte)) (hs : List Int) (A : StringSet)
    (hss : ∀ s ∈ ss, NulFree s) (hlen : ∀ s ∈ ss, s.length < 2 ^ 31)
    (hA : internAll empty ss = .ok (hs, A))
    (hsize : A.m_data.length < 2 ^ 31) (hcap : A.m_hashes.length < 2 ^ 31) :
    ∃ B, loadFromFile empty (saveToFile A) = .ok (true, B) ∧
      (∀ s ∈ ss, B.containsString (cstr s) = A.containsString (cstr s) ∧
        A.containsString (cstr s) = .ok true ∧
        B.findString (cstr s) = A.findString (cstr s) ∧
        ∃ h, A.findString (cstr s) = .ok h ∧ h ≠ -1 ∧ B.getString h = A.getString h ∧
          strlen (B.getString h) = some s.length ∧ (B.getString h).take s.length = s) ∧
      (∀ t, NulFree t → t ∉ ss → B.findString (cstr t) = .ok (-1)) := by
  have hI := internAll_inv ss empty A [] hs inv_empty hss hlen hA hsize
  have hmem : ∀ s, s ∈ internRecs [] ss ↔ s ∈ ss := by
    intro s; rw [mem_internRecs]; simp
  refine ⟨A, load_save empty A _ hI hsize hcap, ?_, ?_⟩
  · intro s hs1
    have hm := (hmem s).mpr hs1
    obtain ⟨rest, hget⟩ := getString_handleOf A _ s hI hm
    refine ⟨rfl, ?_, rfl, _, findString_spec A _ s hI (hss s hs1) (fun _ => hlen s hs1), ?_,
      rfl, ?_, ?_⟩
    · rw [containsString_spec A _ s hI (hss s hs1) (fun _ => hlen s hs1)]; simp [hm]
    · intro e; exact handleOf_eq_neg_one.mp e hm
    · rw [hget]; exact strlen_payload s rest (hss s hs1)
    · rw [hget]; exact List.take_left s _
  · intro t ht hnot
    have hnot1 : t ∉ internRecs [] ss := fun e => hnot ((hmem t).mp e)
    rw [findString_spec A _ t hI ht (fun h => absurd h hnot1)]
    exact congrArg _ (handleOf_of_not_mem hnot1)

theorem save_load_round_trip_witness :
    (∀ s ∈ [[97], [98, 98], [99, 99, 99]], NulFree s) ∧
    (∀ s ∈ [[97], [98, 98], ([99, 99, 99] : List Byte)], s.length < 2 ^ 31) ∧
    internAll empty [[97], [98, 98], [99, 99, 99]] =
      .ok ([0, 2, 5], ⟨[97, 0, 98, 98, 0, 99, 99, 99, 0], [5, 0, 2, -1, -1, -1, -1, -1, -1], 3⟩) ∧
    ([97, 0, 98, 98, 0, 99, 99, 99, 0] : List Byte).length < 2 ^ 31 ∧
    ([5, 0, 2, -1, -1, -1, -1, -1, -1] : List Int).length < 2 ^ 31 ∧
    ∃ B, loadFromFile empty (saveToFile
        ⟨[97, 0, 98, 98, 0, 99, 99, 99, 0], [5, 0, 2, -1, -1, -1, -1, -1, -1], 3⟩) =
          .ok (true, B) ∧
      (∀ s ∈ [[97], [98, 98], [99, 99, 99]],
        B.containsString (cstr s) = containsString
          ⟨[97, 0, 98, 98, 0, 99, 99, 99, 0], [5, 0, 2, -1, -1, -1, -1, -1, -1], 3⟩ (cstr s) ∧
        containsString
          ⟨[97, 0, 98, 98, 0, 99, 99, 99, 0], [5, 0, 2, -1, -1, -1, -1, -1, -1], 3⟩ (cstr s)
            = .ok true ∧
        B.findString (cstr s) = findString
          ⟨[97, 0, 98, 98, 0, 99, 99, 99, 0], [5, 0, 2, -1, -1, -1, -1, -1, -1], 3⟩ (cstr s) ∧
        ∃ h, findString
            ⟨[97, 0, 98, 98, 0, 99, 99, 99, 0], [5, 0, 2, -1, -1, -1, -1, -1, -1], 3⟩ (cstr s)
              = .ok h ∧ h ≠ -1 ∧
          B.getString h = getString
            ⟨[97, 0, 98, 98, 0, 99, 99, 99, 0], [5, 0, 2, -1, -1, -1, -1, -1, -1], 3⟩ h ∧
          strlen (B.getString h) = some s.length ∧ (B.getString h).take s.length = s) ∧
      (∀ t, NulFree t → t ∉ [[97], [98, 98], [99, 99, 99]] →
        B.findString (cstr t) = .ok (-1)) :=
  ⟨by decide, by decide, rfl, by decide, by decide,
    save_load_round_trip [[97], [98, 98], [99, 99, 99]] [0, 2, 5]
      ⟨[97, 0, 98, 98, 0, 99, 99, 99, 0], [5, 0, 2, -1, -1, -1, -1, -1, -1], 3⟩
      (by decide) (by decide) rfl (by decide) (by decide)⟩

/-- C8. Truncated input is rejected: `loadFromFile` returns false when the stream holds
fewer than 4 bytes, when fewer than `n` bytes follow the first integer `n`, and when
fewer than 4 bytes follow the `n` arena bytes. -/
theorem load_rejects_truncated (S : StringSet) (f hdr arena rest : List Byte) :
    (f.length < 4 → ∃ S1, loadFromFile S f = .ok (false, S1)) ∧
    (hdr.length = 4 → (rest.length : Int) < bytesToInt hdr →
      ∃ S1, loadFromFile S (hdr ++ rest) = .ok (false, S1)) ∧
    (hdr.length = 4 → bytesToInt hdr = (arena.length : Int) → rest.length < 4 →
      ∃ S1, loadFromFile S (hdr ++ arena ++ rest) = .ok (false, S1)) := by
  refine ⟨?_, ?_, ?_⟩
  · intro h
    exact ⟨S, by rw [loadFromFile_eq, if_pos h]⟩
  · intro h4 hshort
    have hlen : ¬ (hdr ++ rest).length < 4 := by simp [h4]
    have hpos : ¬ bytesToInt hdr < 0 := by omega
    have hlt : rest.length < (bytesToInt hdr).toNat := by omega
    rw [loadFromFile_eq, if_neg hlen, List.take_left' h4, List.drop_left' h4, if_neg hpos,
      if_pos hlt]
    exact ⟨_, rfl⟩
  · intro h4 hn hshort
    have hlen : ¬ (hdr ++ arena ++ rest).length < 4 := by simp [h4]
    have hpos : ¬ bytesToInt hdr < 0 := by omega
    have hnat : (bytesToInt hdr).toNat = arena.length := by omega
    have hfull : ¬ (arena ++ rest).length < arena.length := by simp
    rw [loadFromFile_eq, if_neg hlen, List.append_assoc, List.take_left' h4,
      List.drop_left' h4, if_neg hpos, hnat, if_neg hfull, List.drop_left, if_pos hshort]
    exact ⟨_, rfl⟩

theorem load_rejects_truncated_witness :
    (([7, 0] : List Byte).length < 4 ∧
      ∃ S1, loadFromFile ⟨[97, 0], [-1, 0, -1], 1⟩ [7, 0] = .ok (false, S1)) ∧
    (([5, 0, 0, 0] : List Byte).length = 4 ∧
      ((([1, 2] : List Byte).length : Nat) : Int) < bytesToInt [5, 0, 0, 0] ∧
      ∃ S1, loadFromFile ⟨[97, 0], [-1, 0, -1], 1⟩ ([5, 0, 0, 0] ++ [1, 2]) = .ok (false, S1)) ∧
    (([5, 0, 0, 0] : List Byte).length = 4 ∧
      bytesToInt [5, 0, 0, 0] = ((([98, 0, 99, 99, 0] : List Byte).length : Nat) : Int) ∧
      ([1, 2] : List Byte).length < 4 ∧
      ∃ S1, loadFromFile ⟨[97, 0], [-1, 0, -1], 1⟩ ([5, 0, 0, 0] ++ [98, 0, 99, 99, 0] ++ [1, 2]) =
        .ok (false, S1)) :=
  ⟨⟨by decide,
      (load_rejects_truncated ⟨[97, 0], [-1, 0, -1], 1⟩ [7, 0] [5, 0, 0, 0] [98, 0, 99, 99, 0]
        [1, 2]).1 (by decide)⟩,
    ⟨by decide, by decide,
      (load_rejects_truncated ⟨[97, 0], [-1, 0, -1], 1⟩ [7, 0] [5, 0, 0, 0] [98, 0, 99, 99, 0]
        [1, 2]).2.1 (by decide) (by decide)⟩,
    ⟨by decide, by decide, by decide,
      (load_rejects_truncated ⟨[97, 0], [-1, 0, -1], 1⟩ [7, 0] [5, 0, 0, 0] [98, 0, 99, 99, 0]
        [1, 2]).2.2 (by decide) (by decide) (by decide)⟩⟩

/-- C9, as stated, fails: on the reachable state holding "a", a stream that declares 5
arena bytes and supplies 2 makes `loadFromFile` return false and leaves an arena that
was resized to 5 bytes and partly overwritten, next to the slot array and load counter
of the old arena; this state is neither the prior state nor the empty state. -/
theorem failed_load_counterexample :
    Reachable ⟨[97, 0], [-1, 0, -1], 1⟩ ∧
    ∃ S1, loadFromFile ⟨[97, 0], [-1, 0, -1], 1⟩ [5, 0, 0, 0, 1, 2] = .ok (false, S1) ∧
      S1 = ⟨[1, 2, 0, 0, 0], [-1, 0, -1], 1⟩ ∧
      S1 ≠ ⟨[97, 0], [-1, 0, -1], 1⟩ ∧ S1 ≠ empty :=
  ⟨Reachable.step [97] Reachable.init (by decide) rfl,
    ⟨[1, 2, 0, 0, 0], [-1, 0, -1], 1⟩, rfl, rfl, by decide, by decide⟩

/-- C9, amended. Effect of a failed load: for every prior state and every byte stream on
which `loadFromFile` returns false, the slot array and the load counter afterwards are
those of the prior state; the whole state is unchanged when the stream holds fewer than
4 bytes, and otherwise the arena has been resized to the declared length `n` (cut, or
padded with 0 bytes) and its first bytes overwritten by the arena bytes, at most `n`,
that could be read. -/
theorem failed_load_effect (S S1 : StringSet) (f : List Byte)
    (h : loadFromFile S f = .ok (false, S1)) :
    S1.m_hashes = S.m_hashes ∧ S1.m_hashTableLoad = S.m_hashTableLoad ∧
    (f.length < 4 → S1 = S) ∧
    (4 ≤ f.length → ∃ n : Nat, bytesToInt (f.take 4) = (n : Int) ∧ S1.m_data.length = n ∧
      S1.m_data = (f.drop 4).take n ++ (resize S.m_data n).drop ((f.drop 4).take n).length) := by
  rw [loadFromFile_eq] at h
  split at h
  · next h1 =>
    simp only [Except.ok.injEq, Prod.mk.injEq, true_and] at h
    subst h
    exact ⟨rfl, rfl, fun _ => rfl, fun h4 => by omega⟩
  · next h1 =>
    split at h
    · simp at h
    · next h2 =>
      have hn : bytesToInt (f.take 4) = ((bytesToInt (f.take 4)).toNat : Int) := by omega
      generalize (bytesToInt (f.take 4)).toNat = n at h hn
      split at h
      · next h3 =>
        simp only [Except.ok.injEq, Prod.mk.injEq, true_and] at h
        subst h
        have htake : (f.drop 4).take n = f.drop 4 := List.take_of_length_le (by omega)
        refine ⟨rfl, rfl, fun h4 => absurd h4 h1, fun _ => ⟨n, hn, ?_, by rw [htake]⟩⟩
        simp only [List.length_append, List.length_drop, resize_length] at h3 ⊢
        omega
      · next h3 =>
        have hlen : ((f.drop 4).take n).length = n := by
          rw [List.length_take]; omega
        have hdrop : (resize S.m_data n).drop ((f.drop 4).take n).length = [] := by
          apply List.drop_eq_nil_of_le
          rw [resize_length, hlen]
        split at h
        · simp only [Except.ok.injEq, Prod.mk.injEq, true_and] at h
          subst h
          exact ⟨rfl, rfl, fun h4 => absurd h4 h1,
            fun _ => ⟨n, hn, hlen, by rw [hdrop, List.append_nil]⟩⟩
        · split at h
          · simp at h
          · split at h <;> simp at h

theorem failed_load_effect_witness :
    loadFromFile ⟨[97, 0], [-1, 0, -1], 1⟩ [5, 0, 0, 0, 1, 2] =
      .ok (false, ⟨[1, 2, 0, 0, 0], [-1, 0, -1], 1⟩) ∧
    ((⟨[1, 2, 0, 0, 0], [-1, 0, -1], 1⟩ : StringSet).m_hashes = [-1, 0, -1] ∧
     (⟨[1, 2, 0, 0, 0], [-1, 0, -1], 1⟩ : StringSet).m_hashTableLoad = 1 ∧
     (([5, 0, 0, 0, 1, 2] : List Byte).length < 4 →
       (⟨[1, 2, 0, 0, 0], [-1, 0, -1], 1⟩ : StringSet) = ⟨[97, 0], [-1, 0, -1], 1⟩) ∧
     (4 ≤ ([5, 0, 0, 0, 1, 2] : List Byte).length →
       ∃ n : Nat, bytesToInt (([5, 0, 0, 0, 1, 2] : List Byte).take 4) = (n : Int) ∧
         (⟨[1, 2, 0, 0, 0], [-1, 0, -1], 1⟩ : StringSet).m_data.length = n ∧
         (⟨[1, 2, 0, 0, 0], [-1, 0, -1], 1⟩ : StringSet).m_data =
           (([5, 0, 0, 0, 1, 2] : List Byte).drop 4).take n ++
             (resize [97, 0] n).drop ((([5, 0, 0, 0, 1, 2] : List Byte).drop 4).take n).length)) :=
  ⟨rfl, failed_load_effect ⟨[97, 0], [-1, 0, -1], 1⟩ ⟨[1, 2, 0, 0, 0], [-1, 0, -1], 1⟩
    [5, 0, 0, 0, 1, 2] rfl⟩

/-- C10, on the code: the stream 01 00 00 00 | 61 | 03 00 00 00 declares an arena of the
one byte "a" without a terminator.  Loaded into the reachable state holding "ab",
`resize(1)` leaves the bytes "b", 0 of the old arena behind the new end, the `strlen` of
`rehashAll` runs over the end of the arena and reads "ab", and the record lands in the
slot of "ab", slot 2; loaded into the reachable state holding "ac" it lands in the slot
of "ac", slot 0.  Both calls return true, with different slot arrays. -/
theorem load_reads_stale_bytes :
    Reachable ⟨[97, 98, 0], [-1, -1, 0], 1⟩ ∧ Reachable ⟨[97, 99, 0], [0, -1, -1], 1⟩ ∧
    loadFromFile ⟨[97, 98, 0], [-1, -1, 0], 1⟩ [1, 0, 0, 0, 97, 3, 0, 0, 0] =
      .ok (true, ⟨[97], [-1, -1, 0], 1⟩) ∧
    loadFromFile ⟨[97, 99, 0], [0, -1, -1], 1⟩ [1, 0, 0, 0, 97, 3, 0, 0, 0] =
      .ok (true, ⟨[97], [0, -1, -1], 1⟩) ∧
    (⟨[97], [-1, -1, 0], 1⟩ : StringSet) ≠ ⟨[97], [0, -1, -1], 1⟩ :=
  ⟨Reachable.step [97, 98] Reachable.init (by decide) rfl,
    Reachable.step [97, 99] Reachable.init (by decide) rfl, rfl, rfl, by decide⟩

/-- A successful load discards the prior contents when the declared arena is well
formed: when `loadFromFile` returns true from a prior state `P` on a byte stream whose
declared arena bytes are empty or end in a 0 byte, it returns true with the same
resulting state from every other prior state `Q`; the resulting arena is exactly the `n`
declared arena bytes of the stream and the resulting capacity is the stored capacity
value `c`. -/
theorem load_discards_prior (P Q P1 : StringSet) (f : List Byte)
    (hterm : (f.drop 4).take (bytesToInt (f.take 4)).toNat = [] ∨
      ∃ a, (f.drop 4).take (bytesToInt (f.take 4)).toNat = a ++ [0])
    (h : loadFromFile P f = .ok (true, P1)) :
    loadFromFile Q f = .ok (true, P1) ∧
    ∃ n c : Nat, bytesToInt (f.take 4) = (n : Int) ∧ P1.m_data = (f.drop 4).take n ∧
      P1.m_data.length = n ∧ bytesToInt ((f.drop (4 + n)).take 4) = (c : Int) ∧
      P1.m_hashes.length = c := by
  rw [loadFromFile_eq] at h ⊢
  split at h
  · simp at h
  · next h1 =>
    rw [if_neg h1]
    split at h
    · simp at h
    · next h2 =>
      rw [if_neg h2]
      have hn : bytesToInt (f.take 4) = ((bytesToInt (f.take 4)).toNat : Int) := by omega
      have hn31 : (bytesToInt (f.take 4)).toNat < 2 ^ 31 := by
        have := bytesToInt_lt (f.take 4)
        omega
      generalize (bytesToInt (f.take 4)).toNat = n at h hn hn31 hterm ⊢
      split at h
      · simp at h
      · next h3 =>
        rw [if_neg h3]
        split at h
        · simp at h
        · next h4 =>
          rw [if_neg h4]
          split at h
          · simp at h
          · next h5 =>
            rw [if_neg h5]
            have hc : bytesToInt (((f.drop 4).drop n).take 4) =
                ((bytesToInt (((f.drop 4).drop n).take 4)).toNat : Int) := by omega
            generalize (bytesToInt (((f.drop 4).drop n).take 4)).toNat = c at h hc ⊢
            have hlen : ((f.drop 4).take n).length < 2 ^ 31 := by
              rw [List.length_take]; omega
            rw [rehashAllBehind_terminated (Q.m_data.drop n) (P.m_data.drop n)
              ⟨(f.drop 4).take n, List.replicate c (-1), 0⟩ hterm hlen]
            refine ⟨h, n, c, hn, ?_⟩
            split at h
            · simp at h
            · next S2 hS2 =>
              simp only [Except.ok.injEq, Prod.mk.injEq, true_and] at h
              subst h
              obtain ⟨hd, hl⟩ := rehashAllBehind_frame _ _ _ hS2
              simp only [List.length_replicate] at hd hl
              refine ⟨hd, ?_, ?_, hl⟩
              · rw [hd, List.length_take]; omega
              · rw [List.drop_drop] at hc
                exact hc

theorem load_discards_prior_witness :
    ((([4, 0, 0, 0, 97, 0, 98, 0, 3, 0, 0, 0] : List Byte).drop 4).take
        (bytesToInt (([4, 0, 0, 0, 97, 0, 98, 0, 3, 0, 0, 0] : List Byte).take 4)).toNat = [] ∨
      ∃ a, (([4, 0, 0, 0, 97, 0, 98, 0, 3, 0, 0, 0] : List Byte).drop 4).take
        (bytesToInt (([4, 0, 0, 0, 97, 0, 98, 0, 3, 0, 0, 0] : List Byte).take 4)).toNat =
          a ++ [0]) ∧
    loadFromFile ⟨[97, 0], [-1, 0, -1], 1⟩ [4, 0, 0, 0, 97, 0, 98, 0, 3, 0, 0, 0] =
      .ok (true, ⟨[97, 0, 98, 0], [-1, 0, 2], 2⟩) ∧
    loadFromFile empty [4, 0, 0, 0, 97, 0, 98, 0, 3, 0, 0, 0] =
      .ok (true, ⟨[97, 0, 98, 0], [-1, 0, 2], 2⟩) ∧
    ∃ n c : Nat, bytesToInt (([4, 0, 0, 0, 97, 0, 98, 0, 3, 0, 0, 0] : List Byte).take 4) = (n : Int) ∧
      (⟨[97, 0, 98, 0], [-1, 0, 2], 2⟩ : StringSet).m_data =
        (([4, 0, 0, 0, 97, 0, 98, 0, 3, 0, 0, 0] : List Byte).drop 4).take n ∧
      (⟨[97, 0, 98, 0], [-1, 0, 2], 2⟩ : StringSet).m_data.length = n ∧
      bytesToInt ((([4, 0, 0, 0, 97, 0, 98, 0, 3, 0, 0, 0] : List Byte).drop (4 + n)).take 4) =
        (c : Int) ∧
      (⟨[97, 0, 98, 0], [-1, 0, 2], 2⟩ : StringSet).m_hashes.length = c :=
  ⟨Or.inr ⟨[97, 0, 98], rfl⟩, rfl,
    load_discards_prior ⟨[97, 0], [-1, 0, -1], 1⟩ empty ⟨[97, 0, 98, 0], [-1, 0, 2], 2⟩
      [4, 0, 0, 0, 97, 0, 98, 0, 3, 0, 0, 0] (Or.inr ⟨[97, 0, 98], rfl⟩) rfl⟩

/-! ## Further facts about reachable states -/

theorem strlen_cstr_isSome (s : List Byte) : ∃ k, strlen (cstr s) = some k := by
  induction s with
  | nil => exact ⟨0, by simp [cstr, strlen]⟩
  | cons b s ih =>
    obtain ⟨k, hk⟩ := ih
    simp only [cstr] at hk
    by_cases hb : b = 0
    · exact ⟨0, by simp [cstr, strlen, hb]⟩
    · exact ⟨k + 1, by simp [cstr, strlen, hb, hk]⟩

theorem toInt32_emod (n : Nat) : (toInt32 n % 4294967296).toNat = n % 4294967296 := by
  unfold toInt32
  split <;> omega

theorem intToBytes_sizeToInt_val (n : Nat) :
    (intToBytes (sizeToInt n)).map Fin.val =
      [n % 256, n / 2 ^ 8 % 256, n / 2 ^ 16 % 256, n / 2 ^ 24 % 256] := by
  unfold intToBytes sizeToInt
  simp only [toInt32_emod, List.map_cons, List.map_nil, List.cons.injEq, and_true]
  refine ⟨?_, ?_, ?_, ?_⟩ <;> omega

theorem cap_odd (c : Nat) (h : ∃ k, c = 3 * (2 ^ k - 1)) : c = 0 ∨ c % 2 = 1 := by
  obtain ⟨k, rfl⟩ := h
  cases k with
  | zero => left; rfl
  | succ j =>
    right
    have h1 : 1 ≤ 2 ^ j := Nat.one_le_two_pow
    rw [pow_succ]
    generalize 2 ^ j = x at h1
    omega

/-! ## Properties of the format, the empty state and the slot array -/

/-- C11. Save format: for every state with arena `A` and capacity `c`, `saveToFile`
writes `|A| + 8` bytes: the four bytes of the 32-bit `int` holding `|A|` (low byte
first, the platform's native order), the `|A|` arena bytes verbatim, and the four bytes
of the `int` holding `c`; two states with the same arena and the same capacity give the
same output, whatever their slots and load counters hold. -/
theorem save_format (A : List Byte) (T T1 : List Int) (l l1 : Nat)
    (hcap : T1.length = T.length) :
    (saveToFile ⟨A, T, l⟩).length = A.length + 8 ∧
    ((saveToFile ⟨A, T, l⟩).take 4).map Fin.val =
      [A.length % 256, A.length / 2 ^ 8 % 256, A.length / 2 ^ 16 % 256,
        A.length / 2 ^ 24 % 256] ∧
    ((saveToFile ⟨A, T, l⟩).drop 4).take A.length = A ∧
    ((saveToFile ⟨A, T, l⟩).drop (4 + A.length)).map Fin.val =
      [T.length % 256, T.length / 2 ^ 8 % 256, T.length / 2 ^ 16 % 256,
        T.length / 2 ^ 24 % 256] ∧
    saveToFile ⟨A, T1, l1⟩ = saveToFile ⟨A, T, l⟩ := by
  have h4 := intToBytes_length (sizeToInt A.length)
  refine ⟨?_, ?_, ?_, ?_, ?_⟩
  · simp only [saveToFile, List.length_append, intToBytes_length]
    omega
  · simp only [saveToFile, List.append_assoc]
    rw [List.take_left' h4]
    exact intToBytes_sizeToInt_val _
  · simp only [saveToFile, List.append_assoc]
    rw [List.drop_left' h4, List.take_left]
  · simp only [saveToFile, List.append_assoc]
    rw [← List.drop_drop, List.drop_left' h4, List.drop_left]
    exact intToBytes_sizeToInt_val _
  · simp only [saveToFile, hcap]

theorem save_format_witness :
    ([-1, -1, -1] : List Int).length = ([-1, 0, 2] : List Int).length ∧
    (saveToFile ⟨[97, 0, 98, 0], [-1, 0, 2], 2⟩).length = ([97, 0, 98, 0] : List Byte).length + 8 ∧
    ((saveToFile ⟨[97, 0, 98, 0], [-1, 0, 2], 2⟩).take 4).map Fin.val =
      [([97, 0, 98, 0] : List Byte).length % 256,
        ([97, 0, 98, 0] : List Byte).length / 2 ^ 8 % 256,
        ([97, 0, 98, 0] : List Byte).length / 2 ^ 16 % 256,
        ([97, 0, 98, 0] : List Byte).length / 2 ^ 24 % 256] ∧
    ((saveToFile ⟨[97, 0, 98, 0], [-1, 0, 2], 2⟩).drop 4).take
      ([97, 0, 98, 0] : List Byte).length = [97, 0, 98, 0] ∧
    ((saveToFile ⟨[97, 0, 98, 0], [-1, 0, 2], 2⟩).drop
        (4 + ([97, 0, 98, 0] : List Byte).length)).map Fin.val =
      [([-1, 0, 2] : List Int).length % 256, ([-1, 0, 2] : List Int).length / 2 ^ 8 % 256,
        ([-1, 0, 2] : List Int).length / 2 ^ 16 % 256,
        ([-1, 0, 2] : List Int).length / 2 ^ 24 % 256] ∧
    saveToFile ⟨[97, 0, 98, 0], [-1, -1, -1], 7⟩ = saveToFile ⟨[97, 0, 98, 0], [-1, 0, 2], 2⟩ :=
  ⟨by decide, save_format [97, 0, 98, 0] [-1, 0, 2] [-1, -1, -1] 2 7 (by decide)⟩

/-- C12. Capacity 0 is a valid always-miss state: on the set as constructed,
`findString(s)` returns -1 and `containsString(s)` returns false for every string `s`,
through the guard of `findStringL` and hence without a `hash % 0`; and a state reached
from the empty set by `addString` calls has capacity 0 if and only if it still is the
constructed state, that is, if and only if its arena is empty and its load is 0, that
is, if and only if no `addString` call was made. -/
theorem capacity_zero_always_miss (S A : StringSet) (s : List Byte) (ss : List (List Byte))
    (hs : List Int) (hR : Reachable S) (hss : ∀ t ∈ ss, NulFree t)
    (hA : internAll empty ss = .ok (hs, A)) :
    empty.m_hashes.length = 0 ∧
    empty.findString (cstr s) = .ok (-1) ∧ empty.containsString (cstr s) = .ok false ∧
    (∀ (len : Nat) (hash : Int), empty.findStringL (cstr s) len hash = .ok (-1)) ∧
    (S.m_hashes.length = 0 ↔ S = empty) ∧
    (S.m_hashes.length = 0 ↔ (S.m_data = [] ∧ S.m_hashTableLoad = 0)) ∧
    (A.m_hashes.length = 0 ↔ ss = []) := by
  obtain ⟨k, hk⟩ := strlen_cstr_isSome s
  obtain ⟨-, hcnt⟩ := reachable_counters hR
  have hcap0 : S.m_hashes.length = 0 → S = empty := by
    intro h0
    rcases hcnt with h1 | ⟨h1, h2⟩
    · exact h1
    · omega
  refine ⟨rfl, ?_, ?_, fun _ _ => rfl, ⟨hcap0, fun e => by rw [e]; rfl⟩, ⟨?_, ?_⟩, ?_⟩
  · simp only [findString, hk]; rfl
  · simp only [containsString, hk]; rfl
  · intro h0
    rw [hcap0 h0]
    exact ⟨rfl, rfl⟩
  · rintro ⟨-, hl⟩
    rcases hcnt with h1 | ⟨h1, h2⟩
    · rw [h1]; rfl
    · omega
  · constructor
    · intro h0
      cases ss with
      | nil => rfl
      | cons t ts =>
        have := internAll_cap_pos t ts hs A hA
        omega
    · intro hnil
      subst hnil
      simp only [internAll, Except.ok.injEq, Prod.mk.injEq] at hA
      rw [← hA.2]; rfl

theorem capacity_zero_always_miss_witness :
    Reachable ⟨[97, 0], [-1, 0, -1], 1⟩ ∧ (∀ t ∈ [[97], [98]], NulFree t) ∧
    internAll empty [[97], [98]] = .ok ([0, 2], ⟨[97, 0, 98, 0], [-1, 0, 2], 2⟩) ∧
    empty.m_hashes.length = 0 ∧
    empty.findString (cstr [97, 0, 98]) = .ok (-1) ∧
    empty.containsString (cstr [97, 0, 98]) = .ok false ∧
    (∀ (len : Nat) (hash : Int), empty.findStringL (cstr [97, 0, 98]) len hash = .ok (-1)) ∧
    (([-1, 0, -1] : List Int).length = 0 ↔ (⟨[97, 0], [-1, 0, -1], 1⟩ : StringSet) = empty) ∧
    (([-1, 0, -1] : List Int).length = 0 ↔
      (([97, 0] : List Byte) = [] ∧ (1 : Nat) = 0)) ∧
    (([-1, 0, 2] : List Int).length = 0 ↔ [[97], ([98] : List Byte)] = []) :=
  ⟨Reachable.step [97] Reachable.init (by decide) rfl, by decide, rfl,
    capacity_zero_always_miss ⟨[97, 0], [-1, 0, -1], 1⟩ ⟨[97, 0, 98, 0], [-1, 0, 2], 2⟩
      [97, 0, 98] [[97], [98]] [0, 2] (Reachable.step [97] Reachable.init (by decide) rfl)
      (by decide) rfl⟩

/-- C13, as stated, fails: in the reachable state that holds a string of 2^31 - 2
bytes, "\x01" and "\x02", the record "\x02" starts at offset 2^31 + 1.  `rehashAll`, run
on this arena with an all-empty slot array of the same capacity, narrows that offset to
the `int` index -2147483647 of `getString` and reads before the buffer; it does not
return the state. -/
theorem derived_counterexample :
    ∃ hs S, internAll empty [List.replicate (2 ^ 31 - 2) 1, [1], [2]] = .ok (hs, S) ∧
      Reachable S ∧
      rehashAll ⟨S.m_data, List.replicate S.m_hashes.length (-1), 0⟩ = .error .outOfBounds ∧
      rehashAll ⟨S.m_data, List.replicate S.m_hashes.length (-1), 0⟩ ≠ .ok S := by
  obtain ⟨-, -, S0, A, A3, -, -, -, -, -, -, -, hrun, hR, -, -, -, -, -, hre, -⟩ :=
    wrap_run (2 ^ 31 - 2) (by decide)
  refine ⟨_, A3, hrun, hR, hre 0, ?_⟩
  rw [hre 0]
  intro e
  cases e

/-- C13, amended. Hash index is derived data: in every state reached from the empty set
by `addString` calls on NUL-free strings shorter than 2^31 bytes that keep the arena
shorter than 2^31 bytes, running `rehashAll` on the same arena with an all-empty (-1)
slot array of the same capacity, from any value of the counter, returns exactly this
state: the same slot array, slot by slot, and the same `m_hashTableLoad`. -/
theorem index_is_derived (S : StringSet) (l : Nat) (hR : SmallReachable S) :
    rehashAll ⟨S.m_data, List.replicate S.m_hashes.length (-1), l⟩ = .ok S := by
  obtain ⟨recs, hI, -, hS⟩ := smallReachable_inv hR
  have hre := rehashAll_eq ⟨S.m_data, List.replicate S.m_hashes.length (-1), l⟩ recs
    hI.data hI.nul (offsetsFit_of_lt recs 0 (by rw [← hI.data]; omega))
  simp only [hI.built, ← hI.load] at hre
  exact hre

theorem index_is_derived_witness :
    SmallReachable ⟨[97, 0, 98, 0, 99, 0], [-1, 0, 2, 4, -1, -1, -1, -1, -1], 3⟩ ∧
    rehashAll ⟨[97, 0, 98, 0, 99, 0],
        List.replicate ([-1, 0, 2, 4, -1, -1, -1, -1, -1] : List Int).length (-1), 5⟩ =
      .ok ⟨[97, 0, 98, 0, 99, 0], [-1, 0, 2, 4, -1, -1, -1, -1, -1], 3⟩ :=
  ⟨SmallReachable.step [99]
      (SmallReachable.step [98]
        (SmallReachable.step [97] SmallReachable.init (by decide) (by decide) rfl (by decide))
        (by decide) (by decide) rfl (by decide))
      (by decide) (by decide) rfl (by decide),
    index_is_derived ⟨[97, 0, 98, 0, 99, 0], [-1, 0, 2, 4, -1, -1, -1, -1, -1], 3⟩ 5
      (SmallReachable.step [99]
        (SmallReachable.step [98]
          (SmallReachable.step [97] SmallReachable.init (by decide) (by decide) rfl (by decide))
          (by decide) (by decide) rfl (by decide))
        (by decide) (by decide) rfl (by decide))⟩

/-- C19. Actual occupancy bound: in every state reachable from the empty set by
`addString` calls, either load = 0 and capacity = 0, or load > 0 and
`2 * (load - 1) < capacity`; in both cases `2 * load ≤ capacity + 1`, a non-zero
capacity is odd, and load < capacity whenever capacity > 0.  The bound is attained:
the reachable state holding "a" and "b" has load 2 at capacity 3. -/
theorem occupancy_bound (S : StringSet) (hR : Reachable S) :
    ((S.m_hashTableLoad = 0 ∧ S.m_hashes.length = 0) ∨
      (0 < S.m_hashTableLoad ∧ 2 * (S.m_hashTableLoad - 1) < S.m_hashes.length)) ∧
    2 * S.m_hashTableLoad ≤ S.m_hashes.length + 1 ∧
    (S.m_hashes.length = 0 ∨ S.m_hashes.length % 2 = 1) ∧
    (0 < S.m_hashes.length → S.m_hashTableLoad < S.m_hashes.length) ∧
    ∃ S0, Reachable S0 ∧ S0.m_hashTableLoad = 2 ∧ S0.m_hashes.length = 3 ∧
      2 * S0.m_hashTableLoad = S0.m_hashes.length + 1 := by
  obtain ⟨hcap, hcnt⟩ := reachable_counters hR
  have hodd := cap_odd _ hcap
  have hex : ∃ S0, Reachable S0 ∧ S0.m_hashTableLoad = 2 ∧ S0.m_hashes.length = 3 ∧
      2 * S0.m_hashTableLoad = S0.m_hashes.length + 1 :=
    ⟨⟨[97, 0, 98, 0], [-1, 0, 2], 2⟩,
      Reachable.step [98] (Reachable.step [97] Reachable.init (by decide) rfl) (by decide) rfl,
      rfl, rfl, rfl⟩
  rcases hcnt with h1 | ⟨h1, h2⟩
  · rw [h1]
    exact ⟨Or.inl ⟨rfl, rfl⟩, by decide, Or.inl rfl, fun h => absurd h (by decide), hex⟩
  · exact ⟨Or.inr ⟨h1, h2⟩, by omega, hodd, fun _ => by omega, hex⟩

theorem occupancy_bound_witness :
    Reachable ⟨[97, 0, 98, 0], [-1, 0, 2], 2⟩ ∧
    (((2 : Nat) = 0 ∧ ([-1, 0, 2] : List Int).length = 0) ∨
      (0 < (2 : Nat) ∧ 2 * ((2 : Nat) - 1) < ([-1, 0, 2] : List Int).length)) ∧
    2 * (2 : Nat) ≤ ([-1, 0, 2] : List Int).length + 1 ∧
    (([-1, 0, 2] : List Int).length = 0 ∨ ([-1, 0, 2] : List Int).length % 2 = 1) ∧
    (0 < ([-1, 0, 2] : List Int).length → (2 : Nat) < ([-1, 0, 2] : List Int).length) ∧
    ∃ S0, Reachable S0 ∧ S0.m_hashTableLoad = 2 ∧ S0.m_hashes.length = 3 ∧
      2 * S0.m_hashTableLoad = S0.m_hashes.length + 1 :=
  ⟨Reachable.step [98] (Reachable.step [97] Reachable.init (by decide) rfl) (by decide) rfl,
    occupancy_bound ⟨[97, 0, 98, 0], [-1, 0, 2], 2⟩
      (Reachable.step [98] (Reachable.step [97] Reachable.init (by decide) rfl) (by decide)
        rfl)⟩

/-! ## Records of the arena -/

theorem drop_record (r rest : List Byte) : (r ++ 0 :: rest).drop (r.length + 1) = rest := by
  have h : r ++ 0 :: rest = (r ++ [0]) ++ rest := by simp
  rw [h]
  exact List.drop_left' (by simp)

theorem scanRecords_arenaOf (recs : List (List Byte)) (hnul : ∀ r ∈ recs, NulFree r) :
    ∀ fuel, recs.length ≤ fuel → scanRecords fuel (arenaOf recs) = recs := by
  induction recs with
  | nil =>
    intro fuel _
    cases fuel with
    | zero => rfl
    | succ f => simp [scanRecords, arenaOf, strlen]
  | cons r rs ih =>
    intro fuel hf
    obtain ⟨f, rfl⟩ : ∃ f, fuel = f + 1 := ⟨fuel - 1, by simp at hf; omega⟩
    have hr : NulFree r := hnul r (List.mem_cons_self r rs)
    simp only [scanRecords, arenaOf, strlen_payload r _ hr, List.take_left, drop_record]
    rw [ih (fun x hx => hnul x (List.mem_cons_of_mem r hx)) f (by simp at hf; omega)]

theorem records_arenaOf (recs : List (List Byte)) (hnul : ∀ r ∈ recs, NulFree r) :
    records (arenaOf recs) = recs :=
  scanRecords_arenaOf recs hnul _ (length_le_arenaOf recs)

theorem scanOffsets_arenaOf (recs : List (List Byte)) (hnul : ∀ r ∈ recs, NulFree r)
    (hnd : recs.Nodup) :
    ∀ fuel pos, recs.length ≤ fuel →
      (scanOffsets fuel pos (arenaOf recs)).length = recs.length ∧
      (scanOffsets fuel pos (arenaOf recs)).Nodup ∧
      ∀ o, o ∈ scanOffsets fuel pos (arenaOf recs) ↔
        ∃ r o1, offsetOf recs r = some o1 ∧ o = pos + o1 := by
  induction recs with
  | nil =>
    intro fuel pos _
    cases fuel with
    | zero => simp [scanOffsets, offsetOf]
    | succ f => simp [scanOffsets, arenaOf, strlen, offsetOf]
  | cons r rs ih =>
    intro fuel pos hf
    obtain ⟨f, rfl⟩ : ∃ f, fuel = f + 1 := ⟨fuel - 1, by simp at hf; omega⟩
    have hr : NulFree r := hnul r (List.mem_cons_self r rs)
    obtain ⟨hr_not, hnd1⟩ := List.nodup_cons.mp hnd
    obtain ⟨hlen, hnodup, hmem⟩ := ih (fun x hx => hnul x (List.mem_cons_of_mem r hx)) hnd1 f
      (pos + (r.length + 1)) (by simp at hf; omega)
    simp only [scanOffsets, arenaOf, strlen_payload r _ hr, drop_record]
    refine ⟨by simp [hlen], ?_, ?_⟩
    · refine List.nodup_cons.mpr ⟨?_, hnodup⟩
      intro h
      obtain ⟨r1, o1, -, ho⟩ := (hmem pos).mp h
      omega
    · intro o
      rw [List.mem_cons, hmem]
      constructor
      · rintro (h | ⟨r1, o1, h1, h2⟩)
        · exact ⟨r, 0, by simp [offsetOf], by omega⟩
        · have hne : r ≠ r1 := by
            intro e
            exact hr_not (e ▸ (offsetOf_isSome rs r1).mp ⟨o1, h1⟩)
          exact ⟨r1, o1 + (r.length + 1), by simp [offsetOf, hne, h1], by omega⟩
      · rintro ⟨r1, o1, h1, h2⟩
        by_cases hne : r = r1
        · subst hne
          simp only [offsetOf, if_true, Option.some.injEq] at h1
          left; omega
        · simp only [offsetOf, hne, if_false, Option.map_eq_some'] at h1
          obtain ⟨a, ha, rfl⟩ := h1
          exact Or.inr ⟨r1, a, ha, by omega⟩

theorem recordOffsets_arenaOf (recs : List (List Byte)) (hnul : ∀ r ∈ recs, NulFree r)
    (hnd : recs.Nodup) :
    (recordOffsets (arenaOf recs)).length = recs.length ∧
    (recordOffsets (arenaOf recs)).Nodup ∧
    ∀ o, o ∈ recordOffsets (arenaOf recs) ↔ ∃ r, offsetOf recs r = some o := by
  obtain ⟨h1, h2, h3⟩ := scanOffsets_arenaOf recs hnul hnd (arenaOf recs).length 0
    (length_le_arenaOf recs)
  refine ⟨h1, h2, ?_⟩
  intro o
  unfold recordOffsets
  rw [h3]
  constructor
  · rintro ⟨r, o1, h, e⟩
    exact ⟨r, by rw [h, e, Nat.zero_add]⟩
  · rintro ⟨r, h⟩
    exact ⟨r, o, h, by omega⟩

theorem filter_nodup_index {l : List Int} {p : Int → Bool} (h : (l.filter p).Nodup) :
    ∀ (i j : Nat) (v : Int), l[i]? = some v → l[j]? = some v → p v = true → i = j := by
  induction l with
  | nil => intro i j v hi; simp at hi
  | cons a l ih =>
    have hl : (l.filter p).Nodup := by
      by_cases ha : p a = true
      · rw [List.filter_cons_of_pos ha] at h
        exact (List.nodup_cons.mp h).2
      · rw [List.filter_cons_of_neg ha] at h
        exact h
    have hhead : ∀ (j : Nat) (v : Int), a = v → l[j]? = some v → p v = true → False := by
      intro j v hav hj hp
      subst hav
      rw [List.filter_cons_of_pos hp] at h
      have hmem : a ∈ l := List.mem_iff_getElem?.mpr ⟨j, hj⟩
      exact (List.nodup_cons.mp h).1 (List.mem_filter.mpr ⟨hmem, hp⟩)
    intro i j v hi hj hp
    cases i with
    | zero =>
      cases j with
      | zero => rfl
      | succ j =>
        simp only [List.getElem?_cons_zero, Option.some.injEq] at hi
        simp only [List.getElem?_cons_succ] at hj
        exact (hhead j v hi hj hp).elim
    | succ i =>
      cases j with
      | zero =>
        simp only [List.getElem?_cons_zero, Option.some.injEq] at hj
        simp only [List.getElem?_cons_succ] at hi
        exact (hhead i v hj hi hp).elim
      | succ j =>
        simp only [List.getElem?_cons_succ] at hi hj
        rw [ih hl i j v hi hj hp]

theorem count_add_occupied (l : List Int) :
    l.count (-1) + (l.filter (fun v => decide (v ≠ -1))).length = l.length := by
  induction l with
  | nil => rfl
  | cons a l ih =>
    by_cases ha : a = -1
    · subst ha
      rw [List.count_cons_self, List.filter_cons_of_neg (by simp), List.length_cons]
      omega
    · rw [List.count_cons_of_ne (Ne.symm ha), List.filter_cons_of_pos (by simpa using ha),
        List.length_cons, List.length_cons]
      omega

/-- C14, as stated, fails: in the reachable state that holds a string of 2^31 - 2
bytes, "\x01" and "\x02", an occupied slot holds -2147483647, the arena size 2^31 + 1
narrowed to `int`; no record of the arena starts at a negative offset. -/
theorem correspondence_counterexample :
    ∃ hs S, internAll empty [List.replicate (2 ^ 31 - 2) 1, [1], [2]] = .ok (hs, S) ∧
      Reachable S ∧
      (-2147483647 : Int) ∈ S.m_hashes.filter (fun v => decide (v ≠ -1)) ∧
      ¬ ∃ o, o ∈ recordOffsets S.m_data ∧ (-2147483647 : Int) = ((o : Nat) : Int) := by
  obtain ⟨-, -, S0, A, A3, -, -, -, -, -, -, -, hrun, hR, -, hmem, -, -, -, -, -⟩ :=
    wrap_run (2 ^ 31 - 2) (by decide)
  refine ⟨_, A3, hrun, hR, List.mem_filter.mpr ⟨hmem, by decide⟩, ?_⟩
  rintro ⟨o, -, ho⟩
  omega

/-- C14, amended. Index/arena correspondence: in every state reached from the empty set
by `addString` calls on NUL-free strings shorter than 2^31 bytes that keep the arena
shorter than 2^31 bytes, the occupied (not -1) slots of `m_hashes` hold pairwise
different values, these values are exactly the start offsets of the 0-terminated
records of the arena, and `m_hashTableLoad` equals both the number of occupied slots
and the number of arena records. -/
theorem index_arena_correspondence (S : StringSet) (hR : SmallReachable S) :
    (S.m_hashes.filter (fun v => decide (v ≠ -1))).Nodup ∧
    (∀ (i j : Nat) (v : Int), S.m_hashes[i]? = some v → S.m_hashes[j]? = some v → v ≠ -1 →
      i = j) ∧
    (∀ v : Int, v ∈ S.m_hashes.filter (fun v => decide (v ≠ -1)) ↔
      ∃ o, o ∈ recordOffsets S.m_data ∧ v = (o : Int)) ∧
    S.m_hashTableLoad = (S.m_hashes.filter (fun v => decide (v ≠ -1))).length ∧
    S.m_hashTableLoad = (recordOffsets S.m_data).length ∧
    S.m_hashTableLoad = (records S.m_data).length := by
  obtain ⟨recs, hI, -, -⟩ := smallReachable_inv hR
  obtain ⟨hT, hcount⟩ := hI.table
  obtain ⟨hlen, hnd, hmem⟩ := recordOffsets_arenaOf recs hI.nul hI.nodup
  rw [← hI.data] at hlen hnd hmem
  have hocc := count_add_occupied S.m_hashes
  have hvals : (S.m_hashes.filter (fun v => decide (v ≠ -1))).length = recs.length := by omega
  have hndI : ((recordOffsets S.m_data).map (fun o : Nat => (o : Int))).Nodup :=
    hnd.map (fun a b h => by simpa using h)
  have hsub : (recordOffsets S.m_data).map (fun o : Nat => (o : Int)) ⊆
      S.m_hashes.filter (fun v => decide (v ≠ -1)) := by
    intro v hv
    obtain ⟨o, ho, rfl⟩ := List.mem_map.mp hv
    obtain ⟨r, hr⟩ := (hmem o).mp ho
    obtain ⟨k, -, hat, -⟩ := hT.placed r o hr
    refine List.mem_filter.mpr ⟨List.mem_iff_getElem?.mpr ⟨_, hat⟩, ?_⟩
    have : (o : Int) ≠ -1 := by omega
    exact decide_eq_true this
  have hperm := (List.subperm_of_subset hndI hsub).perm_of_length_le
    (by rw [List.length_map, hvals, hlen])
  have hvnd : (S.m_hashes.filter (fun v => decide (v ≠ -1))).Nodup :=
    hperm.nodup_iff.mp hndI
  refine ⟨hvnd, ?_, ?_, ?_, ?_, ?_⟩
  · intro i j v hi hj hv
    exact filter_nodup_index hvnd i j v hi hj (by simpa using hv)
  · intro v
    rw [← hperm.mem_iff, List.mem_map]
    constructor
    · rintro ⟨o, ho, rfl⟩; exact ⟨o, ho, rfl⟩
    · rintro ⟨o, ho, rfl⟩; exact ⟨o, ho, rfl⟩
  · rw [hvals, hI.load]
  · rw [hlen, hI.load]
  · rw [hI.data, records_arenaOf recs hI.nul, hI.load]

theorem index_arena_correspondence_witness :
    SmallReachable ⟨[97, 0, 98, 0], [-1, 0, 2], 2⟩ ∧
    (([-1, 0, 2] : List Int).filter (fun v => decide (v ≠ -1))).Nodup ∧
    (∀ (i j : Nat) (v : Int), ([-1, 0, 2] : List Int)[i]? = some v →
      ([-1, 0, 2] : List Int)[j]? = some v → v ≠ -1 → i = j) ∧
    (∀ v : Int, v ∈ ([-1, 0, 2] : List Int).filter (fun v => decide (v ≠ -1)) ↔
      ∃ o, o ∈ recordOffsets [97, 0, 98, 0] ∧ v = (o : Int)) ∧
    (2 : Nat) = (([-1, 0, 2] : List Int).filter (fun v => decide (v ≠ -1))).length ∧
    (2 : Nat) = (recordOffsets [97, 0, 98, 0]).length ∧
    (2 : Nat) = (records [97, 0, 98, 0]).length :=
  ⟨SmallReachable.step [98]
      (SmallReachable.step [97] SmallReachable.init (by decide) (by decide) rfl (by decide))
      (by decide) (by decide) rfl (by decide),
    index_arena_correspondence ⟨[97, 0, 98, 0], [-1, 0, 2], 2⟩
      (SmallReachable.step [98]
        (SmallReachable.step [97] SmallReachable.init (by decide) (by decide) rfl (by decide))
        (by decide) (by decide) rfl (by decide))⟩

/-- C15, as stated, fails: for the call sequence of a string of 2^31 - 2 bytes, "\x01",
"\x02" and "\x02" again, the first three calls return and the fourth does not: its
lookup reaches the slot of "\x02", which holds -2147483647, and reads outside the
buffer.  No state is reached whose records are the distinct strings of this
sequence. -/
theorem dedup_counterexample :
    (∀ s ∈ [List.replicate (2 ^ 31 - 2) (1 : Byte), [1], [2], [2]], NulFree s) ∧
    internAll empty [List.replicate (2 ^ 31 - 2) 1, [1], [2], [2]] = .error .outOfBounds ∧
    ¬ ∃ hs A, internAll empty [List.replicate (2 ^ 31 - 2) 1, [1], [2], [2]] =
      .ok (hs, A) := by
  obtain ⟨-, hnul, S0, A, A3, -, -, -, -, -, -, -, -, -, -, -, -, -, -, -, hrun4⟩ :=
    wrap_run (2 ^ 31 - 2) (by decide)
  refine ⟨hnul, hrun4, ?_⟩
  · rintro ⟨hs, A1, e⟩
    rw [hrun4] at e
    cases e

/-- C15, amended. Deduplication invariant: in every state reached from the empty set by
`addString` calls on NUL-free strings shorter than 2^31 bytes that keep the arena
shorter than 2^31 bytes, the 0-terminated records of the arena are pairwise distinct as
byte strings; after interning into the empty set a sequence whose distinct strings,
each with its terminator, take fewer than 2^31 bytes together, they are exactly the
distinct strings of the sequence in order of first occurrence. -/
theorem arena_records_deduplicated (S : StringSet) (ss : List (List Byte))
    (hR : SmallReachable S) (hss : ∀ s ∈ ss, NulFree s)
    (hfit : (arenaOf (firstOccurrences ss)).length < 2 ^ 31) :
    (records S.m_data).Nodup ∧
    ∃ hs A, internAll empty ss = .ok (hs, A) ∧ (records A.m_data).Nodup ∧
      records A.m_data = firstOccurrences ss ∧ ∀ s, s ∈ records A.m_data ↔ s ∈ ss := by
  obtain ⟨recs, hI, -, -⟩ := smallReachable_inv hR
  obtain ⟨A, hrun, hIA⟩ := internAll_spec ss empty [] inv_empty hss
    (by rw [internRecs_nil]; exact hfit)
  have hrec : records A.m_data = internRecs [] ss := by
    rw [hIA.data, records_arenaOf _ hIA.nul]
  refine ⟨?_, _, A, hrun, ?_, ?_, ?_⟩
  · rw [hI.data, records_arenaOf recs hI.nul]; exact hI.nodup
  · rw [hrec]; exact hIA.nodup
  · rw [hrec, internRecs_nil]
  · intro s
    rw [hrec, mem_internRecs]
    simp

theorem arena_records_deduplicated_witness :
    SmallReachable ⟨[97, 0, 98, 0], [-1, 0, 2], 2⟩ ∧
    (∀ s ∈ [[98], [97], [98], [99, 99], [97]], NulFree s) ∧
    (arenaOf (firstOccurrences [[98], [97], [98], [99, 99], [97]])).length < 2 ^ 31 ∧
    (records [97, 0, 98, 0]).Nodup ∧
    ∃ hs A, internAll empty [[98], [97], [98], [99, 99], [97]] = .ok (hs, A) ∧
      (records A.m_data).Nodup ∧
      records A.m_data = firstOccurrences [[98], [97], [98], [99, 99], [97]] ∧
      ∀ s, s ∈ records A.m_data ↔ s ∈ [[98], [97], [98], [99, 99], ([97] : List Byte)] :=
  ⟨SmallReachable.step [98]
      (SmallReachable.step [97] SmallReachable.init (by decide) (by decide) rfl (by decide))
      (by decide) (by decide) rfl (by decide),
    by decide, by decide,
    arena_records_deduplicated ⟨[97, 0, 98, 0], [-1, 0, 2], 2⟩
      [[98], [97], [98], [99, 99], [97]]
      (SmallReachable.step [98]
        (SmallReachable.step [97] SmallReachable.init (by decide) (by decide) rfl (by decide))
        (by decide) (by decide) rfl (by decide))
      (by decide) (by decide)⟩

/-! ## The hash function -/

theorem hashStep_eq (h : Nat) (b : Byte) :
    hashStep h b = (h * 33 + charToUnsignedInt b) % 2 ^ 64 := by
  unfold hashStep
  omega

theorem toInt32_mod (x : Nat) : toInt32 (x % 2 ^ 32) = toInt32 x := by
  unfold toInt32
  rw [Nat.mod_mod]

theorem foldl_hashStep_mod (l : List Byte) :
    ∀ h1 h2 : Nat, h1 % 2 ^ 32 = h2 % 2 ^ 32 →
      (l.foldl hashStep h1) % 2 ^ 32 =
        (l.foldl (fun h b => (h * 33 + charToUnsignedInt b) % 2 ^ 32) h2) % 2 ^ 32 := by
  induction l with
  | nil => intro h1 h2 h; exact h
  | cons b l ih =>
    intro h1 h2 h
    simp only [List.foldl_cons]
    apply ih
    rw [hashStep_eq]
    omega

/-- What `stringHash` computes, in 32-bit terms: the fold `h := h*33 + c` with wraparound
over the first `slen` bytes, where `c` is the `char` converted to `unsigned int`. -/
theorem stringHash_eq (s : List Byte) (n : Nat) :
    stringHash s n =
      toInt32 ((s.take n).foldl (fun h b => (h * 33 + charToUnsignedInt b) % 2 ^ 32) 5381) := by
  unfold stringHash
  rw [← toInt32_mod, foldl_hashStep_mod (s.take n) 5381 5381 rfl, toInt32_mod]

theorem foldl_spec_congr (l : List Byte) (hl : ∀ b ∈ l, b.val < 128) :
    ∀ h : Nat, l.foldl (fun h b => (h * 33 + charToUnsignedInt b) % 2 ^ 32) h =
      l.foldl (fun h b => (h * 33 + b.val) % 2 ^ 32) h := by
  induction l with
  | nil => intro h; rfl
  | cons b l ih =>
    intro h
    have hb : b.val < 128 := hl b (List.mem_cons_self b l)
    simp only [List.foldl_cons, charToUnsignedInt, hb, if_true]
    exact ih (fun x hx => hl x (List.mem_cons_of_mem b hx)) _

/-- On bytes below 0x80 the code computes the hash of the specification. -/
theorem stringHash_seven_bit (s : List Byte) (n : Nat) (hs : ∀ b ∈ s.take n, b.val < 128) :
    stringHash s n = specHash s n := by
  rw [stringHash_eq, foldl_spec_congr _ hs]
  rfl

/-- C16, on the code: `stringHash` reads the first `slen` bytes only and its step
`(hash << 5) + hash + c` is `hash * 33 + c`, but `c` is the `char` converted to
`unsigned int`, which for a byte from 0x80 on is the byte plus 2^32 - 256.  On the
one-byte string 0x80 the code returns 177445 where the fold `h*33 + b` of the
specification gives 177701, and on the two bytes of "é" (0xC3 0xA9) it returns 5857809
where the specification gives 5866513. -/
theorem hash_of_high_bytes :
    stringHash [128] 1 = 177445 ∧ specHash [128] 1 = 177701 ∧
    stringHash (cstr [195, 169]) 2 = 5857809 ∧ specHash (cstr [195, 169]) 2 = 5866513 ∧
    charToUnsignedInt 128 = 4294967168 ∧
    (∀ (s : List Byte) (n : Nat), stringHash s n =
      toInt32 ((s.take n).foldl (fun h b => (h * 33 + charToUnsignedInt b) % 2 ^ 32) 5381)) ∧
    (∀ (h : Nat) (b : Byte), hashStep h b = (h * 33 + charToUnsignedInt b) % 2 ^ 64) ∧
    (∀ s rest : List Byte, stringHash (s ++ rest) s.length = stringHash s s.length) :=
  ⟨rfl, rfl, rfl, rfl, rfl, stringHash_eq, hashStep_eq, fun s rest => stringHash_payload s rest⟩

/-! ## Invocations of `addHashNoRehash` -/

/-- C18, on the code: a stream that declares the arena "a" (2 bytes, ending in 0) and a
stored capacity of 0 makes `loadFromFile` invoke `addHashNoRehash` on an empty slot
array, where `hash % m_hashes.size()` divides by zero; a stream that declares the arena
"a", "b", "c" and a stored capacity of 2 makes the third `addHashNoRehash` probe a slot
array without an empty slot, which it never leaves.  Neither call returns true. -/
theorem load_with_bad_capacity :
    loadFromFile empty [2, 0, 0, 0, 97, 0, 0, 0, 0, 0] = .error .divideByZero ∧
    (loadFromFileCalls empty [2, 0, 0, 0, 97, 0, 0, 0, 0, 0]).map
      (fun c => c.state.m_hashes) = [[]] ∧
    loadFromFile empty [6, 0, 0, 0, 97, 0, 98, 0, 99, 0, 2, 0, 0, 0] = .error .diverges ∧
    (loadFromFileCalls empty [6, 0, 0, 0, 97, 0, 98, 0, 99, 0, 2, 0, 0, 0]).map
      (fun c => c.state.m_hashes) = [[-1, -1], [0, -1], [0, 2]] :=
  ⟨rfl, rfl, rfl, rfl⟩

end StringSet
